import Mathlib

/-!
# issue9/ini: tokenizer, map projection and writer

A shallow embedding of `read.go` and `write.go`.

Modelling conventions.

* A Go `string` / `[]byte` is modelled as the list of its code points
  (`GoString := List Char`); inputs are taken to be valid UTF-8, so that byte
  tests against ASCII characters (`line[0]`, `line[len(line)-1]`,
  `strings.IndexByte`) agree with the same tests on code points, and a
  string has zero bytes exactly when the list is empty.
* `bufio.Reader` over an in-memory string is modelled by the text that is
  still unread; its only error is `io.EOF`.
* `bufio.Writer` is modelled with its sticky error, its pending text, its
  buffer size and the `io.Writer` under it; the `io.Writer` is a sink that
  answers each call of `Write` with the number of characters it accepts and
  an error, in any way the contract of `io.Writer` allows (`bytes.Buffer`
  accepts everything and never fails).  Lengths are counted in characters,
  which for ASCII text are bytes.
* The `goto START` loop of `Reader.Token` and the `for` loop of
  `UnmarshalMap` are recursions on a fuel counter; the result `none` stands
  for a run that yields no result (fuel exhausted, or the index panic of
  `parseLine` on an empty line).  `Token_spec` and `UnmarshalMap_spec` show
  that with the fuel chosen by the entry points this never happens on a reader
  made by `NewReaderString`.
-/

namespace Ini

/-! ## Strings and the library functions used by the source -/

/-- A Go string, as the list of its code points. -/
abbrev GoString := List Char

/-- Go `unicode.IsSpace`: the Latin-1 cases `'\t' '\n' '\v' '\f' '\r' ' '`,
U+0085, U+00A0, and beyond Latin-1 the `White_Space` range table. -/
def isSpace (c : Char) : Bool :=
  let n := c.toNat
  (9 ≤ n && n ≤ 13) || n == 32 || n == 133 || n == 160 ||
  n == 5760 || (8192 ≤ n && n ≤ 8202) || n == 8232 || n == 8233 ||
  n == 8239 || n == 8287 || n == 12288

/-- Go `strings.TrimLeftFunc`. -/
def trimLeftFunc (s : GoString) (f : Char → Bool) : GoString :=
  s.dropWhile f

/-- Go `strings.TrimRightFunc`. -/
def trimRightFunc (s : GoString) (f : Char → Bool) : GoString :=
  s.rdropWhile f

/-- Go `strings.TrimSpace`: leading and trailing white space removed. -/
def trimSpace (s : GoString) : GoString :=
  trimRightFunc (trimLeftFunc s isSpace) isSpace

/-- Go `strings.IndexRune` / `strings.IndexByte` for an ASCII needle: the
index of the first occurrence, or `-1`. -/
def indexRune (s : GoString) (c : Char) : Int :=
  if s.indexOf c < s.length then (s.indexOf c : Int) else -1

/-- Go slice expression `s[i:j]`. -/
def slice (s : GoString) (i j : Nat) : GoString :=
  (s.take j).drop i

/-- Go `bufio.Reader.ReadString('\n')` on in-memory text: the text up to and
including the first newline, the text left unread, and whether `io.EOF` was
reported (no newline found). -/
def readString : GoString → GoString × GoString × Bool
  | [] => ([], [], true)
  | c :: cs =>
    if c = '\n' then ([c], cs, false)
    else
      let res := readString cs
      (c :: res.1, res.2.1, res.2.2)

/-! ## read.go -/

/-- The `SyntaxError` struct. -/
structure SyntaxError where
  Line : Nat
  Msg : String
  deriving DecidableEq, Repr

/-- A Go `error` value returned by this package: a `*SyntaxError`, or a plain
`errors.New` error. -/
inductive GoError where
  | syntaxError (e : SyntaxError)
  | other (msg : String)
  deriving DecidableEq, Repr

/-- Equality of results is decidable, so that concrete runs can be evaluated. -/
instance instDecidableEqExcept {ε α : Type} [DecidableEq ε] [DecidableEq α] :
    DecidableEq (Except ε α)
  | .ok a, .ok b => if h : a = b then isTrue (by rw [h]) else isFalse (fun h1 => h (Except.ok.inj h1))
  | .error a, .error b =>
    if h : a = b then isTrue (by rw [h]) else isFalse (fun h1 => h (Except.error.inj h1))
  | .ok _, .error _ => isFalse (fun h => nomatch h)
  | .error _, .ok _ => isFalse (fun h => nomatch h)

def Undefined : Nat := 0
def Element : Nat := 1
def Section : Nat := 2
def Comment : Nat := 3
def EOF : Nat := 4

/-- The `Token` struct; field `Typ` is Go's `Type` (a reserved word here). -/
structure Token where
  Typ : Nat
  Key : GoString
  Value : GoString
  deriving DecidableEq, Repr

/-- Method `Token.reset`. -/
def Token.reset (_t : Token) : Token :=
  { Typ := Undefined, Value := [], Key := [] }

/-- The `Reader` struct; `reader` holds the unread input. -/
structure Reader where
  reader : GoString
  atEOF : Bool
  line : Nat
  token : Token
  deriving DecidableEq, Repr

/-- Function `NewReaderString` (and `NewReaderBytes`): zero values for
`atEOF`, `line`, and an empty token. -/
def NewReaderString (str : GoString) : Reader :=
  { reader := str, atEOF := false, line := 0, token := { Typ := 0, Key := [], Value := [] } }

/-- Method `Reader.newSyntaxError`. -/
def Reader.newSyntaxError (r : Reader) (msg : String) : GoError :=
  .syntaxError { Msg := msg, Line := r.line }

/-- Method `Reader.parseLine`.  The result is the returned pair (a token or an
error) and the reader afterwards; `none` is the index panic of `line[0]` on an
empty line. -/
def Reader.parseLine (r : Reader) (line : GoString) : Option (Except GoError Token × Reader) :=
  match line.head? with
  | none => none
  | some c0 =>
    if c0 = '[' then
      if line.getLast? ≠ some ']' then
        some (.error (r.newSyntaxError "parseLine:section名称没有以]作为结尾"), r)
      else
        let r1 := { r with token := { r.token with Value := trimSpace (slice line 1 (line.length - 1)) } }
        if r1.token.Value.length = 0 then
          some (.error (r1.newSyntaxError "parseLine:section名称不能为空字符串"), r1)
        else
          let r2 := { r1 with token := { r1.token with Typ := Section } }
          some (.ok r2.token, r2)
    else if c0 = '#' ∨ c0 = ';' then
      let r1 := { r with token := { r.token with Typ := Comment } }
      let r2 := { r1 with token := { r1.token with Value := line.drop 1 } }
      some (.ok r2.token, r2)
    else
      let pos := indexRune line '='
      if pos < 0 then
        some (.error (r.newSyntaxError "parseLine:表达式中未找到`=`符号"), r)
      else if pos = 0 then
        some (.error (r.newSyntaxError "parseLine:键名不能为空"), r)
      else
        let r1 := { r with token := { r.token with Typ := Element } }
        let r2 := { r1 with token := { r1.token with
                      Key := trimRightFunc (slice line 0 pos.toNat) isSpace } }
        let r3 := { r2 with token := { r2.token with
                      Value := trimLeftFunc (line.drop (pos.toNat + 1)) isSpace } }
        some (.ok r3.token, r3)

/-- The body of `Reader.Token` from label `START` on; each `goto START` spends
one unit of fuel. -/
def Reader.tokenStart : Nat → Reader → Option (Except GoError Token × Reader)
  | 0, _ => none
  | fuel + 1, r =>
    if r.atEOF then
      let r1 := { r with token := { r.token with Typ := EOF } }
      some (.ok r1.token, r1)
    else
      let res := readString r.reader
      let buffer := res.1
      let r1 := { r with reader := res.2.1, line := r.line + 1 }
      let r2 := if res.2.2 then { r1 with atEOF := true } else r1
      if res.2.2 ∧ buffer.length = 0 then
        let r3 := { r2 with token := { r2.token with Typ := EOF } }
        some (.ok r3.token, r3)
      else
        let buffer := trimSpace buffer
        if buffer.length = 0 then
          Reader.tokenStart fuel r2
        else
          r2.parseLine buffer

/-- Method `Reader.Token`.  Every pass through `START` but the last consumes
at least one character, so `len + 2` passes are enough. -/
def Reader.Token (r : Reader) : Option (Except GoError Token × Reader) :=
  Reader.tokenStart (r.reader.length + 2) { r with token := r.token.reset }

/-- The results of `k` successive calls of `Reader.Token`, in order. -/
def Reader.calls : Nat → Reader → Option (List (Except GoError Ini.Token))
  | 0, _ => some []
  | k + 1, r =>
    match r.Token with
    | none => none
    | some (res, r1) => (Reader.calls k r1).map (fun rest => res :: rest)

/-- A Go `map[string]V`, as an association list with distinct keys. -/
abbrev GoMap (V : Type) := List (GoString × V)

/-- Go map read `m[k]` (with its `ok` flag). -/
def GoMap.get {V : Type} (m : GoMap V) (k : GoString) : Option V :=
  List.lookup k m

/-- Go map write `m[k] = v`. -/
def GoMap.set {V : Type} (m : GoMap V) (k : GoString) (v : V) : GoMap V :=
  (k, v) :: m.filter (fun p => p.1 ≠ k)

/-- The keys of a Go map. -/
def GoMap.keys {V : Type} (m : GoMap V) : List GoString :=
  m.map Prod.fst

/-- The `LOOP` of `UnmarshalMap`, one unit of fuel per call of `Reader.Token`;
the result is the returned pair (mapping or nil, error or nil). -/
def unmarshalLoop : Nat → Reader → GoMap (GoMap GoString) → GoMap GoString → GoString →
    Option (Option (GoMap (GoMap GoString)) × Option GoError)
  | 0, _, _, _, _ => none
  | fuel + 1, r, m, currSection, sectionName =>
    match r.Token with
    | none => none
    | some (.error err, _) => some (none, some err)
    | some (.ok token, r1) =>
      if token.Typ = Comment then
        unmarshalLoop fuel r1 m currSection sectionName
      else if token.Typ = EOF then
        some (some (m.set sectionName currSection), none)
      else if token.Typ = Element then
        unmarshalLoop fuel r1 m (currSection.set token.Key token.Value) sectionName
      else if token.Typ = Section then
        unmarshalLoop fuel r1 (m.set sectionName currSection) [] token.Value
      else
        some (none, some (.other "UnmarshalMap:未知的元素类型"))

/-- Function `UnmarshalMap`.  Each call of `Reader.Token` but the last consumes
at least one character, so `len + 2` calls are enough. -/
def UnmarshalMap (data : GoString) : Option (Option (GoMap (GoMap GoString)) × Option GoError) :=
  if data.length = 0 then
    some (none, some (.syntaxError { Msg := "UnmarshalMap:没有内容", Line := 0 }))
  else
    unmarshalLoop (data.length + 2) (NewReaderString data) [] [] []

/-! ## write.go -/

/-- An `io.Writer`: the text it has accepted so far and the way its `Write`
will answer.  An answer is a pair: the number of characters accepted at most,
and the error returned.  `plan` lists the answers to the coming calls in
order; `after` is the answer to every call once the plan is used up, `none`
standing for a call that accepts the whole text without error (as every call
of a `bytes.Buffer`). -/
structure Sink where
  written : GoString
  plan : List (Nat × Option GoError)
  after : Option (Nat × Option GoError)
  deriving DecidableEq, Repr

/-- An error returned by the `Write` of a failing sink. -/
def sinkError : GoError := .other "io.Writer: write failed"

/-- Go `io.ErrShortWrite`. -/
def ErrShortWrite : GoError := .other "short write"

/-- One call of `Write` with the answer `r`: the first `r.1` characters of `p`
(all of `p` when it is shorter) are accepted and `r.2` is the error. -/
def Sink.answer (s : Sink) (r : Nat × Option GoError) (p : GoString) :
    Sink × Nat × Option GoError :=
  ({ s with written := s.written ++ p.take (min r.1 p.length) }, min r.1 p.length, r.2)

/-- Method `Write` of the `io.Writer`: the sink afterwards, the number of
characters accepted and the error. -/
def Sink.Write (s : Sink) (p : GoString) : Sink × Nat × Option GoError :=
  match s.plan with
  | r :: rest => Sink.answer { s with plan := rest } r p
  | [] =>
    match s.after with
    | some r => Sink.answer s r p
    | none => ({ s with written := s.written ++ p }, p.length, none)

/-- A sink whose `Write` accepts the whole text without error at every call. -/
def Sink.NeverFails (s : Sink) : Prop :=
  s.plan = [] ∧ s.after = none

/-- Go `bufio.Writer`: the sticky error `err`, the pending text `buf`
(`b.buf[0:b.n]`), the buffer size `size` (`len(b.buf)`) and the underlying
`io.Writer`.  Lengths are counted in characters. -/
structure BufWriter where
  err : Option GoError
  buf : GoString
  size : Nat
  wr : Sink
  deriving DecidableEq, Repr

/-- Go `bufio.NewWriter`: an empty buffer of the default size 4096. -/
def NewBufWriter (w : Sink) : BufWriter :=
  { err := none, buf := [], size := 4096, wr := w }

/-- Go `bufio.Writer.Available`. -/
def BufWriter.Available (b : BufWriter) : Nat :=
  b.size - b.buf.length

/-- Go `bufio.Writer.Flush`. -/
def BufWriter.Flush (b : BufWriter) : BufWriter × Option GoError :=
  if b.err ≠ none then (b, b.err)
  else if b.buf.length = 0 then (b, none)
  else
    let res := b.wr.Write b.buf
    let n := res.2.1
    let err := if n < b.buf.length ∧ res.2.2 = none then some ErrShortWrite else res.2.2
    if err ≠ none then
      ({ b with wr := res.1, buf := b.buf.drop n, err := err }, err)
    else
      ({ b with wr := res.1, buf := [] }, none)

/-- Go `bufio.Writer.WriteByte`. -/
def BufWriter.WriteByte (b : BufWriter) (c : Char) : BufWriter × Option GoError :=
  if b.err ≠ none then (b, b.err)
  else if b.Available ≤ 0 ∧ b.Flush.2 ≠ none then (b.Flush.1, b.Flush.1.err)
  else
    let b1 := if b.Available ≤ 0 then b.Flush.1 else b
    ({ b1 with buf := b1.buf ++ [c] }, none)

/-- The `for` loop of Go `bufio.Writer.WriteString`, one unit of fuel per pass:
the writer, the text still to copy and the count `nn` when the loop is left. -/
def BufWriter.writeStringLoop : Nat → BufWriter → GoString → Nat →
    Option (BufWriter × GoString × Nat)
  | 0, _, _, _ => none
  | fuel + 1, b, s, nn =>
    if s.length > b.Available ∧ b.err = none then
      let n := min b.Available s.length
      let b1 := { b with buf := b.buf ++ s.take n }
      BufWriter.writeStringLoop fuel b1.Flush.1 (s.drop n) (nn + n)
    else some (b, s, nn)

/-- Go `bufio.Writer.WriteString`: the writer afterwards, the number of
characters accepted and the error.  Every pass of the loop but the first copies
`size` characters, so `len + 2` passes are enough when `size` is positive. -/
def BufWriter.WriteString (b : BufWriter) (s : GoString) :
    Option (BufWriter × Nat × Option GoError) :=
  match BufWriter.writeStringLoop (s.length + 2) b s 0 with
  | none => none
  | some (b1, s1, nn) =>
    if b1.err ≠ none then some (b1, nn, b1.err)
    else some ({ b1 with buf := b1.buf ++ s1 }, nn + s1.length, none)

/-- The `Writer` struct. -/
structure Writer where
  buf : BufWriter
  symbol : Char
  deriving DecidableEq, Repr

/-- Function `NewWriter`. -/
def NewWriter (w : Sink) (commentSymbol : Char) : Except GoError Writer :=
  if commentSymbol ≠ '#' ∧ commentSymbol ≠ ';' then
    .error (.other "NewWriter:注释符号只能是`;`或`#`")
  else
    .ok { buf := NewBufWriter w, symbol := commentSymbol }

/-- Method `Writer.NewLine`. -/
def Writer.NewLine (w : Writer) : Writer × Option GoError :=
  ({ w with buf := (w.buf.WriteByte '\n').1 }, (w.buf.WriteByte '\n').2)

/-- Method `Writer.AddSection`: the writer afterwards and the returned error
(`sec` is the parameter `section`); `none` when a `WriteString` loop runs out
of fuel. -/
def Writer.AddSection (w : Writer) (sec : GoString) : Option (Writer × Option GoError) :=
  if sec.length = 0 then
    some (w, some (.other "AddSection:section名称不能为空值"))
  else if indexRune sec '\n' > -1 then
    some (w, some (.other "AddSection:section名称中不能包含换行符"))
  else
    let r1 := w.buf.WriteByte '['
    if r1.2 ≠ none then some ({ w with buf := r1.1 }, r1.2)
    else
      match r1.1.WriteString sec with
      | none => none
      | some r2 =>
        if r2.2.2 ≠ none then some ({ w with buf := r2.1 }, r2.2.2)
        else
          match r2.1.WriteString [']', '\n'] with
          | none => none
          | some r3 => some ({ w with buf := r3.1 }, r3.2.2)

/-- Method `Writer.AddElement`. -/
def Writer.AddElement (w : Writer) (key val : GoString) : Option (Writer × Option GoError) :=
  if key.length = 0 then
    some (w, some (.other "AddElement:参数key不能为空"))
  else if indexRune key '\n' > -1 ∨ indexRune val '\n' > -1 then
    some (w, some (.other "AddElement:参数key和val都不能包含换行符"))
  else
    match w.buf.WriteString key with
    | none => none
    | some r1 =>
      if r1.2.2 ≠ none then some ({ w with buf := r1.1 }, r1.2.2)
      else
        let r2 := r1.1.WriteByte '='
        if r2.2 ≠ none then some ({ w with buf := r2.1 }, r2.2)
        else
          match r2.1.WriteString val with
          | none => none
          | some r3 =>
            if r3.2.2 ≠ none then some ({ w with buf := r3.1 }, r3.2.2)
            else some (Writer.NewLine { w with buf := r3.1 })

/-- Go `strings.Replace(s, "\n", new, -1)`: every newline replaced by `new`. -/
def replaceNewline (s : GoString) (new : GoString) : GoString :=
  match s with
  | [] => []
  | c :: cs => if c = '\n' then new ++ replaceNewline cs new else c :: replaceNewline cs new

/-- Method `Writer.AddComment`. -/
def Writer.AddComment (w : Writer) (comment : GoString) : Option (Writer × Option GoError) :=
  let comment :=
    if indexRune comment '\n' > -1 then replaceNewline comment ['\n', w.symbol] else comment
  let r1 := w.buf.WriteByte w.symbol
  if r1.2 ≠ none then some ({ w with buf := r1.1 }, r1.2)
  else
    match r1.1.WriteString comment with
    | none => none
    | some r2 =>
      if r2.2.2 ≠ none then some ({ w with buf := r2.1 }, r2.2.2)
      else some (Writer.NewLine { w with buf := r2.1 })

/-- Method `Writer.Flush`: the error of `bufio.Writer.Flush` is dropped. -/
def Writer.Flush (w : Writer) : Writer :=
  { w with buf := w.buf.Flush.1 }

/-- The text handed to the writer so far: what the `io.Writer` has accepted,
followed by what is pending in the buffer. -/
def BufWriter.text (b : BufWriter) : GoString :=
  b.wr.written ++ b.buf

/-- The outcome of writing the text `p` to a `bufio.Writer`: `b1` is the writer
afterwards and `e` the returned error.  The buffer size is kept; without error
the whole of `p` was accepted; with an error the error is the writer's sticky
error and a prefix of `p` was accepted; and a writer without error over a sink
that never fails returns no error. -/
def Appended (b b1 : BufWriter) (e : Option GoError) (p : GoString) : Prop :=
  b1.size = b.size ∧
  (e = none → b1.err = none ∧ b1.text = b.text ++ p) ∧
  (e ≠ none → b1.err = e ∧ ∃ q rest, p = q ++ rest ∧ b1.text = b.text ++ q) ∧
  (b.err = none → b.wr.NeverFails → e = none ∧ b1.wr.NeverFails)

/-- An empty `bytes.Buffer`, the sink of `TestWrite`: its `Write` never fails. -/
def bytesBuffer : Sink :=
  { written := [], plan := [], after := none }

/-- An `io.Writer` whose `Write` accepts nothing and fails, at every call. -/
def failingSink : Sink :=
  { written := [], plan := [], after := some (0, some sinkError) }

/-- The loop body of `TestWrite`: one token written with the call its type
selects (returned errors are dropped there). -/
def writeToken (w : Writer) (token : Token) : Option Writer :=
  if token.Typ = Comment then (w.AddComment token.Value).map Prod.fst
  else if token.Typ = Element then (w.AddElement token.Key token.Value).map Prod.fst
  else if token.Typ = Section then (w.AddSection token.Value).map Prod.fst
  else some w

/-- The loop of `TestWrite` over a list of tokens. -/
def writeTokens : Writer → List Token → Option Writer
  | w, [] => some w
  | w, t :: ts =>
    match writeToken w t with
    | none => none
    | some w1 => writeTokens w1 ts

/-! ## Specification-side vocabulary -/

/-- The physical lines of a text: the pieces between newlines; a newline at the
very end closes the last line and opens no further one. -/
def physLines : GoString → List GoString
  | [] => []
  | c :: cs =>
    if c = '\n' then [] :: physLines cs
    else
      match physLines cs with
      | [] => [[c]]
      | l :: ls => (c :: l) :: ls

/-- The lines that are non-empty after trimming, trimmed, each with its 1-based
number among the physical lines when the first of `ls` has number `n + 1`. -/
def nonBlankFrom (n : Nat) : List GoString → List (Nat × GoString)
  | [] => []
  | l :: ls =>
    if trimSpace l = [] then nonBlankFrom (n + 1) ls
    else (n + 1, trimSpace l) :: nonBlankFrom (n + 1) ls

/-- The physical lines of an input, each trimmed and paired with its 1-based
line number. -/
def numberedLines (s : GoString) : List (Nat × GoString) :=
  ((physLines s).map trimSpace).enumFrom 1

/-- The non-blank lines of an input: those non-empty after trimming, trimmed,
with their physical line numbers, in order. -/
def nonBlankLines (s : GoString) : List (Nat × GoString) :=
  (numberedLines s).filter (fun p => decide (p.2 ≠ []))

/-- The token after `Token.reset`. -/
def resetToken : Token := { Typ := Undefined, Key := [], Value := [] }

/-- The token returned at the end of the input. -/
def eofToken : Token := { Typ := EOF, Key := [], Value := [] }

/-- What `parseLine` returns for the non-empty line `l` when the line counter is
`n` and the token has just been reset. -/
def lineResult (n : Nat) (l : GoString) : Except GoError Token :=
  match Reader.parseLine { reader := [], atEOF := false, line := n, token := resetToken } l with
  | some p => p.1
  | none => .ok resetToken

/-- The results still to come from a reader: one per remaining non-blank line. -/
def pending (r : Reader) : List (Except GoError Token) :=
  (nonBlankFrom r.line (physLines r.reader)).map (fun p => lineResult p.1 p.2)

/-- The tokens of the write-then-read round trip: a Comment whose text has no
newline and no trailing whitespace; an Element whose key is non-empty, has no
`=`, no newline, no leading or trailing whitespace and does not start with `[`,
`#` or `;`, and whose value has no newline and no leading or trailing
whitespace; a Section whose name is non-empty, without newline and without
leading or trailing whitespace.  Comments and Sections carry an empty Key. -/
def RoundTrippable (t : Token) : Prop :=
  (t.Typ = Comment ∧ t.Key = [] ∧ '\n' ∉ t.Value ∧ trimRightFunc t.Value isSpace = t.Value) ∨
  (t.Typ = Element ∧ t.Key ≠ [] ∧ '=' ∉ t.Key ∧ '\n' ∉ t.Key ∧ trimSpace t.Key = t.Key ∧
    t.Key.head? ≠ some '[' ∧ t.Key.head? ≠ some '#' ∧ t.Key.head? ≠ some ';' ∧
    '\n' ∉ t.Value ∧ trimSpace t.Value = t.Value) ∨
  (t.Typ = Section ∧ t.Key = [] ∧ t.Value ≠ [] ∧ '\n' ∉ t.Value ∧ trimSpace t.Value = t.Value)

/-- The tokens of the specification's round-trip scenario. -/
def scenarioTokens : List Token :=
  [{ Typ := Comment, Key := [], Value := "hello".toList },
   { Typ := Element, Key := "k1".toList, Value := "v1".toList },
   { Typ := Element, Key := "k2".toList, Value := "v2".toList },
   { Typ := Section, Key := [], Value := "s1".toList },
   { Typ := Element, Key := "k1".toList, Value := "v1".toList }]

instance instDecidableRoundTrippable : DecidablePred RoundTrippable := fun t => by
  unfold RoundTrippable
  infer_instance

/-- The line, without its newline, that `writeToken` emits for a token when
the comment marker is `sym`. -/
def tokenLine (sym : Char) (t : Token) : GoString :=
  if t.Typ = Comment then sym :: t.Value
  else if t.Typ = Element then t.Key ++ '=' :: t.Value
  else '[' :: (t.Value ++ [']'])

/-- The fold that `UnmarshalMap` performs, over the list of results that the calls
of `Reader.Token` return before the end of the input. -/
def foldResults (m : GoMap (GoMap GoString)) (currSection : GoMap GoString)
    (sectionName : GoString) :
    List (Except GoError Token) → Option (GoMap (GoMap GoString)) × Option GoError
  | [] => (some (m.set sectionName currSection), none)
  | .error err :: _ => (none, some err)
  | .ok token :: rest =>
    if token.Typ = Comment then foldResults m currSection sectionName rest
    else if token.Typ = EOF then (some (m.set sectionName currSection), none)
    else if token.Typ = Element then
      foldResults m (currSection.set token.Key token.Value) sectionName rest
    else if token.Typ = Section then
      foldResults (m.set sectionName currSection) [] token.Value rest
    else (none, some (.other "UnmarshalMap:未知的元素类型"))

/-- A section header line: a non-blank trimmed line that starts with `[`. -/
def isHeader (l : GoString) : Bool :=
  l.head? == some '['

/-- A comment line: a non-blank trimmed line that starts with `#` or `;`. -/
def isCommentLine (l : GoString) : Bool :=
  l.head? == some '#' || l.head? == some ';'

/-- An element line: a non-blank trimmed line that is neither header nor comment. -/
def isElementLine (l : GoString) : Bool :=
  !isHeader l && !isCommentLine l

/-- The key of an element line: the text left of the first `=`, right-trimmed. -/
def elemKey (l : GoString) : GoString :=
  trimRightFunc (l.takeWhile (fun c => decide (c ≠ '='))) isSpace

/-- The value of an element line: the text right of the first `=`, left-trimmed. -/
def elemValue (l : GoString) : GoString :=
  trimLeftFunc ((l.dropWhile (fun c => decide (c ≠ '='))).drop 1) isSpace

/-- The trimmed text of the non-blank lines of an input, in order. -/
def contentLines (s : GoString) : List GoString :=
  (nonBlankLines s).map Prod.snd

/-- The element lines that precede the first section header (all the element
lines when there is no header). -/
def leadingElements (s : GoString) : List GoString :=
  ((contentLines s).takeWhile (fun l => !isHeader l)).filter isElementLine

/-- The value of the last line with key `k` in a list of element lines. -/
def lastValue (k : GoString) : List GoString → Option GoString
  | [] => none
  | l :: ls =>
    match lastValue k ls with
    | some v => some v
    | none => if elemKey l = k then some (elemValue l) else none

/-- A sample input: two leading keys, one of them repeated, then a section. -/
def sampleData : GoString :=
  "a=1\n b = 2\n#c\na=3\n[s]\nc=4\n".toList

/-- The mapping that `UnmarshalMap` returns for `sampleData`. -/
def sampleMap : GoMap (GoMap GoString) :=
  [("s".toList, [("c".toList, "4".toList)]),
   ([], [("a".toList, "3".toList), ("b".toList, "2".toList)])]

/-- Go `strings.Split(s, "\n")`: the pieces of a text between its newlines, one
more than there are newlines. -/
def splitNewline : GoString → List GoString
  | [] => [[]]
  | c :: cs =>
    if c = '\n' then [] :: splitNewline cs
    else
      match splitNewline cs with
      | [] => [[c]]
      | l :: ls => (c :: l) :: ls

/-- The name in a section header line `l`: Go's `TrimSpace(l[1 : len(l)-1])`. -/
def headerName (l : GoString) : GoString :=
  trimSpace (slice l 1 (l.length - 1))

/-- A text that does not start with whitespace. -/
def NoLeadingSpace (x : GoString) : Prop :=
  ∀ c, x.head? = some c → isSpace c = false

/-- A text that does not end with whitespace. -/
def NoTrailingSpace (x : GoString) : Prop :=
  ∀ c, x.getLast? = some c → isSpace c = false

/-- Well-formedness of a returned token. -/
def WellFormed (t : Token) : Prop :=
  (t.Typ = Element → t.Key ≠ [] ∧ NoLeadingSpace t.Key ∧ NoTrailingSpace t.Key ∧
    NoLeadingSpace t.Value ∧ NoTrailingSpace t.Value) ∧
  (t.Typ = Section → t.Value ≠ [] ∧ NoLeadingSpace t.Value ∧ NoTrailingSpace t.Value) ∧
  (t.Typ = Comment → NoTrailingSpace t.Value) ∧
  (t.Typ ≠ Element → t.Key = [])

/-- The text with every `"\n"` replaced by `"\r\n"`. -/
def crlf (s : GoString) : GoString :=
  replaceNewline s ['\r', '\n']

/-- The element lines at the start of a list of content lines, up to the next
section header. -/
def blockElements (ls : List GoString) : List GoString :=
  (ls.takeWhile (fun l => !isHeader l)).filter isElementLine

/-- The element lines that follow the last header named `name`, up to the next
header; `none` when no header has that name. -/
def lastBlock (name : GoString) : List GoString → Option (List GoString)
  | [] => none
  | l :: ls =>
    match lastBlock name ls with
    | some b => some b
    | none => if isHeader l = true ∧ headerName l = name then some (blockElements ls) else none

/-- A comment text of 4093 characters: written with its marker and newline it
leaves one free place in the 4096-character buffer. -/
def longComment : GoString :=
  List.replicate 4093 'x'

/-- The writer over `failingSink` after `AddComment longComment`: 4095 characters
pending, none handed to the sink yet, no error so far. -/
def nearlyFull : Writer :=
  { buf := { err := none, buf := '#' :: longComment ++ ['\n'], size := 4096, wr := failingSink },
    symbol := '#' }

/-! ## Library facts about trimming and line reading -/

theorem dropWhile_append_all {p : Char → Bool} (ws a : GoString) (h : ∀ c ∈ ws, p c = true) :
    (ws ++ a).dropWhile p = a.dropWhile p := by
  induction ws with
  | nil => rfl
  | cons c cs ih =>
    have hc : p c = true := h c (List.mem_cons_self _ _)
    simp only [List.cons_append, List.dropWhile_cons, hc, if_true]
    exact ih (fun d hd => h d (List.mem_cons_of_mem _ hd))

theorem dropWhile_eq_nil_of_all {p : Char → Bool} (ws : GoString) (h : ∀ c ∈ ws, p c = true) :
    ws.dropWhile p = [] := by
  have := dropWhile_append_all ws [] h
  simpa using this

theorem rdropWhile_append_all {p : Char → Bool} (a ws : GoString) (h : ∀ c ∈ ws, p c = true) :
    (a ++ ws).rdropWhile p = a.rdropWhile p := by
  unfold List.rdropWhile
  rw [List.reverse_append, dropWhile_append_all]
  intro c hc
  exact h c (List.mem_reverse.mp hc)

theorem dropWhile_append_of_exists {p : Char → Bool} (a b : GoString)
    (h : ∃ c ∈ a, p c = false) : (a ++ b).dropWhile p = a.dropWhile p ++ b := by
  induction a with
  | nil => obtain ⟨c, hc, _⟩ := h; cases hc
  | cons x xs ih =>
    by_cases hx : p x = true
    · simp only [List.cons_append, List.dropWhile_cons, hx, if_true]
      apply ih
      obtain ⟨c, hc, hpc⟩ := h
      rcases List.mem_cons.mp hc with rfl | hc
      · rw [hx] at hpc; cases hpc
      · exact ⟨c, hc, hpc⟩
    · simp only [List.cons_append, List.dropWhile_cons, hx]
      rfl

theorem trimSpace_append_all (a ws : GoString) (h : ∀ c ∈ ws, isSpace c = true) :
    trimSpace (a ++ ws) = trimSpace a := by
  unfold trimSpace trimLeftFunc trimRightFunc
  by_cases ha : ∃ c ∈ a, isSpace c = false
  · rw [dropWhile_append_of_exists a ws ha, rdropWhile_append_all _ _ h]
  · have ha1 : ∀ c ∈ a, isSpace c = true := by
      intro c hc
      by_contra hcon
      exact ha ⟨c, hc, by simpa using hcon⟩
    rw [dropWhile_eq_nil_of_all a ha1, dropWhile_eq_nil_of_all (a ++ ws)]
    intro c hc
    rcases List.mem_append.mp hc with hc | hc
    · exact ha1 c hc
    · exact h c hc

theorem trimSpace_all_append (ws a : GoString) (h : ∀ c ∈ ws, isSpace c = true) :
    trimSpace (ws ++ a) = trimSpace a := by
  unfold trimSpace trimLeftFunc
  rw [dropWhile_append_all ws a h]

theorem rdropWhile_append_of_exists {p : Char → Bool} (a b : GoString)
    (h : ∃ c ∈ b, p c = false) : (a ++ b).rdropWhile p = a ++ b.rdropWhile p := by
  unfold List.rdropWhile
  rw [List.reverse_append, dropWhile_append_of_exists, List.reverse_append, List.reverse_reverse]
  obtain ⟨c, hc, hpc⟩ := h
  exact ⟨c, List.mem_reverse.mpr hc, hpc⟩

theorem dropWhile_eq_self_of_head {p : Char → Bool} (l : GoString)
    (h : ∀ c, l.head? = some c → p c = false) : l.dropWhile p = l := by
  cases l with
  | nil => rfl
  | cons x xs => simp [List.dropWhile_cons, h x rfl]

theorem rdropWhile_eq_self_of_last {p : Char → Bool} (l : GoString)
    (h : ∀ c, l.getLast? = some c → p c = false) : l.rdropWhile p = l := by
  unfold List.rdropWhile
  rw [dropWhile_eq_self_of_head, List.reverse_reverse]
  intro c hc
  rw [List.head?_reverse] at hc
  exact h c hc

theorem head?_dropWhile_false {p : Char → Bool} (l : GoString) (c : Char)
    (h : (l.dropWhile p).head? = some c) : p c = false := by
  have := List.head?_dropWhile_not p l
  rw [h] at this
  exact this

theorem getLast?_rdropWhile_false {p : Char → Bool} (l : GoString) (c : Char)
    (h : (l.rdropWhile p).getLast? = some c) : p c = false := by
  unfold List.rdropWhile at h
  rw [List.getLast?_reverse] at h
  exact head?_dropWhile_false _ c h

theorem head?_rdropWhile {p : Char → Bool} (l : GoString) (c : Char)
    (h : (l.rdropWhile p).head? = some c) : l.head? = some c := by
  obtain ⟨t, ht⟩ := List.rdropWhile_prefix p l
  cases hl : l.rdropWhile p with
  | nil => rw [hl] at h; cases h
  | cons x xs =>
    rw [hl] at h ht
    rw [← ht]
    simpa using h

theorem getLast?_dropWhile {p : Char → Bool} (l : GoString) (c : Char)
    (h : (l.dropWhile p).getLast? = some c) : l.getLast? = some c := by
  have h1 : l.reverse.rdropWhile p = (l.dropWhile p).reverse := by
    unfold List.rdropWhile
    rw [List.reverse_reverse]
  have h2 : (l.reverse.rdropWhile p).head? = some c := by
    rw [h1, List.head?_reverse]; exact h
  have := head?_rdropWhile l.reverse c h2
  rwa [List.head?_reverse] at this

theorem trimSpace_head_not_space (l : GoString) (c : Char) (h : (trimSpace l).head? = some c) :
    isSpace c = false := by
  unfold trimSpace trimLeftFunc trimRightFunc at h
  exact head?_dropWhile_false l c (head?_rdropWhile _ c h)

theorem trimSpace_last_not_space (l : GoString) (c : Char) (h : (trimSpace l).getLast? = some c) :
    isSpace c = false := by
  unfold trimSpace trimLeftFunc trimRightFunc at h
  exact getLast?_rdropWhile_false _ c h

theorem trimSpace_eq_self (l : GoString) (h1 : ∀ c, l.head? = some c → isSpace c = false)
    (h2 : ∀ c, l.getLast? = some c → isSpace c = false) : trimSpace l = l := by
  unfold trimSpace trimLeftFunc trimRightFunc
  rw [dropWhile_eq_self_of_head l h1, rdropWhile_eq_self_of_last l h2]

theorem trim_comm (l : GoString) :
    trimLeftFunc (trimRightFunc l isSpace) isSpace = trimSpace l := by
  unfold trimSpace trimLeftFunc trimRightFunc
  by_cases hall : ∀ c ∈ l, isSpace c = true
  · rw [List.rdropWhile_eq_nil_iff.mpr hall, List.dropWhile_eq_nil_iff.mpr hall]
    rfl
  · have hex : ∃ c ∈ l.dropWhile isSpace, isSpace c = false := by
      cases hm : l.dropWhile isSpace with
      | nil => exact absurd (List.dropWhile_eq_nil_iff.mp hm) hall
      | cons x xs =>
        exact ⟨x, List.mem_cons_self _ _, head?_dropWhile_false l x (by rw [hm]; rfl)⟩
    have hsplit : l = l.takeWhile isSpace ++ l.dropWhile isSpace :=
      (List.takeWhile_append_dropWhile isSpace l).symm
    have hws : ∀ c ∈ l.takeWhile isSpace, isSpace c = true := fun c hc => List.mem_takeWhile_imp hc
    conv_lhs => rw [hsplit]
    rw [rdropWhile_append_of_exists _ _ hex, dropWhile_append_all _ _ hws]
    apply dropWhile_eq_self_of_head
    intro c hc
    exact head?_dropWhile_false l c (head?_rdropWhile _ c hc)

theorem trimSpace_mem (l : GoString) (c : Char) (h : c ∈ trimSpace l) : c ∈ l := by
  unfold trimSpace trimLeftFunc trimRightFunc at h
  exact (List.dropWhile_suffix isSpace).subset ((List.rdropWhile_prefix isSpace _).subset h)

theorem trimSpace_ne_nil_exists (l : GoString) (h : trimSpace l ≠ []) :
    ∃ c ∈ l, isSpace c = false := by
  cases hl : trimSpace l with
  | nil => exact absurd hl h
  | cons x xs =>
    exact ⟨x, trimSpace_mem l x (by rw [hl]; exact List.mem_cons_self _ _),
      trimSpace_head_not_space l x (by rw [hl]; rfl)⟩

theorem readString_cons_ne_nil (c : Char) (cs : GoString) : (readString (c :: cs)).1 ≠ [] := by
  unfold readString
  split <;> simp

theorem readString_rest_length (c : Char) (cs : GoString) :
    (readString (c :: cs)).2.1.length < (c :: cs).length := by
  induction cs generalizing c with
  | nil =>
    unfold readString
    split <;> simp [readString]
  | cons d ds ih =>
    unfold readString
    split
    · simp
    · have := ih d
      simp only [List.length_cons] at this ⊢
      omega

theorem readString_eof_rest (s : GoString) (h : (readString s).2.2 = true) :
    (readString s).2.1 = [] := by
  induction s with
  | nil => rfl
  | cons c cs ih =>
    unfold readString at h ⊢
    split
    · rename_i hc; simp [hc] at h
    · rename_i hc
      simp only [hc, if_false] at h
      exact ih h

/-- The buffer returned by `readString` is a newline-free text, followed by a
newline unless the end of the input was hit. -/
theorem readString_buffer (s : GoString) :
    ∃ l : GoString, '\n' ∉ l ∧
      ((readString s).1 = l ∨ (readString s).1 = l ++ ['\n']) ∧
      (readString s).1.filter (fun c => decide (c ≠ '\n')) = l := by
  induction s with
  | nil => exact ⟨[], by simp, Or.inl rfl, rfl⟩
  | cons c cs ih =>
    by_cases hc : c = '\n'
    · refine ⟨[], by simp, Or.inr ?_, ?_⟩
      · simp [readString, hc]
      · simp [readString, hc]
    · obtain ⟨l, hl, hor, hf⟩ := ih
      refine ⟨c :: l, ?_, ?_, ?_⟩
      · simp only [List.mem_cons, not_or]
        exact ⟨fun h => hc h.symm, hl⟩
      · rcases hor with h | h
        · left; simp [readString, hc, h]
        · right; simp [readString, hc, h]
      · simp only [readString, hc, if_false, List.filter_cons, ne_eq, not_false_eq_true,
          decide_True, if_true, List.cons.injEq, true_and]
        exact hf

theorem isSpace_newline : isSpace '\n' = true := by decide

theorem trimSpace_readString_filter (s : GoString) :
    trimSpace ((readString s).1.filter (fun c => decide (c ≠ '\n'))) = trimSpace (readString s).1 := by
  obtain ⟨l, _, hor, hf⟩ := readString_buffer s
  rw [hf]
  rcases hor with h | h
  · rw [h]
  · rw [h, trimSpace_append_all]
    intro c hc
    rw [List.mem_singleton.mp hc]
    exact isSpace_newline

theorem physLines_cons (c : Char) (cs : GoString) :
    physLines (c :: cs) =
      (readString (c :: cs)).1.filter (fun c => decide (c ≠ '\n')) ::
        physLines (readString (c :: cs)).2.1 := by
  induction cs generalizing c with
  | nil =>
    by_cases hc : c = '\n'
    · simp [physLines, readString, hc]
    · simp [physLines, readString, hc]
  | cons d ds ih =>
    by_cases hc : c = '\n'
    · simp [physLines, readString, hc]
    · have h1 := ih d
      rw [physLines, if_neg hc, h1]
      simp [readString, hc]

theorem indexRune_neg_iff (s : GoString) (c : Char) : indexRune s c < 0 ↔ c ∉ s := by
  unfold indexRune
  by_cases h : c ∈ s
  · simp [List.indexOf_lt_length.mpr h, h]
  · have : ¬ List.indexOf c s < s.length := fun hlt => h (List.indexOf_lt_length.mp hlt)
    simp [this, h]

theorem indexRune_eq_zero_iff (s : GoString) (c : Char) :
    indexRune s c = 0 ↔ s.head? = some c := by
  unfold indexRune
  cases s with
  | nil => simp
  | cons x xs =>
    by_cases hx : x = c
    · subst hx; simp
    · have h1 : List.indexOf c (x :: xs) = List.indexOf c xs + 1 := List.indexOf_cons_ne _ hx
      simp only [h1, List.length_cons, List.head?_cons, Option.some.injEq, hx, iff_false]
      split_ifs
      · have : (0 : Int) ≤ (List.indexOf c xs : Int) := Int.ofNat_nonneg _
        push_cast
        omega
      · decide

theorem indexRune_append_cons (a b : GoString) (c : Char) (h : c ∉ a) :
    indexRune (a ++ c :: b) c = (a.length : Int) := by
  unfold indexRune
  rw [List.indexOf_append_of_not_mem h, List.indexOf_cons_self]
  simp

/-! ## Facts about `parseLine` -/

/-- Only the line counter and the token of the reader matter to `parseLine`, and
it leaves the unread input, the end flag and the line counter alone. -/
theorem parseLine_frame (r : Reader) (l : GoString) :
    r.parseLine l =
      (Reader.parseLine { reader := [], atEOF := false, line := r.line, token := r.token } l).map
        (fun p => (p.1, { p.2 with reader := r.reader, atEOF := r.atEOF })) := by
  unfold Reader.parseLine
  cases l.head? with
  | none => rfl
  | some c0 =>
    simp only [Reader.newSyntaxError]
    split_ifs <;> rfl

theorem parseLine_isSome (r : Reader) (l : GoString) (hl : l ≠ []) :
    ∃ p, r.parseLine l = some p := by
  unfold Reader.parseLine
  cases l with
  | nil => exact absurd rfl hl
  | cons c cs =>
    simp only [List.head?_cons]
    split_ifs <;> exact ⟨_, rfl⟩

theorem parseLine_lineResult (r : Reader) (l : GoString) (hl : l ≠ []) (ht : r.token = resetToken) :
    ∃ r1 : Reader, r.parseLine l = some (lineResult r.line l, r1) ∧
      r1.reader = r.reader ∧ r1.atEOF = r.atEOF ∧ r1.line = r.line := by
  obtain ⟨p, hp⟩ := parseLine_isSome { reader := [], atEOF := false, line := r.line, token := r.token } l hl
  have h1 := parseLine_frame r l
  rw [hp] at h1
  have h2 : lineResult r.line l = p.1 := by
    unfold lineResult
    rw [← ht, hp]
  refine ⟨{ p.2 with reader := r.reader, atEOF := r.atEOF }, ?_, rfl, rfl, ?_⟩
  · rw [h1, h2]; rfl
  · show p.2.line = r.line
    revert hp
    unfold Reader.parseLine
    cases l.head? with
    | none => intro h; cases h
    | some c0 =>
      simp only [Reader.newSyntaxError]
      split_ifs <;> (intro h; cases h; rfl)

theorem parseLine_element (r : Reader) (a b : GoString) (c0 : Char)
    (hhead : a.head? = some c0) (h1 : c0 ≠ '[') (h2 : c0 ≠ '#') (h3 : c0 ≠ ';')
    (hfirst : '=' ∉ a) :
    r.parseLine (a ++ '=' :: b) =
      some (.ok { Typ := Element, Key := trimRightFunc a isSpace, Value := trimLeftFunc b isSpace },
        { r with token :=
            { Typ := Element, Key := trimRightFunc a isSpace, Value := trimLeftFunc b isSpace } }) := by
  cases a with
  | nil => cases hhead
  | cons x xs =>
    simp only [List.head?_cons, Option.some.injEq] at hhead
    subst hhead
    have hpos := indexRune_append_cons (x :: xs) b '=' hfirst
    unfold Reader.parseLine
    simp only [List.cons_append, List.head?_cons, h1, h2, h3, if_false, or_self]
    simp only [List.cons_append] at hpos
    rw [hpos]
    have hn1 : ¬ ((x :: xs).length : Int) < 0 := by
      have := Int.ofNat_nonneg (x :: xs).length
      omega
    have hn2 : ¬ ((x :: xs).length : Int) = 0 := by
      simp only [List.length_cons]
      push_cast
      have := Int.ofNat_nonneg xs.length
      omega
    simp only [hn1, hn2, if_false, Int.toNat_ofNat]
    have hs : slice (x :: (xs ++ '=' :: b)) 0 (x :: xs).length = x :: xs := by
      simp [slice]
    have hd : List.drop ((x :: xs).length + 1) (x :: (xs ++ '=' :: b)) = b := by
      have : x :: (xs ++ '=' :: b) = (x :: xs ++ ['=']) ++ b := by simp
      rw [this, List.drop_left']
      simp
    rw [hs, hd]

theorem slice_brackets (mid : GoString) (c d : Char) :
    slice (c :: (mid ++ [d])) 1 ((c :: (mid ++ [d])).length - 1) = mid := by
  unfold slice
  have h : (c :: (mid ++ [d])).length - 1 = (c :: mid).length := by simp
  rw [h]
  have h2 : c :: (mid ++ [d]) = (c :: mid) ++ [d] := rfl
  rw [h2, List.take_left']
  · rfl
  · rfl

theorem parseLine_section (r : Reader) (mid : GoString) (h : trimSpace mid ≠ []) :
    r.parseLine ('[' :: (mid ++ [']'])) =
      some (.ok { r.token with Typ := Section, Value := trimSpace mid },
        { r with token := { r.token with Typ := Section, Value := trimSpace mid } }) := by
  have hlast : ('[' :: (mid ++ [']'])).getLast? = some ']' := by
    have h2 : '[' :: (mid ++ [']']) = ('[' :: mid) ++ [']'] := rfl
    rw [h2, List.getLast?_append]
    rfl
  have hlen : (trimSpace mid).length ≠ 0 := fun h0 => h (List.length_eq_zero.mp h0)
  unfold Reader.parseLine
  simp only [List.head?_cons, if_true, hlast, ne_eq, not_true_eq_false, if_false,
    slice_brackets, hlen]

theorem parseLine_comment (r : Reader) (c : Char) (rest : GoString) (h : c = '#' ∨ c = ';') :
    r.parseLine (c :: rest) =
      some (.ok { r.token with Typ := Comment, Value := rest },
        { r with token := { r.token with Typ := Comment, Value := rest } }) := by
  have hc : c ≠ '[' := by rcases h with rfl | rfl <;> decide
  unfold Reader.parseLine
  simp only [List.head?_cons, hc, if_false, h, if_true, List.drop_succ_cons, List.drop_zero]

theorem lineResult_element (n : Nat) (a b : GoString) (c0 : Char)
    (hhead : a.head? = some c0) (h1 : c0 ≠ '[') (h2 : c0 ≠ '#') (h3 : c0 ≠ ';')
    (hfirst : '=' ∉ a) :
    lineResult n (a ++ '=' :: b) =
      .ok { Typ := Element, Key := trimRightFunc a isSpace, Value := trimLeftFunc b isSpace } := by
  unfold lineResult
  rw [parseLine_element _ a b c0 hhead h1 h2 h3 hfirst]

theorem lineResult_section (n : Nat) (mid : GoString) (h : trimSpace mid ≠ []) :
    lineResult n ('[' :: (mid ++ [']'])) =
      .ok { Typ := Section, Key := [], Value := trimSpace mid } := by
  unfold lineResult
  rw [parseLine_section _ mid h]
  rfl

theorem lineResult_comment (n : Nat) (c : Char) (rest : GoString) (h : c = '#' ∨ c = ';') :
    lineResult n (c :: rest) = .ok { Typ := Comment, Key := [], Value := rest } := by
  unfold lineResult
  rw [parseLine_comment _ c rest h]
  rfl

theorem physLines_no_newline (s : GoString) (hne : s ≠ []) (hnl : '\n' ∉ s) :
    physLines s = [s] := by
  induction s with
  | nil => exact absurd rfl hne
  | cons c cs ih =>
    have hc : c ≠ '\n' := fun h => hnl (by rw [h]; exact List.mem_cons_self _ _)
    have hcs : '\n' ∉ cs := fun h => hnl (List.mem_cons_of_mem _ h)
    cases cs with
    | nil => simp [physLines, hc]
    | cons d ds =>
      rw [physLines, if_neg hc, ih (by simp) hcs]

theorem parseLine_error_iff (r : Reader) (line : GoString) (hne : line ≠ []) :
    (∃ e r1, r.parseLine line = some (.error (.syntaxError e), r1)) ↔
      (line.head? = some '[' ∧
        (line.getLast? ≠ some ']' ∨ trimSpace (slice line 1 (line.length - 1)) = [])) ∨
      (line.head? ≠ some '[' ∧ line.head? ≠ some '#' ∧ line.head? ≠ some ';' ∧
        ('=' ∉ line ∨ line.head? = some '=')) := by
  cases line with
  | nil => exact absurd rfl hne
  | cons c cs =>
    have hneg := indexRune_neg_iff (c :: cs) '='
    have hzero := indexRune_eq_zero_iff (c :: cs) '='
    simp only [List.head?_cons, Option.some.injEq, ne_eq] at hzero ⊢
    unfold Reader.parseLine
    simp only [List.head?_cons, Reader.newSyntaxError, ne_eq]
    by_cases h1 : c = '['
    · simp only [h1, if_true, true_and, not_true_eq_false, false_and, or_false]
      by_cases h2 : ('[' :: cs).getLast? = some ']'
      · simp only [h2, not_true_eq_false, if_false, false_or]
        by_cases h3 : (trimSpace (slice ('[' :: cs) 1 (('[' :: cs).length - 1))).length = 0
        · simp only [h3, if_true]
          constructor
          · intro _; exact List.length_eq_zero.mp h3
          · intro _; exact ⟨_, _, rfl⟩
        · simp only [h3, if_false]
          constructor
          · rintro ⟨e, r1, h⟩; cases h
          · intro h; exact absurd (List.length_eq_zero.mpr h) h3
      · simp only [h2, not_false_eq_true, if_true, true_or, iff_true]
        exact ⟨_, _, rfl⟩
    · simp only [h1, if_false, false_and, false_or, not_false_eq_true, true_and]
      by_cases h2 : c = '#' ∨ c = ';'
      · simp only [h2, if_true]
        constructor
        · rintro ⟨e, r1, h⟩; cases h
        · rintro ⟨h3, h4, _⟩
          rcases h2 with h2 | h2
          · exact absurd h2 h3
          · exact absurd h2 h4
      · simp only [h2, if_false]
        have h2a : c ≠ '#' := fun h => h2 (Or.inl h)
        have h2b : c ≠ ';' := fun h => h2 (Or.inr h)
        by_cases h3 : indexRune (c :: cs) '=' < 0
        · simp only [h3, if_true]
          exact ⟨fun _ => ⟨h2a, h2b, Or.inl (hneg.mp h3)⟩, fun _ => ⟨_, _, rfl⟩⟩
        · simp only [h3, if_false]
          by_cases h4 : indexRune (c :: cs) '=' = 0
          · simp only [h4, if_true]
            exact ⟨fun _ => ⟨h2a, h2b, Or.inr (hzero.mp h4)⟩, fun _ => ⟨_, _, rfl⟩⟩
          · simp only [h4, if_false]
            constructor
            · rintro ⟨e, r1, h⟩; cases h
            · rintro ⟨_, _, h5 | h5⟩
              · exact absurd (hneg.mpr h5) h3
              · exact absurd (hzero.mpr h5) h4

/-! ## `Reader.Token` against the lines of the input -/

theorem tokenStart_spec (fuel : Nat) (r : Reader) (hf : r.reader.length + 2 ≤ fuel)
    (hinv : r.atEOF = true → r.reader = []) (ht : r.token = resetToken) :
    ∃ r1 : Reader, (r1.atEOF = true → r1.reader = []) ∧
      Reader.tokenStart fuel r = some ((pending r).head?.getD (.ok eofToken), r1) ∧
      pending r1 = (pending r).tail := by
  induction fuel generalizing r with
  | zero => omega
  | succ fuel ih =>
    obtain ⟨s, b, n, t⟩ := r
    simp only at hf hinv ht
    subst ht
    cases b with
    | true =>
      have hs : s = [] := hinv rfl
      subst hs
      refine ⟨⟨[], true, n, eofToken⟩, fun _ => rfl, ?_, ?_⟩
      · simp [Reader.tokenStart, pending, physLines, nonBlankFrom, eofToken, resetToken]
      · simp [pending, physLines, nonBlankFrom]
    | false =>
      cases s with
      | nil =>
        refine ⟨⟨[], true, n + 1, eofToken⟩, fun _ => rfl, ?_, ?_⟩
        · simp [Reader.tokenStart, readString, pending, physLines, nonBlankFrom, eofToken,
            resetToken]
        · simp [pending, physLines, nonBlankFrom]
      | cons c cs =>
        have hne := readString_cons_ne_nil c cs
        have hlen := readString_rest_length c cs
        have heof := readString_eof_rest (c :: cs)
        have hphys := physLines_cons c cs
        have htrim := trimSpace_readString_filter (c :: cs)
        rcases hres : readString (c :: cs) with ⟨buffer, rest, e⟩
        rw [hres] at hne hlen heof hphys htrim
        simp only at hne hlen heof hphys htrim
        have hstep : Reader.tokenStart (fuel + 1) ⟨c :: cs, false, n, resetToken⟩ =
            if (trimSpace buffer).length = 0 then
              Reader.tokenStart fuel ⟨rest, e, n + 1, resetToken⟩
            else Reader.parseLine ⟨rest, e, n + 1, resetToken⟩ (trimSpace buffer) := by
          have hb : buffer.length ≠ 0 := fun h => hne (List.length_eq_zero.mp h)
          rw [Reader.tokenStart]
          simp only [hres, hb, and_false, if_false, Bool.false_eq_true]
          cases e <;> rfl
        have hpend : pending ⟨c :: cs, false, n, resetToken⟩ =
            if trimSpace buffer = [] then pending ⟨rest, e, n + 1, resetToken⟩
            else lineResult (n + 1) (trimSpace buffer) :: pending ⟨rest, e, n + 1, resetToken⟩ := by
          simp only [pending, hphys, nonBlankFrom, htrim]
          split_ifs <;> rfl
        rw [hstep, hpend]
        by_cases hblank : trimSpace buffer = []
        · simp only [hblank, List.length_nil, if_true]
          apply ih
          · simp only [List.length_cons] at hf hlen ⊢
            omega
          · exact heof
          · rfl
        · have hb2 : (trimSpace buffer).length ≠ 0 := fun h => hblank (List.length_eq_zero.mp h)
          simp only [hblank, hb2, if_false]
          obtain ⟨r1, h1, h2, h3, h4⟩ :=
            parseLine_lineResult ⟨rest, e, n + 1, resetToken⟩ (trimSpace buffer) hblank rfl
          refine ⟨r1, ?_, ?_, ?_⟩
          · rw [h2, h3]; exact heof
          · rw [h1]; rfl
          · simp only [List.tail_cons]
            simp only [pending, h2, h4]

theorem pending_token (r : Reader) (t : Token) : pending { r with token := t } = pending r := rfl

theorem Token_spec (r : Reader) (hinv : r.atEOF = true → r.reader = []) :
    ∃ r1 : Reader, (r1.atEOF = true → r1.reader = []) ∧
      r.Token = some ((pending r).head?.getD (.ok eofToken), r1) ∧
      pending r1 = (pending r).tail := by
  have h := tokenStart_spec (r.reader.length + 2) { r with token := r.token.reset }
    (le_refl _) hinv rfl
  exact h

theorem calls_spec (k m : Nat) (r : Reader) (hkm : k ≤ m)
    (hinv : r.atEOF = true → r.reader = []) :
    r.calls k = some ((pending r ++ List.replicate m (Except.ok eofToken)).take k) := by
  induction k generalizing r m with
  | zero => simp [Reader.calls]
  | succ k ih =>
    obtain ⟨r1, hinv1, htok, hpend⟩ := Token_spec r hinv
    rw [Reader.calls, htok]
    simp only
    cases hp : pending r with
    | nil =>
      obtain ⟨m1, rfl⟩ : ∃ m1, m = m1 + 1 := ⟨m - 1, by omega⟩
      rw [ih m1 r1 (by omega) hinv1, hpend, hp]
      simp [List.replicate_succ]
    | cons p ps =>
      rw [ih m r1 (by omega) hinv1, hpend, hp]
      simp

theorem nonBlankFrom_eq (n : Nat) (ls : List GoString) :
    nonBlankFrom n ls =
      ((ls.map trimSpace).enumFrom (n + 1)).filter (fun p => decide (p.2 ≠ [])) := by
  induction ls generalizing n with
  | nil => rfl
  | cons l ls ih =>
    by_cases h : trimSpace l = []
    · simp [nonBlankFrom, h, ih, List.enumFrom_cons, List.filter_cons]
    · simp [nonBlankFrom, h, ih, List.enumFrom_cons, List.filter_cons]

theorem newReader_pending (s : GoString) :
    pending (NewReaderString s) = (nonBlankLines s).map (fun p => lineResult p.1 p.2) := by
  simp only [pending, NewReaderString, nonBlankLines, numberedLines, nonBlankFrom_eq]

theorem nonBlankLines_ne_nil (s : GoString) (p : Nat × GoString) (hp : p ∈ nonBlankLines s) :
    p.2 ≠ [] := by
  have := (List.mem_filter.mp hp).2
  simpa using this

theorem calls_newReader (s : GoString) (k : Nat) :
    (NewReaderString s).calls k =
      some (((nonBlankLines s).map (fun (p : Nat × GoString) => lineResult p.1 p.2) ++
        List.replicate k (Except.ok eofToken)).take k) := by
  rw [calls_spec k k (NewReaderString s) (le_refl _) (fun h => by cases h), newReader_pending]

theorem Token_single_line (s : GoString) (hnl : '\n' ∉ s) (htrim : trimSpace s ≠ []) :
    ∃ r1 : Reader, (NewReaderString s).Token = some (lineResult 1 (trimSpace s), r1) := by
  have hne : s ≠ [] := by
    intro h
    rw [h] at htrim
    exact htrim rfl
  obtain ⟨r1, _, h2, _⟩ := Token_spec (NewReaderString s) (fun h => by cases h)
  refine ⟨r1, ?_⟩
  rw [h2]
  simp [pending, NewReaderString, physLines_no_newline s hne hnl, nonBlankFrom, htrim]

theorem rdropWhile_cons_of_false {p : Char → Bool} (c : Char) (v : GoString) (hc : p c = false) :
    (c :: v).rdropWhile p = c :: v.rdropWhile p := by
  by_cases hv : ∃ d ∈ v, p d = false
  · have := rdropWhile_append_of_exists [c] v hv
    simpa using this
  · have hall : ∀ d ∈ v, p d = true := by
      intro d hd
      by_contra hcon
      exact hv ⟨d, hd, by simpa using hcon⟩
    have h1 := rdropWhile_append_all [c] v hall
    rw [List.rdropWhile_eq_nil_iff.mpr hall]
    simp only [List.singleton_append] at h1
    rw [h1, List.rdropWhile_singleton, hc]
    rfl

theorem trimSpace_key_eq_value (k v : GoString) (hk : trimSpace k ≠ []) :
    trimSpace (k ++ '=' :: v) =
      trimLeftFunc k isSpace ++ '=' :: trimRightFunc v isSpace := by
  have heq : isSpace '=' = false := by decide
  unfold trimSpace trimLeftFunc trimRightFunc
  rw [dropWhile_append_of_exists k _ (trimSpace_ne_nil_exists k hk),
    rdropWhile_append_of_exists _ _ ⟨'=', List.mem_cons_self _ _, heq⟩,
    rdropWhile_cons_of_false '=' v heq]

theorem Token_element (k v : GoString) (c0 : Char) (hk : '\n' ∉ k) (hv : '\n' ∉ v)
    (heq : '=' ∉ k) (hhead : (trimSpace k).head? = some c0)
    (h1 : c0 ≠ '[') (h2 : c0 ≠ '#') (h3 : c0 ≠ ';') :
    ∃ r1 : Reader, (NewReaderString (k ++ '=' :: v)).Token =
      some (.ok { Typ := Element, Key := trimSpace k, Value := trimSpace v }, r1) := by
  have hkne : trimSpace k ≠ [] := by
    intro h
    rw [h] at hhead
    cases hhead
  have hnl : '\n' ∉ k ++ '=' :: v := by
    simp only [List.mem_append, List.mem_cons, not_or]
    exact ⟨hk, by decide, hv⟩
  have htrim := trimSpace_key_eq_value k v hkne
  have hne : trimSpace (k ++ '=' :: v) ≠ [] := by
    rw [htrim]
    simp
  obtain ⟨r1, hr1⟩ := Token_single_line (k ++ '=' :: v) hnl hne
  refine ⟨r1, ?_⟩
  rw [hr1, htrim]
  have hhead2 : (trimLeftFunc k isSpace).head? = some c0 := by
    unfold trimSpace trimRightFunc at hhead
    exact head?_rdropWhile _ c0 hhead
  have hfirst : '=' ∉ trimLeftFunc k isSpace := fun h =>
    heq ((List.dropWhile_suffix isSpace).subset h)
  rw [lineResult_element 1 _ _ c0 hhead2 h1 h2 h3 hfirst, trim_comm]
  rfl

theorem trimSpace_brackets (mid : GoString) :
    trimSpace ('[' :: (mid ++ [']'])) = '[' :: (mid ++ [']']) := by
  apply trimSpace_eq_self
  · intro c hc
    simp only [List.head?_cons, Option.some.injEq] at hc
    rw [← hc]; decide
  · intro c hc
    have h2 : '[' :: (mid ++ [']']) = ('[' :: mid) ++ [']'] := rfl
    rw [h2, List.getLast?_append] at hc
    have hc2 : some ']' = some c := hc
    rw [← Option.some.inj hc2]; decide

theorem Token_section (ws1 name ws2 : GoString) (hname : '\n' ∉ name)
    (hne : trimSpace name ≠ [])
    (hws1 : ∀ c ∈ ws1, isSpace c = true ∧ c ≠ '\n')
    (hws2 : ∀ c ∈ ws2, isSpace c = true ∧ c ≠ '\n') :
    ∃ r1 : Reader, (NewReaderString ('[' :: (ws1 ++ name ++ ws2 ++ [']']))).Token =
      some (.ok { Typ := Section, Key := [], Value := trimSpace name }, r1) := by
  have hnl : '\n' ∉ '[' :: (ws1 ++ name ++ ws2 ++ [']']) := by
    simp only [List.mem_cons, List.mem_append, List.mem_singleton, not_or, List.not_mem_nil,
      or_false]
    refine ⟨by decide, ⟨⟨fun h => (hws1 _ h).2 rfl, hname⟩, fun h => (hws2 _ h).2 rfl⟩, by decide⟩
  have htrim := trimSpace_brackets (ws1 ++ name ++ ws2)
  obtain ⟨r1, hr1⟩ := Token_single_line _ hnl (by rw [htrim]; simp)
  refine ⟨r1, ?_⟩
  have hmid : trimSpace (ws1 ++ name ++ ws2) = trimSpace name := by
    rw [trimSpace_append_all _ _ (fun c hc => (hws2 c hc).1),
      trimSpace_all_append _ _ (fun c hc => (hws1 c hc).1)]
  rw [hr1, htrim, lineResult_section 1 _ (by rw [hmid]; exact hne), hmid]

theorem lineResult_error_line (n : Nat) (l : GoString) (e : SyntaxError)
    (h : lineResult n l = .error (.syntaxError e)) : e.Line = n := by
  unfold lineResult Reader.parseLine at h
  cases hl : l.head? with
  | none => rw [hl] at h; cases h
  | some c0 =>
    rw [hl] at h
    simp only [Reader.newSyntaxError] at h
    split_ifs at h <;> (cases h; rfl)

theorem lineResult_error_syntax (n : Nat) (l : GoString) (err : GoError)
    (h : lineResult n l = .error err) : ∃ e, err = .syntaxError e := by
  unfold lineResult Reader.parseLine at h
  cases hl : l.head? with
  | none => rw [hl] at h; cases h
  | some c0 =>
    rw [hl] at h
    simp only [Reader.newSyntaxError] at h
    split_ifs at h <;> (cases h; exact ⟨_, rfl⟩)

theorem nonBlankFrom_getElem (ls : List GoString) (n0 j : Nat) (p : Nat × GoString)
    (h : (nonBlankFrom n0 ls)[j]? = some p) :
    n0 + 1 ≤ p.1 ∧ ∃ l, ls[p.1 - n0 - 1]? = some l ∧ trimSpace l = p.2 ∧ p.2 ≠ [] ∧
      (ls.take (p.1 - n0 - 1)).countP (fun l => decide (trimSpace l ≠ [])) = j := by
  induction ls generalizing n0 j with
  | nil => simp [nonBlankFrom] at h
  | cons l ls ih =>
    by_cases hl : trimSpace l = []
    · rw [nonBlankFrom, if_pos hl] at h
      obtain ⟨h1, l1, h2, h3, h4, h5⟩ := ih (n0 + 1) j h
      have hidx : p.1 - n0 - 1 = (p.1 - (n0 + 1) - 1) + 1 := by omega
      refine ⟨by omega, l1, ?_, h3, h4, ?_⟩
      · rw [hidx, List.getElem?_cons_succ]; exact h2
      · rw [hidx, List.take_succ_cons, List.countP_cons_of_neg]
        · exact h5
        · simp [hl]
    · rw [nonBlankFrom, if_neg hl] at h
      cases j with
      | zero =>
        simp only [List.getElem?_cons_zero, Option.some.injEq] at h
        subst h
        simp [hl]
      | succ j1 =>
        rw [List.getElem?_cons_succ] at h
        obtain ⟨h1, l1, h2, h3, h4, h5⟩ := ih (n0 + 1) j1 h
        have hidx : p.1 - n0 - 1 = (p.1 - (n0 + 1) - 1) + 1 := by omega
        refine ⟨by omega, l1, ?_, h3, h4, ?_⟩
        · rw [hidx, List.getElem?_cons_succ]; exact h2
        · rw [hidx, List.take_succ_cons, List.countP_cons_of_pos]
          · rw [h5]
          · simp [hl]

theorem nonBlankLines_eq_from (s : GoString) : nonBlankLines s = nonBlankFrom 0 (physLines s) := by
  rw [nonBlankFrom_eq]; rfl

theorem results_getElem (s : GoString) (k j : Nat) (res : Except GoError Token)
    (h : (((nonBlankLines s).map (fun (p : Nat × GoString) => lineResult p.1 p.2) ++
        List.replicate k (Except.ok eofToken)).take k)[j]? = some res) :
    (∃ p, (nonBlankLines s)[j]? = some p ∧ res = lineResult p.1 p.2) ∨
      ((nonBlankLines s).length ≤ j ∧ res = .ok eofToken) := by
  rw [List.getElem?_take] at h
  split_ifs at h with hj
  by_cases hjl : j < (nonBlankLines s).length
  · left
    rw [List.getElem?_append_left (by simpa using hjl)] at h
    refine ⟨(nonBlankLines s)[j], List.getElem?_eq_getElem hjl, ?_⟩
    simp only [List.getElem?_map, List.getElem?_eq_getElem hjl, Option.map_some',
      Option.some.injEq] at h
    exact h.symm
  · right
    rw [List.getElem?_append_right (by simpa using hjl), List.getElem?_replicate] at h
    split_ifs at h
    exact ⟨by omega, (Option.some.inj h).symm⟩

theorem lineResult_ok_typ (n : Nat) (l : GoString) (hl : l ≠ []) (tok : Token)
    (h : lineResult n l = .ok tok) :
    tok.Typ = Element ∨ tok.Typ = Section ∨ tok.Typ = Comment := by
  unfold lineResult Reader.parseLine at h
  cases l with
  | nil => exact absurd rfl hl
  | cons c cs =>
    simp only [List.head?_cons, Reader.newSyntaxError] at h
    split_ifs at h <;> cases h
    · right; left; rfl
    · right; right; rfl
    · left; rfl

theorem results_getElem_eof (s : GoString) (k j : Nat) (hj : j < k)
    (hjl : (nonBlankLines s).length ≤ j) :
    (((nonBlankLines s).map (fun (p : Nat × GoString) => lineResult p.1 p.2) ++
        List.replicate k (Except.ok eofToken)).take k)[j]? = some (.ok eofToken) := by
  rw [List.getElem?_take, if_pos hj, List.getElem?_append_right (by simpa using hjl),
    List.getElem?_replicate]
  simp only [List.length_map]
  rw [if_pos (by omega)]

/-! ## The writer -/

theorem indexRune_gt_iff (s : GoString) (c : Char) : indexRune s c > -1 ↔ c ∈ s := by
  unfold indexRune
  by_cases h : c ∈ s
  · simp only [List.indexOf_lt_length.mpr h, if_true, h, iff_true]
    have := Int.ofNat_nonneg (List.indexOf c s)
    omega
  · have : ¬ List.indexOf c s < s.length := fun hlt => h (List.indexOf_lt_length.mp hlt)
    simp [this, h]

theorem Sink.answer_facts (s : Sink) (r : Nat × Option GoError) (p : GoString) :
    (s.answer r p).2.1 ≤ p.length ∧
    (s.answer r p).1.written = s.written ++ p.take (s.answer r p).2.1 :=
  ⟨Nat.min_le_right _ _, rfl⟩

theorem Sink.Write_facts (s : Sink) (p : GoString) :
    (s.Write p).2.1 ≤ p.length ∧
    (s.Write p).1.written = s.written ++ p.take (s.Write p).2.1 ∧
    (s.NeverFails → (s.Write p).2.2 = none ∧ (s.Write p).2.1 = p.length ∧
      (s.Write p).1.NeverFails) := by
  obtain ⟨written, plan, after⟩ := s
  cases plan with
  | cons r rest =>
    have h : Sink.Write ⟨written, r :: rest, after⟩ p =
        Sink.answer ⟨written, rest, after⟩ r p := rfl
    rw [h]
    exact ⟨(Sink.answer_facts _ r p).1, (Sink.answer_facts _ r p).2, fun h0 => (by cases h0.1)⟩
  | nil =>
    cases after with
    | some r =>
      have h : Sink.Write ⟨written, [], some r⟩ p = Sink.answer ⟨written, [], some r⟩ r p := rfl
      rw [h]
      exact ⟨(Sink.answer_facts _ r p).1, (Sink.answer_facts _ r p).2, fun h0 => (by cases h0.2)⟩
    | none =>
      have h : Sink.Write ⟨written, [], none⟩ p = (⟨written ++ p, [], none⟩, p.length, none) := rfl
      rw [h]
      exact ⟨le_refl _, by simp, fun _ => ⟨rfl, rfl, rfl, rfl⟩⟩

theorem BufWriter.Flush_of_err (b : BufWriter) (h : b.err ≠ none) : b.Flush = (b, b.err) := by
  simp [BufWriter.Flush, h]

theorem BufWriter.Flush_empty (b : BufWriter) (h : b.err = none) (hlen : b.buf.length = 0) :
    b.Flush = (b, none) := by
  simp [BufWriter.Flush, h, hlen]

theorem BufWriter.Flush_ok (b : BufWriter) (h : b.err = none) (hlen : b.buf.length ≠ 0)
    (hw : (b.wr.Write b.buf).2.2 = none) (hn : ¬ (b.wr.Write b.buf).2.1 < b.buf.length) :
    b.Flush = ({ b with wr := (b.wr.Write b.buf).1, buf := [] }, none) := by
  simp [BufWriter.Flush, h, hlen, hw, hn]

theorem BufWriter.Flush_short (b : BufWriter) (h : b.err = none) (hlen : b.buf.length ≠ 0)
    (hw : (b.wr.Write b.buf).2.2 = none) (hn : (b.wr.Write b.buf).2.1 < b.buf.length) :
    b.Flush = ({ b with wr := (b.wr.Write b.buf).1, buf := b.buf.drop (b.wr.Write b.buf).2.1,
                        err := some ErrShortWrite }, some ErrShortWrite) := by
  simp [BufWriter.Flush, h, hlen, hw, hn]

theorem BufWriter.Flush_fail (b : BufWriter) (h : b.err = none) (hlen : b.buf.length ≠ 0)
    (e : GoError) (hw : (b.wr.Write b.buf).2.2 = some e) :
    b.Flush = ({ b with wr := (b.wr.Write b.buf).1, buf := b.buf.drop (b.wr.Write b.buf).2.1,
                        err := some e }, some e) := by
  simp [BufWriter.Flush, h, hlen, hw]

theorem BufWriter.Flush_facts (b : BufWriter) (h : b.err = none) :
    b.Flush.1.size = b.size ∧ b.Flush.1.text = b.text ∧
    (b.Flush.2 = none → b.Flush.1.err = none ∧ b.Flush.1.buf = []) ∧
    (b.Flush.2 ≠ none → b.Flush.1.err = b.Flush.2) ∧
    (b.wr.NeverFails → b.Flush.2 = none ∧ b.Flush.1.wr.NeverFails) := by
  obtain ⟨h1, h2, h4⟩ := Sink.Write_facts b.wr b.buf
  by_cases hlen : b.buf.length = 0
  · rw [BufWriter.Flush_empty b h hlen]
    exact ⟨rfl, rfl, fun _ => ⟨h, List.length_eq_zero.mp hlen⟩, fun h0 => absurd rfl h0,
      fun hroom => ⟨rfl, hroom⟩⟩
  · cases hw : (b.wr.Write b.buf).2.2 with
    | none =>
      by_cases hn : (b.wr.Write b.buf).2.1 < b.buf.length
      · rw [BufWriter.Flush_short b h hlen hw hn]
        refine ⟨rfl, ?_, fun h0 => (by cases h0), fun _ => rfl, fun hroom => ?_⟩
        · simp only [BufWriter.text, h2, List.append_assoc, List.take_append_drop]
        · have := (h4 hroom).2.1
          omega
      · rw [BufWriter.Flush_ok b h hlen hw hn]
        refine ⟨rfl, ?_, fun _ => ⟨h, rfl⟩, fun h0 => absurd rfl h0,
          fun hroom => ⟨rfl, (h4 hroom).2.2⟩⟩
        have hn1 : (b.wr.Write b.buf).2.1 = b.buf.length := Nat.le_antisymm h1 (Nat.le_of_not_lt hn)
        simp only [BufWriter.text, h2, hn1, List.take_length, List.append_nil]
    | some e =>
      rw [BufWriter.Flush_fail b h hlen e hw]
      refine ⟨rfl, ?_, fun h0 => (by cases h0), fun _ => rfl, fun hroom => ?_⟩
      · simp only [BufWriter.text, h2, List.append_assoc, List.take_append_drop]
      · rw [(h4 hroom).1] at hw
        cases hw

theorem BufWriter.WriteByte_appended (b : BufWriter) (c : Char) :
    Appended b (b.WriteByte c).1 (b.WriteByte c).2 [c] := by
  by_cases herr : b.err ≠ none
  · have h : b.WriteByte c = (b, b.err) := by simp [BufWriter.WriteByte, herr]
    rw [h]
    exact ⟨rfl, fun h0 => absurd h0 herr, fun _ => ⟨rfl, [], [c], rfl, by simp⟩,
      fun h0 => absurd h0 herr⟩
  · have herr1 : b.err = none := by simpa using herr
    obtain ⟨f1, f2, f3, f4, f5⟩ := BufWriter.Flush_facts b herr1
    by_cases hav : b.Available ≤ 0
    · by_cases hfl : b.Flush.2 ≠ none
      · have h : b.WriteByte c = (b.Flush.1, b.Flush.1.err) := by
          simp [BufWriter.WriteByte, herr1, hav, hfl]
        rw [h]
        have hfe := f4 hfl
        refine ⟨f1, fun h0 => ?_, fun _ => ⟨rfl, [], [c], rfl, by simp [f2]⟩, fun _ hroom => ?_⟩
        · rw [hfe] at h0; exact absurd h0 hfl
        · exact absurd (f5 hroom).1 hfl
      · have hfl1 : b.Flush.2 = none := by simpa using hfl
        have h : b.WriteByte c = ({ b.Flush.1 with buf := b.Flush.1.buf ++ [c] }, none) := by
          simp [BufWriter.WriteByte, herr1, hav, hfl1]
        rw [h]
        obtain ⟨g1, g2⟩ := f3 hfl1
        refine ⟨f1, fun _ => ⟨g1, ?_⟩, fun h0 => absurd rfl h0, fun _ hroom => ⟨rfl, (f5 hroom).2⟩⟩
        simp only [BufWriter.text] at f2 ⊢
        rw [← List.append_assoc, f2]
    · have h : b.WriteByte c = ({ b with buf := b.buf ++ [c] }, none) := by
        simp [BufWriter.WriteByte, herr1, hav]
      rw [h]
      refine ⟨rfl, fun _ => ⟨herr1, ?_⟩, fun h0 => absurd rfl h0, fun _ hroom => ⟨rfl, hroom⟩⟩
      simp [BufWriter.text]

theorem BufWriter.writeStringLoop_exit (fuel : Nat) (b : BufWriter) (s : GoString) (nn : Nat)
    (h : ¬ (s.length > b.Available ∧ b.err = none)) :
    BufWriter.writeStringLoop (fuel + 1) b s nn = some (b, s, nn) := by
  rw [BufWriter.writeStringLoop, if_neg h]

theorem BufWriter.writeStringLoop_step (fuel : Nat) (b : BufWriter) (s : GoString) (nn : Nat)
    (h : s.length > b.Available ∧ b.err = none) :
    BufWriter.writeStringLoop (fuel + 1) b s nn =
      BufWriter.writeStringLoop fuel
        (BufWriter.Flush { b with buf := b.buf ++ s.take (min b.Available s.length) }).1
        (s.drop (min b.Available s.length)) (nn + min b.Available s.length) := by
  rw [BufWriter.writeStringLoop, if_pos h]

theorem BufWriter.writeStringLoop_spec (fuel : Nat) (b : BufWriter) (s : GoString) (nn : Nat)
    (hsize : 0 < b.size) (hfuel : s.length + (if b.buf = [] then 0 else 1) + 1 ≤ fuel) :
    ∃ b1 s1 nn1, BufWriter.writeStringLoop fuel b s nn = some (b1, s1, nn1) ∧
      b1.size = b.size ∧ (∃ q, s = q ++ s1 ∧ b1.text = b.text ++ q) ∧
      (b.err = none → b.wr.NeverFails → b1.err = none ∧ b1.wr.NeverFails) := by
  induction fuel generalizing b s nn with
  | zero => omega
  | succ fuel ih =>
    by_cases hc : s.length > b.Available ∧ b.err = none
    · rw [BufWriter.writeStringLoop_step fuel b s nn hc]
      obtain ⟨hlen, herr⟩ := hc
      have hb1 : (({ b with buf := b.buf ++ s.take (min b.Available s.length) } :
          BufWriter)).err = none := herr
      obtain ⟨f1, f2, f3, f4, f5⟩ := BufWriter.Flush_facts _ hb1
      have hmin : min b.Available s.length = b.Available := Nat.min_eq_left (Nat.le_of_lt hlen)
      by_cases hfl : (BufWriter.Flush
          { b with buf := b.buf ++ s.take (min b.Available s.length) }).2 ≠ none
      · have hfe := f4 hfl
        obtain ⟨fuel1, rfl⟩ : ∃ fuel1, fuel = fuel1 + 1 := ⟨fuel - 1, by omega⟩
        rw [BufWriter.writeStringLoop_exit]
        · refine ⟨_, _, _, rfl, f1, ⟨s.take (min b.Available s.length), ?_, ?_⟩, ?_⟩
          · rw [List.take_append_drop]
          · rw [f2]
            simp [BufWriter.text]
          · intro _ hroom
            exact absurd (f5 hroom).1 hfl
        · intro hcon
          rw [hfe] at hcon
          exact hfl hcon.2
      · have hfl1 : (BufWriter.Flush
            { b with buf := b.buf ++ s.take (min b.Available s.length) }).2 = none := by
          simpa using hfl
        obtain ⟨g1, g2⟩ := f3 hfl1
        have hfuel1 : (s.drop (min b.Available s.length)).length +
            (if (BufWriter.Flush
              { b with buf := b.buf ++ s.take (min b.Available s.length) }).1.buf = []
              then 0 else 1) + 1 ≤ fuel := by
          rw [g2, if_pos rfl, List.length_drop, hmin]
          by_cases hav : b.Available = 0
          · have hbuf : b.buf ≠ [] := by
              intro h0
              simp only [BufWriter.Available, h0, List.length_nil, Nat.sub_zero] at hav
              omega
            rw [if_neg hbuf] at hfuel
            omega
          · split_ifs at hfuel <;> omega
        obtain ⟨b1, s1, nn1, e1, e2, ⟨q, e3, e4⟩, e5⟩ :=
          ih _ (s.drop (min b.Available s.length)) (nn + min b.Available s.length)
            (by rw [f1]; exact hsize) hfuel1
        refine ⟨b1, s1, nn1, e1, by rw [e2, f1], ⟨s.take (min b.Available s.length) ++ q, ?_, ?_⟩,
          ?_⟩
        · rw [List.append_assoc, ← e3, List.take_append_drop]
        · rw [e4, f2]
          simp [BufWriter.text]
        · intro _ hroom
          exact e5 g1 (f5 hroom).2
    · rw [BufWriter.writeStringLoop_exit fuel b s nn hc]
      exact ⟨b, s, nn, rfl, rfl, ⟨[], rfl, by simp⟩, fun h1 h2 => ⟨h1, h2⟩⟩

theorem BufWriter.WriteString_appended (b : BufWriter) (s : GoString) (hsize : 0 < b.size) :
    ∃ r, b.WriteString s = some r ∧ Appended b r.1 r.2.2 s := by
  obtain ⟨b1, s1, nn1, e1, e2, ⟨q, e3, e4⟩, e5⟩ :=
    BufWriter.writeStringLoop_spec (s.length + 2) b s 0 hsize (by split_ifs <;> omega)
  by_cases herr : b1.err ≠ none
  · refine ⟨(b1, nn1, b1.err), ?_, e2, fun h0 => absurd h0 herr,
      fun _ => ⟨rfl, q, s1, e3, e4⟩, fun h1 h2 => absurd (e5 h1 h2).1 herr⟩
    simp [BufWriter.WriteString, e1, herr]
  · have herr1 : b1.err = none := by simpa using herr
    refine ⟨({ b1 with buf := b1.buf ++ s1 }, nn1 + s1.length, none), ?_, e2,
      fun _ => ⟨herr1, ?_⟩, fun h0 => absurd rfl h0, fun h1 h2 => ⟨rfl, (e5 h1 h2).2⟩⟩
    · simp [BufWriter.WriteString, e1, herr1]
    · simp only [BufWriter.text] at e4 ⊢
      rw [← List.append_assoc, e4, e3, List.append_assoc]

theorem Appended.trans {b b1 b2 : BufWriter} {e : Option GoError} {p q : GoString}
    (h1 : Appended b b1 none p) (h2 : Appended b1 b2 e q) : Appended b b2 e (p ++ q) := by
  obtain ⟨a1, a2, _, a4⟩ := h1
  obtain ⟨c1, c2, c3, c4⟩ := h2
  obtain ⟨a2e, a2t⟩ := a2 rfl
  refine ⟨by rw [c1, a1], fun he => ?_, fun he => ?_, fun hb hr => ?_⟩
  · obtain ⟨g1, g2⟩ := c2 he
    exact ⟨g1, by rw [g2, a2t, List.append_assoc]⟩
  · obtain ⟨g1, q0, rest, g2, g3⟩ := c3 he
    exact ⟨g1, p ++ q0, rest, by rw [g2, List.append_assoc], by rw [g3, a2t, List.append_assoc]⟩
  · exact c4 a2e (a4 hb hr).2

theorem Appended.extend {b b1 : BufWriter} {e : Option GoError} {p : GoString} (q : GoString)
    (h : Appended b b1 e p) (he : e ≠ none) : Appended b b1 e (p ++ q) := by
  obtain ⟨a1, _, a3, a4⟩ := h
  refine ⟨a1, fun h0 => absurd h0 he, fun _ => ?_, a4⟩
  obtain ⟨g1, q0, rest, g2, g3⟩ := a3 he
  exact ⟨g1, q0, rest ++ q, by rw [g2, List.append_assoc], g3⟩

theorem AddSection_appended (w : Writer) (sec : GoString) (hsize : 0 < w.buf.size)
    (hne : sec ≠ []) (hnl : '\n' ∉ sec) :
    ∃ w1 e, w.AddSection sec = some (w1, e) ∧ w1.symbol = w.symbol ∧
      Appended w.buf w1.buf e ('[' :: sec ++ [']', '\n']) := by
  have h0 : ¬ sec.length = 0 := fun h => hne (List.length_eq_zero.mp h)
  have h1 : ¬ indexRune sec '\n' > -1 := fun hgt => hnl ((indexRune_gt_iff sec '\n').mp hgt)
  have A1 := BufWriter.WriteByte_appended w.buf '['
  by_cases hr1 : (w.buf.WriteByte '[').2 ≠ none
  · refine ⟨{ w with buf := (w.buf.WriteByte '[').1 }, (w.buf.WriteByte '[').2, ?_, rfl,
      A1.extend (sec ++ [']', '\n']) hr1⟩
    simp only [Writer.AddSection, h0, h1, hr1, if_false, if_true, not_false_eq_true, ne_eq]
  · have hr1n : (w.buf.WriteByte '[').2 = none := by simpa using hr1
    rw [hr1n] at A1
    obtain ⟨r2, hr2, A2⟩ := BufWriter.WriteString_appended (w.buf.WriteByte '[').1 sec
      (by rw [A1.1]; exact hsize)
    by_cases he2 : r2.2.2 ≠ none
    · refine ⟨{ w with buf := r2.1 }, r2.2.2, ?_, rfl, A1.trans (A2.extend [']', '\n'] he2)⟩
      simp only [Writer.AddSection, h0, h1, hr1, hr2, he2, if_false, if_true, not_false_eq_true,
        ne_eq]
    · have he2n : r2.2.2 = none := by simpa using he2
      rw [he2n] at A2
      obtain ⟨r3, hr3, A3⟩ := BufWriter.WriteString_appended r2.1 [']', '\n']
        (by rw [A2.1, A1.1]; exact hsize)
      refine ⟨{ w with buf := r3.1 }, r3.2.2, ?_, rfl, A1.trans (A2.trans A3)⟩
      simp only [Writer.AddSection, h0, h1, hr1, hr2, he2, hr3, if_false, not_false_eq_true,
        ne_eq]

theorem NewLine_appended (w : Writer) :
    (w.NewLine).1.symbol = w.symbol ∧ Appended w.buf (w.NewLine).1.buf (w.NewLine).2 ['\n'] :=
  ⟨rfl, BufWriter.WriteByte_appended w.buf '\n'⟩

theorem AddElement_appended (w : Writer) (key val : GoString) (hsize : 0 < w.buf.size)
    (hne : key ≠ []) (hkn : '\n' ∉ key) (hvn : '\n' ∉ val) :
    ∃ w1 e, w.AddElement key val = some (w1, e) ∧ w1.symbol = w.symbol ∧
      Appended w.buf w1.buf e (key ++ '=' :: val ++ ['\n']) := by
  have h0 : ¬ key.length = 0 := fun h => hne (List.length_eq_zero.mp h)
  have h1 : ¬ indexRune key '\n' > -1 := fun hgt => hkn ((indexRune_gt_iff key '\n').mp hgt)
  have h2 : ¬ indexRune val '\n' > -1 := fun hgt => hvn ((indexRune_gt_iff val '\n').mp hgt)
  have hshape : key ++ '=' :: val ++ ['\n'] = key ++ (['='] ++ (val ++ ['\n'])) := by simp
  rw [hshape]
  obtain ⟨r1, hr1, A1⟩ := BufWriter.WriteString_appended w.buf key hsize
  by_cases he1 : r1.2.2 ≠ none
  · refine ⟨{ w with buf := r1.1 }, r1.2.2, ?_, rfl, A1.extend _ he1⟩
    simp only [Writer.AddElement, h0, h1, h2, hr1, he1, or_self, if_false, if_true,
      not_false_eq_true, ne_eq]
  · have he1n : r1.2.2 = none := by simpa using he1
    rw [he1n] at A1
    have A2 := BufWriter.WriteByte_appended r1.1 '='
    by_cases he2 : (r1.1.WriteByte '=').2 ≠ none
    · refine ⟨{ w with buf := (r1.1.WriteByte '=').1 }, (r1.1.WriteByte '=').2, ?_, rfl,
        A1.trans (A2.extend _ he2)⟩
      simp only [Writer.AddElement, h0, h1, h2, hr1, he1, he2, or_self, if_false, if_true,
        not_false_eq_true, ne_eq]
    · have he2n : (r1.1.WriteByte '=').2 = none := by simpa using he2
      rw [he2n] at A2
      obtain ⟨r3, hr3, A3⟩ := BufWriter.WriteString_appended (r1.1.WriteByte '=').1 val
        (by rw [A2.1, A1.1]; exact hsize)
      by_cases he3 : r3.2.2 ≠ none
      · refine ⟨{ w with buf := r3.1 }, r3.2.2, ?_, rfl, A1.trans (A2.trans (A3.extend _ he3))⟩
        simp only [Writer.AddElement, h0, h1, h2, hr1, he1, he2, hr3, he3, or_self, if_false,
          if_true, not_false_eq_true, ne_eq]
      · have he3n : r3.2.2 = none := by simpa using he3
        rw [he3n] at A3
        have A4 := BufWriter.WriteByte_appended r3.1 '\n'
        refine ⟨(Writer.NewLine { w with buf := r3.1 }).1, (Writer.NewLine { w with buf := r3.1 }).2,
          ?_, rfl, A1.trans (A2.trans (A3.trans A4))⟩
        simp only [Writer.AddElement, h0, h1, h2, hr1, he1, he2, hr3, he3, or_self, if_false,
          not_false_eq_true, ne_eq]

theorem replaceNewline_no_newline (c new : GoString) (h : '\n' ∉ c) :
    replaceNewline c new = c := by
  induction c with
  | nil => rfl
  | cons x xs ih =>
    have hx : x ≠ '\n' := fun hx => h (by rw [hx]; exact List.mem_cons_self _ _)
    rw [replaceNewline, if_neg hx, ih (fun hxs => h (List.mem_cons_of_mem _ hxs))]

theorem AddComment_appended (w : Writer) (c : GoString) (hsize : 0 < w.buf.size) :
    ∃ w1 e, w.AddComment c = some (w1, e) ∧ w1.symbol = w.symbol ∧
      Appended w.buf w1.buf e (w.symbol :: replaceNewline c ['\n', w.symbol] ++ ['\n']) := by
  have hc : (if indexRune c '\n' > -1 then replaceNewline c ['\n', w.symbol] else c) =
      replaceNewline c ['\n', w.symbol] := by
    by_cases h : '\n' ∈ c
    · rw [if_pos ((indexRune_gt_iff c '\n').mpr h)]
    · rw [if_neg (fun hgt => h ((indexRune_gt_iff c '\n').mp hgt)),
        replaceNewline_no_newline c _ h]
  have hshape : w.symbol :: replaceNewline c ['\n', w.symbol] ++ ['\n'] =
      [w.symbol] ++ (replaceNewline c ['\n', w.symbol] ++ ['\n']) := by simp
  rw [hshape]
  have A1 := BufWriter.WriteByte_appended w.buf w.symbol
  by_cases he1 : (w.buf.WriteByte w.symbol).2 ≠ none
  · refine ⟨{ w with buf := (w.buf.WriteByte w.symbol).1 }, (w.buf.WriteByte w.symbol).2, ?_,
      rfl, A1.extend _ he1⟩
    simp only [Writer.AddComment, he1, if_true, not_false_eq_true, ne_eq]
  · have he1n : (w.buf.WriteByte w.symbol).2 = none := by simpa using he1
    rw [he1n] at A1
    obtain ⟨r2, hr2, A2⟩ := BufWriter.WriteString_appended (w.buf.WriteByte w.symbol).1
      (replaceNewline c ['\n', w.symbol]) (by rw [A1.1]; exact hsize)
    by_cases he2 : r2.2.2 ≠ none
    · refine ⟨{ w with buf := r2.1 }, r2.2.2, ?_, rfl, A1.trans (A2.extend _ he2)⟩
      simp only [Writer.AddComment, hc, he1, hr2, he2, if_false, if_true, not_false_eq_true,
        ne_eq]
    · have he2n : r2.2.2 = none := by simpa using he2
      rw [he2n] at A2
      have A3 := BufWriter.WriteByte_appended r2.1 '\n'
      refine ⟨(Writer.NewLine { w with buf := r2.1 }).1, (Writer.NewLine { w with buf := r2.1 }).2,
        ?_, rfl, A1.trans (A2.trans A3)⟩
      simp only [Writer.AddComment, hc, he1, hr2, he2, if_false, not_false_eq_true, ne_eq]

theorem writeToken_roundTrippable (w : Writer) (t : Token)
    (hgood : 0 < w.buf.size ∧ w.buf.err = none ∧ w.buf.wr.NeverFails)
    (h : RoundTrippable t) :
    ∃ w1, writeToken w t = some w1 ∧
      (0 < w1.buf.size ∧ w1.buf.err = none ∧ w1.buf.wr.NeverFails) ∧
      w1.symbol = w.symbol ∧
      w1.buf.text = w.buf.text ++ (tokenLine w.symbol t ++ ['\n']) := by
  obtain ⟨hsize, herr, hroom⟩ := hgood
  rcases h with ⟨ht, _, hn, _⟩ | ⟨ht, hk, _, hkn, _, _, _, _, hvn, _⟩ | ⟨ht, _, hv, hn, _⟩
  · obtain ⟨w1, e, h1, h2, a1, a2, _, a4⟩ := AddComment_appended w t.Value hsize
    obtain ⟨g1, g2⟩ := a4 herr hroom
    obtain ⟨g3, g4⟩ := a2 g1
    refine ⟨w1, by simp [writeToken, ht, h1], ⟨by rw [a1]; exact hsize, g3, g2⟩, h2, ?_⟩
    rw [g4, replaceNewline_no_newline _ _ hn]
    simp [tokenLine, ht]
  · have h1c : ¬ Element = Comment := by decide
    obtain ⟨w1, e, h1, h2, a1, a2, _, a4⟩ := AddElement_appended w t.Key t.Value hsize hk hkn hvn
    obtain ⟨g1, g2⟩ := a4 herr hroom
    obtain ⟨g3, g4⟩ := a2 g1
    refine ⟨w1, by simp [writeToken, ht, h1c, h1], ⟨by rw [a1]; exact hsize, g3, g2⟩, h2, ?_⟩
    rw [g4]
    simp [tokenLine, ht, h1c]
  · have h1c : ¬ Section = Comment := by decide
    have h2c : ¬ Section = Element := by decide
    obtain ⟨w1, e, h1, h2, a1, a2, _, a4⟩ := AddSection_appended w t.Value hsize hv hn
    obtain ⟨g1, g2⟩ := a4 herr hroom
    obtain ⟨g3, g4⟩ := a2 g1
    refine ⟨w1, by simp [writeToken, ht, h1c, h2c, h1], ⟨by rw [a1]; exact hsize, g3, g2⟩, h2, ?_⟩
    rw [g4]
    simp [tokenLine, ht, h1c, h2c]

theorem writeTokens_roundTrippable (w : Writer) (ts : List Token)
    (hgood : 0 < w.buf.size ∧ w.buf.err = none ∧ w.buf.wr.NeverFails)
    (h : ∀ t ∈ ts, RoundTrippable t) :
    ∃ w1, writeTokens w ts = some w1 ∧
      (0 < w1.buf.size ∧ w1.buf.err = none ∧ w1.buf.wr.NeverFails) ∧
      w1.buf.text =
        w.buf.text ++ (ts.map (fun t => tokenLine w.symbol t ++ ['\n'])).flatten := by
  induction ts generalizing w with
  | nil => exact ⟨w, rfl, hgood, by simp⟩
  | cons t ts ih =>
    obtain ⟨w1, h1, hg1, hs1, ht1⟩ :=
      writeToken_roundTrippable w t hgood (h t (List.mem_cons_self _ _))
    obtain ⟨w2, h2, hg2, ht2⟩ := ih w1 hg1 (fun u hu => h u (List.mem_cons_of_mem _ hu))
    refine ⟨w2, by rw [writeTokens, h1]; exact h2, hg2, ?_⟩
    rw [ht2, ht1, hs1]
    simp

theorem Flush_written (w : Writer)
    (hgood : 0 < w.buf.size ∧ w.buf.err = none ∧ w.buf.wr.NeverFails) :
    w.Flush.buf.wr.written = w.buf.text := by
  obtain ⟨_, f2, f3, _, f5⟩ := BufWriter.Flush_facts w.buf hgood.2.1
  obtain ⟨_, g2⟩ := f3 (f5 hgood.2.2).1
  have : w.Flush.buf = w.buf.Flush.1 := rfl
  rw [this, ← f2, BufWriter.text, g2, List.append_nil]

theorem physLines_line_cons (body rest : GoString) (h : '\n' ∉ body) :
    physLines (body ++ '\n' :: rest) = body :: physLines rest := by
  induction body with
  | nil => simp [physLines]
  | cons c cs ih =>
    have hc : c ≠ '\n' := fun hc => h (by rw [hc]; exact List.mem_cons_self _ _)
    have hcs : '\n' ∉ cs := fun hcs => h (List.mem_cons_of_mem _ hcs)
    rw [List.cons_append, physLines, if_neg hc, ih hcs]

theorem head_last_of_trimSpace_eq (x : GoString) (h : trimSpace x = x) :
    (∀ c, x.head? = some c → isSpace c = false) ∧
      (∀ c, x.getLast? = some c → isSpace c = false) := by
  constructor
  · intro c hc
    rw [← h] at hc
    exact trimSpace_head_not_space x c hc
  · intro c hc
    rw [← h] at hc
    exact trimSpace_last_not_space x c hc

theorem last_of_trimRight_eq (x : GoString) (h : trimRightFunc x isSpace = x) :
    ∀ c, x.getLast? = some c → isSpace c = false := by
  intro c hc
  rw [← h] at hc
  exact getLast?_rdropWhile_false x c hc

theorem getLast?_cons_of (c : Char) (v : GoString) (d : Char)
    (h : (c :: v).getLast? = some d) : (v = [] ∧ d = c) ∨ v.getLast? = some d := by
  cases v with
  | nil =>
    left
    simp only [List.getLast?_singleton, Option.some.injEq] at h
    exact ⟨rfl, h.symm⟩
  | cons x xs =>
    right
    rw [List.getLast?_cons_cons] at h
    exact h

theorem getLast?_append_cons (a : GoString) (c : Char) (v : GoString) :
    (a ++ c :: v).getLast? = (c :: v).getLast? := by
  rw [List.getLast?_append]
  cases h : (c :: v).getLast? with
  | none => simp at h
  | some d => rfl

theorem tokenLine_facts (sym : Char) (hsym : sym = '#' ∨ sym = ';') (t : Token)
    (h : RoundTrippable t) (n : Nat) :
    '\n' ∉ tokenLine sym t ∧ trimSpace (tokenLine sym t) = tokenLine sym t ∧
      tokenLine sym t ≠ [] ∧ lineResult n (tokenLine sym t) = .ok t := by
  have hsp : isSpace sym = false := by rcases hsym with rfl | rfl <;> decide
  have hnl : sym ≠ '\n' := by rcases hsym with rfl | rfl <;> decide
  obtain ⟨typ, key, value⟩ := t
  rcases h with ⟨ht, hk, hn, htr⟩ | ⟨ht, hk, heq, hkn, hkt, hb1, hb2, hb3, hvn, hvt⟩ |
    ⟨ht, hk, hv, hn, hvt⟩
  · simp only at ht hk hn htr
    subst ht hk
    have hline : tokenLine sym ⟨Comment, [], value⟩ = sym :: value := by simp [tokenLine]
    rw [hline]
    refine ⟨?_, ?_, by simp, lineResult_comment n sym value hsym⟩
    · simp only [List.mem_cons, not_or]
      exact ⟨fun h => hnl h.symm, hn⟩
    · apply trimSpace_eq_self
      · intro c hc
        simp only [List.head?_cons, Option.some.injEq] at hc
        rw [← hc]; exact hsp
      · intro c hc
        rcases getLast?_cons_of sym value c hc with ⟨_, h2⟩ | h2
        · rw [h2]; exact hsp
        · exact last_of_trimRight_eq value htr c h2
  · simp only at ht hk heq hkn hkt hb1 hb2 hb3 hvn hvt
    subst ht
    have hline : tokenLine sym ⟨Element, key, value⟩ = key ++ '=' :: value := by
      have h1 : ¬ Element = Comment := by decide
      simp [tokenLine, h1]
    rw [hline]
    obtain ⟨hkh, hkl⟩ := head_last_of_trimSpace_eq key hkt
    obtain ⟨hvh, hvl⟩ := head_last_of_trimSpace_eq value hvt
    cases key with
    | nil => exact absurd rfl hk
    | cons x xs =>
      refine ⟨?_, ?_, by simp, ?_⟩
      · simp only [List.mem_append, List.mem_cons, not_or]
        simp only [List.mem_cons, not_or] at hkn
        exact ⟨hkn, by decide, hvn⟩
      · apply trimSpace_eq_self
        · intro c hc
          exact hkh c (by simpa using hc)
        · intro c hc
          rw [getLast?_append_cons] at hc
          rcases getLast?_cons_of '=' value c hc with ⟨_, h2⟩ | h2
          · rw [h2]; decide
          · exact hvl c h2
      · rw [lineResult_element n (x :: xs) value x rfl (fun h => hb1 (by rw [h]; rfl))
          (fun h => hb2 (by rw [h]; rfl)) (fun h => hb3 (by rw [h]; rfl)) heq]
        have e1 : trimRightFunc (x :: xs) isSpace = x :: xs :=
          rdropWhile_eq_self_of_last _ hkl
        have e2 : trimLeftFunc value isSpace = value := dropWhile_eq_self_of_head _ hvh
        rw [e1, e2]
  · simp only at ht hk hv hn hvt
    subst ht hk
    have hline : tokenLine sym ⟨Section, [], value⟩ = '[' :: (value ++ [']']) := by
      have h1 : ¬ Section = Comment := by decide
      have h2 : ¬ Section = Element := by decide
      simp [tokenLine, h1, h2]
    rw [hline]
    refine ⟨?_, trimSpace_brackets value, by simp, ?_⟩
    · simp only [List.mem_cons, List.mem_append, List.mem_singleton, not_or, List.not_mem_nil,
        or_false]
      exact ⟨by decide, hn, by decide⟩
    · rw [lineResult_section n value (by rw [hvt]; exact hv), hvt]

theorem pending_tokenLines (sym : Char) (hsym : sym = '#' ∨ sym = ';') (ts : List Token)
    (h : ∀ t ∈ ts, RoundTrippable t) (b : Bool) (n : Nat) (tk : Token) :
    pending ⟨(ts.map (fun t => tokenLine sym t ++ ['\n'])).flatten, b, n, tk⟩ =
      ts.map Except.ok := by
  induction ts generalizing n with
  | nil => simp [pending, physLines, nonBlankFrom]
  | cons t ts ih =>
    obtain ⟨h1, h2, h3, h4⟩ := tokenLine_facts sym hsym t (h t (List.mem_cons_self _ _)) (n + 1)
    have ih1 := ih (fun u hu => h u (List.mem_cons_of_mem _ hu)) (n + 1)
    simp only [pending, List.map_cons, List.flatten_cons, List.append_assoc,
      List.singleton_append] at ih1 ⊢
    rw [physLines_line_cons _ _ h1, nonBlankFrom, h2, if_neg h3, List.map_cons, ih1, h4]

theorem NewWriter_ok (sink : Sink) (sym : Char) (w : Writer) (h : NewWriter sink sym = .ok w) :
    (sym = '#' ∨ sym = ';') ∧ w = { buf := NewBufWriter sink, symbol := sym } := by
  unfold NewWriter at h
  split_ifs at h with hc
  cases h
  refine ⟨?_, rfl⟩
  by_contra hcon
  exact hc ⟨fun h1 => hcon (Or.inl h1), fun h2 => hcon (Or.inr h2)⟩

theorem round_trip (sym : Char) (w : Writer) (hw : NewWriter bytesBuffer sym = .ok w)
    (ts : List Token) (h : ∀ t ∈ ts, RoundTrippable t) :
    ∃ w1, writeTokens w ts = some w1 ∧
      (NewReaderString w1.Flush.buf.wr.written).calls (ts.length + 1) =
        some (ts.map Except.ok ++ [.ok eofToken]) := by
  obtain ⟨hsym, rfl⟩ := NewWriter_ok bytesBuffer sym w hw
  have hgood : 0 < (NewBufWriter bytesBuffer).size ∧ (NewBufWriter bytesBuffer).err = none ∧
      (NewBufWriter bytesBuffer).wr.NeverFails := ⟨by decide, rfl, rfl, rfl⟩
  obtain ⟨w1, h1, hg1, ht1⟩ :=
    writeTokens_roundTrippable { buf := NewBufWriter bytesBuffer, symbol := sym } ts hgood h
  refine ⟨w1, h1, ?_⟩
  rw [Flush_written w1 hg1, ht1,
    calls_spec (ts.length + 1) (ts.length + 1) _ (le_refl _) (fun h => by cases h)]
  have htext : (NewBufWriter bytesBuffer).text = [] := rfl
  simp only [NewReaderString, htext, List.nil_append]
  rw [pending_tokenLines sym hsym ts h]
  rw [List.take_append_eq_append_take]
  simp [List.replicate_succ]

/-! ## The map projection -/

theorem physLines_length_le (s : GoString) : (physLines s).length ≤ s.length := by
  induction s with
  | nil => simp [physLines]
  | cons c cs ih =>
    rw [physLines]
    split_ifs
    · simpa using ih
    · cases h : physLines cs with
      | nil => simp
      | cons l ls =>
        rw [h] at ih
        simp only [List.length_cons] at ih ⊢
        omega

theorem nonBlankFrom_length_le (n : Nat) (ls : List GoString) :
    (nonBlankFrom n ls).length ≤ ls.length := by
  induction ls generalizing n with
  | nil => simp [nonBlankFrom]
  | cons l ls ih =>
    rw [nonBlankFrom]
    split_ifs
    · have := ih (n + 1)
      simp only [List.length_cons]
      omega
    · have := ih (n + 1)
      simp only [List.length_cons]
      omega

theorem pending_length_le (r : Reader) : (pending r).length ≤ r.reader.length := by
  unfold pending
  rw [List.length_map]
  exact le_trans (nonBlankFrom_length_le _ _) (physLines_length_le _)

theorem unmarshalLoop_spec (fuel : Nat) (r : Reader) (m : GoMap (GoMap GoString))
    (curr : GoMap GoString) (name : GoString) (hinv : r.atEOF = true → r.reader = [])
    (hf : (pending r).length + 1 ≤ fuel) :
    unmarshalLoop fuel r m curr name = some (foldResults m curr name (pending r)) := by
  induction fuel generalizing r m curr name with
  | zero => omega
  | succ fuel ih =>
    obtain ⟨r1, hinv1, htok, hpend⟩ := Token_spec r hinv
    rw [unmarshalLoop, htok]
    cases hp : pending r with
    | nil =>
      simp only [List.head?_nil, Option.getD_none, foldResults]
      have h1 : ¬ EOF = Comment := by decide
      simp only [eofToken, h1, if_false, if_true]
    | cons p ps =>
      rw [hp] at hpend hf
      simp only [List.tail_cons] at hpend
      simp only [List.length_cons] at hf
      have hf1 : (pending r1).length + 1 ≤ fuel := by rw [hpend]; omega
      simp only [List.head?_cons, Option.getD_some]
      cases p with
      | error e => rfl
      | ok t =>
        simp only [foldResults]
        rw [ih r1 _ _ _ hinv1 hf1, ih r1 _ _ _ hinv1 hf1, ih r1 _ _ _ hinv1 hf1, hpend]
        split_ifs <;> rfl

theorem UnmarshalMap_spec (data : GoString) (h : data ≠ []) :
    UnmarshalMap data =
      some (foldResults [] [] []
        ((nonBlankLines data).map (fun (p : Nat × GoString) => lineResult p.1 p.2))) := by
  have hlen : ¬ data.length = 0 := fun h0 => h (List.length_eq_zero.mp h0)
  rw [UnmarshalMap, if_neg hlen, unmarshalLoop_spec _ _ _ _ _ (fun h => by cases h),
    newReader_pending]
  have := pending_length_le (NewReaderString data)
  simp only [NewReaderString] at this ⊢
  omega

theorem foldResults_error (L : List (Except GoError Token))
    (hgood : ∀ t, Except.ok t ∈ L → t.Typ = Element ∨ t.Typ = Section ∨ t.Typ = Comment)
    (m : GoMap (GoMap GoString)) (curr : GoMap GoString) (name : GoString) :
    ((foldResults m curr name L).2 ≠ none ↔ ∃ e, Except.error e ∈ L) ∧
      ((foldResults m curr name L).2 ≠ none → (foldResults m curr name L).1 = none) ∧
      ((foldResults m curr name L).2 = none → (foldResults m curr name L).1 ≠ none) := by
  induction L generalizing m curr name with
  | nil => simp [foldResults]
  | cons x xs ih =>
    have hgood1 : ∀ t, Except.ok t ∈ xs → t.Typ = Element ∨ t.Typ = Section ∨ t.Typ = Comment :=
      fun t ht => hgood t (List.mem_cons_of_mem _ ht)
    cases x with
    | error e =>
      simp only [foldResults, ne_eq, reduceCtorEq, not_false_eq_true, true_iff, forall_true_left,
        not_true_eq_false, false_implies, and_true]
      exact ⟨e, List.mem_cons_self _ _⟩
    | ok t =>
      have hmem : (∃ e, Except.error e ∈ Except.ok t :: xs) ↔ ∃ e, Except.error e ∈ xs := by
        constructor
        · rintro ⟨e, he⟩
          rcases List.mem_cons.mp he with h | h
          · cases h
          · exact ⟨e, h⟩
        · rintro ⟨e, he⟩
          exact ⟨e, List.mem_cons_of_mem _ he⟩
      rw [hmem]
      have h12 : ¬ Element = Comment := by decide
      have h14 : ¬ Element = EOF := by decide
      have h23 : ¬ Section = Comment := by decide
      have h24 : ¬ Section = EOF := by decide
      have h21 : ¬ Section = Element := by decide
      rcases hgood t (List.mem_cons_self _ _) with ht | ht | ht
      · simp only [foldResults, ht, h12, h14, if_false, if_true]
        exact ih hgood1 _ _ _
      · simp only [foldResults, ht, h23, h24, h21, if_false, if_true]
        exact ih hgood1 _ _ _
      · simp only [foldResults, ht, if_true]
        exact ih hgood1 _ _ _

theorem lineResults_good (s : GoString) (t : Token)
    (h : Except.ok t ∈ (nonBlankLines s).map (fun (p : Nat × GoString) => lineResult p.1 p.2)) :
    t.Typ = Element ∨ t.Typ = Section ∨ t.Typ = Comment := by
  obtain ⟨p, hp, hres⟩ := List.mem_map.mp h
  exact lineResult_ok_typ p.1 p.2 (nonBlankLines_ne_nil s p hp) t hres

theorem calls_error_iff (s : GoString) :
    (∃ k results e, (NewReaderString s).calls k = some results ∧
        Except.error (GoError.syntaxError e) ∈ results) ↔
      ∃ err, Except.error err ∈
        (nonBlankLines s).map (fun (p : Nat × GoString) => lineResult p.1 p.2) := by
  constructor
  · rintro ⟨k, results, e, hcalls, hmem⟩
    rw [calls_newReader s k] at hcalls
    cases hcalls
    have h1 := List.mem_of_mem_take hmem
    rcases List.mem_append.mp h1 with h2 | h2
    · exact ⟨_, h2⟩
    · have := List.eq_of_mem_replicate h2
      cases this
  · rintro ⟨err, hmem⟩
    obtain ⟨p, _, hres⟩ := List.mem_map.mp hmem
    obtain ⟨e, he⟩ := lineResult_error_syntax p.1 p.2 err hres
    subst he
    refine ⟨(nonBlankLines s).length, _, e, calls_newReader s _, ?_⟩
    rw [List.take_append_eq_append_take]
    simp only [List.length_map, List.take_length, le_refl, List.take_of_length_le]
    exact List.mem_append_left _ hmem

theorem GoMap.get_set_self {V : Type} (m : GoMap V) (k : GoString) (v : V) :
    (m.set k v).get k = some v := by
  simp [GoMap.get, GoMap.set, List.lookup]

theorem GoMap.get_filter_ne {V : Type} (m : GoMap V) (k k1 : GoString) (h : k1 ≠ k) :
    List.lookup k1 (m.filter (fun p => decide (p.1 ≠ k))) = List.lookup k1 m := by
  induction m with
  | nil => rfl
  | cons p ps ih =>
    obtain ⟨a, b⟩ := p
    by_cases ha : a = k
    · subst ha
      have hne : (k1 == a) = false := by simpa using h
      simp only [List.filter_cons, ne_eq, not_true_eq_false, decide_False, Bool.false_eq_true,
        if_false, List.lookup, hne]
      exact ih
    · by_cases hk : k1 = a
      · subst hk
        simp [List.filter_cons, List.lookup, ha]
      · have hne : (k1 == a) = false := by simpa using hk
        simp only [List.filter_cons, ne_eq, ha, not_false_eq_true, decide_True, if_true,
          List.lookup, hne]
        exact ih

theorem GoMap.get_set_ne {V : Type} (m : GoMap V) (k k1 : GoString) (v : V) (h : k1 ≠ k) :
    (m.set k v).get k1 = m.get k1 := by
  have hne : (k1 == k) = false := by simpa using h
  simp only [GoMap.get, GoMap.set, List.lookup, hne]
  exact GoMap.get_filter_ne m k k1 h

theorem line_split_at_eq (l : GoString) (h : '=' ∈ l) :
    l = l.takeWhile (fun c => decide (c ≠ '=')) ++
      '=' :: (l.dropWhile (fun c => decide (c ≠ '='))).drop 1 := by
  have h1 := (List.takeWhile_append_dropWhile (fun c => decide (c ≠ '=')) l).symm
  cases hd : l.dropWhile (fun c => decide (c ≠ '=')) with
  | nil =>
    have := List.dropWhile_eq_nil_iff.mp hd '=' h
    simp at this
  | cons x xs =>
    have hx := head?_dropWhile_false l x (by rw [hd]; rfl)
    have hx2 : x = '=' := by simpa using hx
    rw [hd, hx2] at h1
    simpa using h1

theorem lineResult_classify (n : Nat) (l : GoString) (hl : l ≠ []) (t : Token)
    (h : lineResult n l = .ok t) :
    (isHeader l = true → t.Typ = Section ∧ t.Value ≠ []) ∧
    (isCommentLine l = true → t.Typ = Comment) ∧
    (isElementLine l = true → t.Typ = Element ∧ t.Key = elemKey l ∧ t.Value = elemValue l) := by
  cases l with
  | nil => exact absurd rfl hl
  | cons c cs =>
    refine ⟨?_, ?_, ?_⟩
    · intro hh
      have hc : c = '[' := by simpa [isHeader] using hh
      subst hc
      unfold lineResult Reader.parseLine at h
      simp only [List.head?_cons, if_true, Reader.newSyntaxError] at h
      split_ifs at h with h1 h2
      cases h
      exact ⟨rfl, fun h0 => h2 (List.length_eq_zero.mpr h0)⟩
    · intro hh
      have hc : c = '#' ∨ c = ';' := by simpa [isCommentLine] using hh
      rw [lineResult_comment n c cs hc] at h
      cases h
      rfl
    · intro hh
      have hc : c ≠ '[' ∧ c ≠ '#' ∧ c ≠ ';' := by
        simpa [isElementLine, isHeader, isCommentLine] using hh
      obtain ⟨h1, h2, h3⟩ := hc
      have hmem : '=' ∈ c :: cs := by
        by_contra hcon
        have herr := (parseLine_error_iff ⟨[], false, n, resetToken⟩ (c :: cs) (by simp)).mpr
          (Or.inr ⟨by simpa using h1, by simpa using h2, by simpa using h3, Or.inl hcon⟩)
        obtain ⟨e, r1, he⟩ := herr
        unfold lineResult at h
        rw [he] at h
        cases h
      have hce : c ≠ '=' := by
        intro hcon
        have herr := (parseLine_error_iff ⟨[], false, n, resetToken⟩ (c :: cs) (by simp)).mpr
          (Or.inr ⟨by simpa using h1, by simpa using h2, by simpa using h3,
            Or.inr (by simp [hcon])⟩)
        obtain ⟨e, r1, he⟩ := herr
        unfold lineResult at h
        rw [he] at h
        cases h
      have hsplit := line_split_at_eq (c :: cs) hmem
      have hhead : ((c :: cs).takeWhile (fun c => decide (c ≠ '='))).head? = some c := by
        simp [List.takeWhile_cons, hce]
      have hfirst : '=' ∉ (c :: cs).takeWhile (fun c => decide (c ≠ '=')) := by
        intro hin
        have := List.mem_takeWhile_imp hin
        simp at this
      have hres := lineResult_element n _ ((List.dropWhile (fun c => decide (c ≠ '=')) (c :: cs)).drop 1)
        c hhead h1 h2 h3 hfirst
      rw [← hsplit, h] at hres
      cases hres
      exact ⟨rfl, rfl, rfl⟩

theorem foldResults_keeps_root (ps : List (Nat × GoString)) (hne : ∀ p ∈ ps, p.2 ≠ [])
    (m : GoMap (GoMap GoString)) (curr : GoMap GoString) (name : GoString) (hname : name ≠ [])
    (m1 : GoMap (GoMap GoString))
    (h : foldResults m curr name (ps.map (fun p => lineResult p.1 p.2)) = (some m1, none)) :
    m1.get [] = m.get [] := by
  induction ps generalizing m curr name with
  | nil =>
    simp only [List.map_nil, foldResults, Prod.mk.injEq, Option.some.injEq, and_true] at h
    rw [← h]
    exact GoMap.get_set_ne m name [] curr (fun h0 => hname h0.symm)
  | cons p ps ih =>
    have hne1 : ∀ q ∈ ps, q.2 ≠ [] := fun q hq => hne q (List.mem_cons_of_mem _ hq)
    have hp := hne p (List.mem_cons_self _ _)
    rw [List.map_cons] at h
    cases hres : lineResult p.1 p.2 with
    | error e => rw [hres] at h; simp [foldResults] at h
    | ok t =>
      rw [hres] at h
      have h12 : ¬ Element = Comment := by decide
      have h14 : ¬ Element = EOF := by decide
      have h23 : ¬ Section = Comment := by decide
      have h24 : ¬ Section = EOF := by decide
      have h21 : ¬ Section = Element := by decide
      rcases lineResult_ok_typ p.1 p.2 hp t hres with ht | ht | ht
      · simp only [foldResults, ht, h12, h14, if_false, if_true] at h
        exact ih hne1 m _ name hname h
      · simp only [foldResults, ht, h23, h24, h21, if_false, if_true] at h
        have hv : t.Value ≠ [] := by
          by_cases hh : isHeader p.2 = true
          · exact ((lineResult_classify p.1 p.2 hp t hres).1 hh).2
          · by_cases hc2 : isCommentLine p.2 = true
            · have := (lineResult_classify p.1 p.2 hp t hres).2.1 hc2
              rw [ht] at this
              exact absurd this h23
            · have he : isElementLine p.2 = true := by
                simp only [isElementLine, Bool.and_eq_true, Bool.not_eq_true']
                exact ⟨by simpa using hh, by simpa using hc2⟩
              have := ((lineResult_classify p.1 p.2 hp t hres).2.2 he).1
              rw [ht] at this
              exact absurd this h21
        rw [ih hne1 _ _ t.Value hv h]
        exact GoMap.get_set_ne m name [] curr (fun h0 => hname h0.symm)
      · simp only [foldResults, ht, if_true] at h
        exact ih hne1 m curr name hname h

theorem line_kind (l : GoString) :
    (isHeader l = true ∧ isCommentLine l = false ∧ isElementLine l = false) ∨
    (isHeader l = false ∧ isCommentLine l = true ∧ isElementLine l = false) ∨
    (isHeader l = false ∧ isCommentLine l = false ∧ isElementLine l = true) := by
  cases l with
  | nil => right; right; decide
  | cons c cs =>
    by_cases h1 : c = '['
    · left; subst h1; simp [isHeader, isCommentLine, isElementLine]
    · by_cases h2 : c = '#'
      · right; left; subst h2; simp [isHeader, isCommentLine, isElementLine]
      · by_cases h3 : c = ';'
        · right; left; subst h3; simp [isHeader, isCommentLine, isElementLine]
        · right; right; simp [isHeader, isCommentLine, isElementLine, h1, h2, h3]

theorem foldResults_root (ps : List (Nat × GoString)) (hne : ∀ p ∈ ps, p.2 ≠ [])
    (curr : GoMap GoString) (m1 : GoMap (GoMap GoString))
    (h : foldResults [] curr [] (ps.map (fun p => lineResult p.1 p.2)) = (some m1, none)) :
    ∃ inner, m1.get [] = some inner ∧
      (∀ k, inner.get k =
        match lastValue k (((ps.map Prod.snd).takeWhile (fun l => !isHeader l)).filter
          isElementLine) with
        | some v => some v
        | none => curr.get k) ∧
      ((∀ p ∈ ps, isHeader p.2 = false) → m1.keys = [[]]) := by
  induction ps generalizing curr with
  | nil =>
    simp only [List.map_nil, foldResults, Prod.mk.injEq, Option.some.injEq, and_true] at h
    subst h
    exact ⟨curr, GoMap.get_set_self _ _ _, fun k => rfl, fun _ => rfl⟩
  | cons p ps ih =>
    have hne1 : ∀ q ∈ ps, q.2 ≠ [] := fun q hq => hne q (List.mem_cons_of_mem _ hq)
    have hp := hne p (List.mem_cons_self _ _)
    rw [List.map_cons] at h
    cases hres : lineResult p.1 p.2 with
    | error e => rw [hres] at h; simp [foldResults] at h
    | ok t =>
      rw [hres] at h
      have h12 : ¬ Element = Comment := by decide
      have h14 : ¬ Element = EOF := by decide
      have h23 : ¬ Section = Comment := by decide
      have h24 : ¬ Section = EOF := by decide
      have h21 : ¬ Section = Element := by decide
      obtain ⟨hc1, hc2, hc3⟩ := lineResult_classify p.1 p.2 hp t hres
      rcases line_kind p.2 with ⟨k1, k2, k3⟩ | ⟨k1, k2, k3⟩ | ⟨k1, k2, k3⟩
      · obtain ⟨ht, hv⟩ := hc1 k1
        simp only [foldResults, ht, h23, h24, h21, if_false, if_true] at h
        have hroot := foldResults_keeps_root ps hne1 _ _ t.Value hv m1 h
        refine ⟨curr, ?_, ?_, ?_⟩
        · rw [hroot]; exact GoMap.get_set_self _ _ _
        · intro k
          simp [List.takeWhile_cons, k1, lastValue]
        · intro hno
          have := hno p (List.mem_cons_self _ _)
          rw [k1] at this
          cases this
      · have ht := hc2 k2
        simp only [foldResults, ht, if_true] at h
        obtain ⟨inner, hi1, hi2, hi3⟩ := ih hne1 curr h
        refine ⟨inner, hi1, ?_, fun hno => hi3 (fun q hq => hno q (List.mem_cons_of_mem _ hq))⟩
        intro k
        rw [hi2 k]
        simp [List.takeWhile_cons, k1, List.filter_cons, k3]
      · obtain ⟨ht, hkey, hval⟩ := hc3 k3
        simp only [foldResults, ht, h12, h14, if_false, if_true] at h
        obtain ⟨inner, hi1, hi2, hi3⟩ := ih hne1 _ h
        refine ⟨inner, hi1, ?_, fun hno => hi3 (fun q hq => hno q (List.mem_cons_of_mem _ hq))⟩
        intro k
        rw [hi2 k]
        simp only [List.map_cons, List.takeWhile_cons, k1, Bool.not_false, if_true,
          List.filter_cons, k3, lastValue]
        cases hl : lastValue k (List.filter isElementLine
            (List.takeWhile (fun l => !isHeader l) (List.map Prod.snd ps))) with
        | some v => rfl
        | none =>
          simp only
          by_cases hk : elemKey p.2 = k
          · rw [if_pos hk, hkey, hval, hk]
            exact GoMap.get_set_self _ _ _
          · rw [if_neg hk, hkey]
            exact GoMap.get_set_ne _ _ _ _ (fun h0 => hk h0.symm)

theorem lastValue_none_iff (k : GoString) (E : List GoString) :
    lastValue k E = none ↔ ∀ l ∈ E, elemKey l ≠ k := by
  induction E with
  | nil => simp [lastValue]
  | cons x xs ih =>
    rw [lastValue]
    cases hl : lastValue k xs with
    | some w =>
      simp only [reduceCtorEq, List.mem_cons, ne_eq, forall_eq_or_imp, false_iff, not_and]
      intro _ hall
      rw [ih.mpr hall] at hl
      cases hl
    | none =>
      have hxs := ih.mp hl
      by_cases hk : elemKey x = k
      · simp [hk]
      · simp only [hk, if_false, List.mem_cons, ne_eq, forall_eq_or_imp, not_false_eq_true,
          true_and, true_iff]
        exact hxs

theorem lastValue_iff (k v : GoString) (E : List GoString) :
    lastValue k E = some v ↔
      ∃ a l b, E = a ++ l :: b ∧ elemKey l = k ∧ elemValue l = v ∧ ∀ l1 ∈ b, elemKey l1 ≠ k := by
  induction E with
  | nil => simp [lastValue]
  | cons x xs ih =>
    rw [lastValue]
    cases hl : lastValue k xs with
    | some w =>
      rw [hl] at ih
      simp only
      constructor
      · intro hw
        obtain ⟨a, l, b, h1, h2, h3, h4⟩ := ih.mp hw
        exact ⟨x :: a, l, b, by rw [h1]; rfl, h2, h3, h4⟩
      · rintro ⟨a, l, b, h1, h2, h3, h4⟩
        cases a with
        | nil =>
          simp only [List.nil_append, List.cons.injEq] at h1
          obtain ⟨rfl, rfl⟩ := h1
          rw [(lastValue_none_iff k xs).mpr h4] at hl
          cases hl
        | cons y ys =>
          simp only [List.cons_append, List.cons.injEq] at h1
          obtain ⟨_, h1⟩ := h1
          exact ih.mpr ⟨ys, l, b, h1, h2, h3, h4⟩
    | none =>
      rw [hl] at ih
      have hxs := (lastValue_none_iff k xs).mp hl
      simp only
      constructor
      · intro hx
        split_ifs at hx with hk
        exact ⟨[], x, xs, rfl, hk, Option.some.inj hx, hxs⟩
      · rintro ⟨a, l, b, h1, h2, h3, h4⟩
        cases a with
        | nil =>
          simp only [List.nil_append, List.cons.injEq] at h1
          obtain ⟨rfl, rfl⟩ := h1
          rw [if_pos h2, h3]
        | cons y ys =>
          simp only [List.cons_append, List.cons.injEq] at h1
          obtain ⟨_, h1⟩ := h1
          have := ih.mpr ⟨ys, l, b, h1, h2, h3, h4⟩
          cases this

theorem UnmarshalMap_root (data : GoString) (m : GoMap (GoMap GoString))
    (h : UnmarshalMap data = some (some m, none)) :
    ∃ inner, m.get [] = some inner ∧
      (∀ k, inner.get k = lastValue k (leadingElements data)) ∧
      ((∀ l ∈ contentLines data, isHeader l = false) → m.keys = [[]]) := by
  have hd : data ≠ [] := by
    intro hd
    subst hd
    simp [UnmarshalMap] at h
  rw [UnmarshalMap_spec data hd] at h
  obtain ⟨inner, h1, h2, h3⟩ := foldResults_root (nonBlankLines data)
    (nonBlankLines_ne_nil data) [] m (Option.some.inj h)
  refine ⟨inner, h1, ?_, ?_⟩
  · intro k
    rw [h2 k]
    unfold leadingElements contentLines
    cases lastValue k (List.filter isElementLine
      (List.takeWhile (fun l => !isHeader l) (List.map Prod.snd (nonBlankLines data)))) <;> rfl
  · intro hno
    apply h3
    intro p hp
    exact hno p.2 (List.mem_map_of_mem _ hp)

theorem splitNewline_ne_nil (c : GoString) : splitNewline c ≠ [] := by
  cases c with
  | nil => simp [splitNewline]
  | cons x xs =>
    rw [splitNewline]
    split_ifs
    · simp
    · cases splitNewline xs <;> simp

theorem splitNewline_length (c : GoString) :
    (splitNewline c).length = c.count '\n' + 1 := by
  induction c with
  | nil => rfl
  | cons x xs ih =>
    rw [splitNewline]
    by_cases hx : x = '\n'
    · subst hx
      simp [ih]
    · have hne := splitNewline_ne_nil xs
      rw [if_neg hx, List.count_cons_of_ne (fun h => hx h.symm)]
      cases hs : splitNewline xs with
      | nil => exact absurd hs hne
      | cons l ls =>
        rw [hs] at ih
        simpa using ih

theorem physLines_comment_lines (m : Char) (hm : m ≠ '\n') (a c : GoString) (ha : '\n' ∉ a) :
    physLines (a ++ replaceNewline c ['\n', m] ++ ['\n']) =
      match splitNewline c with
      | [] => []
      | l :: ls => (a ++ l) :: ls.map (fun x => m :: x) := by
  induction c generalizing a with
  | nil =>
    simp only [replaceNewline, List.append_nil, splitNewline]
    rw [physLines_line_cons a [] ha]
    rfl
  | cons x xs ih =>
    have hne := splitNewline_ne_nil xs
    by_cases hx : x = '\n'
    · subst hx
      have h1 := ih [m] (by simpa using fun h => hm h.symm)
      simp only [replaceNewline, if_true, splitNewline]
      have hshape : a ++ (['\n', m] ++ replaceNewline xs ['\n', m]) ++ ['\n'] =
          a ++ '\n' :: ([m] ++ replaceNewline xs ['\n', m] ++ ['\n']) := by simp
      rw [hshape, physLines_line_cons a _ ha, h1]
      cases hs : splitNewline xs with
      | nil => exact absurd hs hne
      | cons l ls => simp
    · have h1 := ih (a ++ [x]) (by
        simp only [List.mem_append, List.mem_singleton, not_or]
        exact ⟨ha, fun h => hx h.symm⟩)
      simp only [replaceNewline, if_neg hx, splitNewline]
      have hshape : a ++ x :: replaceNewline xs ['\n', m] ++ ['\n'] =
          a ++ [x] ++ replaceNewline xs ['\n', m] ++ ['\n'] := by simp
      rw [hshape, h1]
      cases hs : splitNewline xs with
      | nil => exact absurd hs hne
      | cons l ls => simp

theorem comment_lines (m : Char) (hm : m ≠ '\n') (c : GoString) :
    physLines (m :: replaceNewline c ['\n', m] ++ ['\n']) =
      (splitNewline c).map (fun x => m :: x) := by
  have h := physLines_comment_lines m hm [m] c (by simpa using fun h => hm h.symm)
  have hne := splitNewline_ne_nil c
  simp only [List.singleton_append] at h
  rw [h]
  cases hs : splitNewline c with
  | nil => exact absurd hs hne
  | cons l ls => simp

/-! ## Types and shape of the returned tokens -/

theorem parseLine_ok_typ (r : Reader) (l : GoString) (tok : Token) (r1 : Reader)
    (h : r.parseLine l = some (.ok tok, r1)) :
    tok.Typ = Element ∨ tok.Typ = Section ∨ tok.Typ = Comment := by
  unfold Reader.parseLine at h
  cases hl : l.head? with
  | none => rw [hl] at h; cases h
  | some c0 =>
    rw [hl] at h
    simp only [Reader.newSyntaxError] at h
    split_ifs at h <;> cases h
    · right; left; rfl
    · right; right; rfl
    · left; rfl

theorem tokenStart_ok_typ (fuel : Nat) (r : Reader) (tok : Token) (r1 : Reader)
    (h : Reader.tokenStart fuel r = some (.ok tok, r1)) :
    tok.Typ = Element ∨ tok.Typ = Section ∨ tok.Typ = Comment ∨ tok.Typ = EOF := by
  induction fuel generalizing r with
  | zero => cases h
  | succ fuel ih =>
    rw [Reader.tokenStart] at h
    by_cases h1 : r.atEOF = true
    · simp only [h1, if_true] at h
      cases h; right; right; right; rfl
    · simp only [h1, if_false] at h
      by_cases h2 : (readString r.reader).2.2 = true ∧ (readString r.reader).1.length = 0
      · simp only [h2, and_self, if_true] at h
        cases h; right; right; right; rfl
      · rw [if_neg h2] at h
        by_cases h3 : (trimSpace (readString r.reader).1).length = 0
        · rw [if_pos h3] at h
          exact ih _ h
        · rw [if_neg h3] at h
          rcases parseLine_ok_typ _ _ tok r1 h with h4 | h4 | h4
          · left; exact h4
          · right; left; exact h4
          · right; right; left; exact h4

theorem foldResults_error_mem (L : List (Except GoError Token))
    (hgood : ∀ t, Except.ok t ∈ L → t.Typ = Element ∨ t.Typ = Section ∨ t.Typ = Comment)
    (m : GoMap (GoMap GoString)) (curr : GoMap GoString) (name : GoString) (err : GoError)
    (h : (foldResults m curr name L).2 = some err) : Except.error err ∈ L := by
  induction L generalizing m curr name with
  | nil => simp [foldResults] at h
  | cons x xs ih =>
    have hgood1 : ∀ t, Except.ok t ∈ xs → t.Typ = Element ∨ t.Typ = Section ∨ t.Typ = Comment :=
      fun t ht => hgood t (List.mem_cons_of_mem _ ht)
    cases x with
    | error e =>
      simp only [foldResults, Option.some.injEq] at h
      rw [h]
      exact List.mem_cons_self _ _
    | ok t =>
      have h12 : ¬ Element = Comment := by decide
      have h14 : ¬ Element = EOF := by decide
      have h23 : ¬ Section = Comment := by decide
      have h24 : ¬ Section = EOF := by decide
      have h21 : ¬ Section = Element := by decide
      apply List.mem_cons_of_mem
      rcases hgood t (List.mem_cons_self _ _) with ht | ht | ht
      · simp only [foldResults, ht, h12, h14, if_false, if_true] at h
        exact ih hgood1 _ _ _ h
      · simp only [foldResults, ht, h23, h24, h21, if_false, if_true] at h
        exact ih hgood1 _ _ _ h
      · simp only [foldResults, ht, if_true] at h
        exact ih hgood1 _ _ _ h

theorem UnmarshalMap_error_syntax (data : GoString) (m : Option (GoMap (GoMap GoString)))
    (err : GoError) (h : UnmarshalMap data = some (m, some err)) :
    ∃ e, err = .syntaxError e := by
  by_cases hd : data = []
  · subst hd
    simp only [UnmarshalMap, List.length_nil, if_true, Option.some.injEq, Prod.mk.injEq] at h
    exact ⟨_, h.2.symm⟩
  · rw [UnmarshalMap_spec data hd] at h
    have h2 : (foldResults [] [] []
        ((nonBlankLines data).map (fun (p : Nat × GoString) => lineResult p.1 p.2))).2 =
        some err := by rw [Option.some.inj h]
    have hmem := foldResults_error_mem _ (lineResults_good data) _ _ _ err h2
    obtain ⟨p, _, hp⟩ := List.mem_map.mp hmem
    exact lineResult_error_syntax p.1 p.2 err hp

theorem lineResult_header (n : Nat) (l : GoString) (hh : isHeader l = true) (t : Token)
    (h : lineResult n l = .ok t) :
    t = { Typ := Section, Key := [], Value := headerName l } ∧ headerName l ≠ [] := by
  cases l with
  | nil => simp [isHeader] at hh
  | cons c cs =>
    have hc : c = '[' := by simpa [isHeader] using hh
    subst hc
    unfold lineResult Reader.parseLine at h
    simp only [List.head?_cons, if_true, Reader.newSyntaxError] at h
    split_ifs at h with h1 h2
    cases h
    exact ⟨rfl, fun h0 => h2 (List.length_eq_zero.mpr h0)⟩

theorem lineResult_comment_line (n : Nat) (l : GoString) (hc : isCommentLine l = true) :
    lineResult n l = .ok { Typ := Comment, Key := [], Value := l.drop 1 } := by
  cases l with
  | nil => simp [isCommentLine] at hc
  | cons c cs =>
    have hc2 : c = '#' ∨ c = ';' := by simpa [isCommentLine] using hc
    rw [lineResult_comment n c cs hc2]
    rfl

theorem lineResult_element_line (n : Nat) (l : GoString) (hl : l ≠ []) (he : isElementLine l = true)
    (t : Token) (h : lineResult n l = .ok t) :
    t = { Typ := Element, Key := elemKey l, Value := elemValue l } ∧ '=' ∈ l ∧
      l.head? ≠ some '=' := by
  obtain ⟨ht, hk, hv⟩ := (lineResult_classify n l hl t h).2.2 he
  obtain ⟨typ, key, value⟩ := t
  simp only at ht hk hv
  subst ht hk hv
  refine ⟨rfl, ?_, ?_⟩
  · by_contra hcon
    have hkind : isHeader l = false ∧ isCommentLine l = false := by
      simpa [isElementLine] using he
    have herr := (parseLine_error_iff ⟨[], false, n, resetToken⟩ l hl).mpr
      (Or.inr ⟨by simpa [isHeader] using hkind.1,
        fun h1 => by simp [isCommentLine, h1] at hkind,
        fun h1 => by simp [isCommentLine, h1] at hkind, Or.inl hcon⟩)
    obtain ⟨e, r1, he1⟩ := herr
    unfold lineResult at h
    rw [he1] at h
    cases h
  · intro hcon
    have hkind : isHeader l = false ∧ isCommentLine l = false := by
      simpa [isElementLine] using he
    have herr := (parseLine_error_iff ⟨[], false, n, resetToken⟩ l hl).mpr
      (Or.inr ⟨by simpa [isHeader] using hkind.1,
        fun h1 => by simp [isCommentLine, h1] at hkind,
        fun h1 => by simp [isCommentLine, h1] at hkind, Or.inr hcon⟩)
    obtain ⟨e, r1, he1⟩ := herr
    unfold lineResult at h
    rw [he1] at h
    cases h

theorem trimSpace_noLeading (x : GoString) : NoLeadingSpace (trimSpace x) :=
  fun c hc => trimSpace_head_not_space x c hc

theorem trimSpace_noTrailing (x : GoString) : NoTrailingSpace (trimSpace x) :=
  fun c hc => trimSpace_last_not_space x c hc

theorem lineResult_wellFormed (n : Nat) (l : GoString) (hl : l ≠ []) (hhead : NoLeadingSpace l)
    (hlast : NoTrailingSpace l) (t : Token) (h : lineResult n l = .ok t) : WellFormed t := by
  have h12 : ¬ Element = Comment := by decide
  have h21 : ¬ Section = Element := by decide
  have h23 : ¬ Section = Comment := by decide
  have h31 : ¬ Comment = Element := by decide
  rcases line_kind l with ⟨k1, _, _⟩ | ⟨_, k2, _⟩ | ⟨_, _, k3⟩
  · obtain ⟨ht, hv⟩ := lineResult_header n l k1 t h
    subst ht
    refine ⟨fun h0 => absurd h0 h21, fun _ => ⟨hv, trimSpace_noLeading _, trimSpace_noTrailing _⟩,
      fun h0 => absurd h0 h23, fun _ => rfl⟩
  · rw [lineResult_comment_line n l k2] at h
    cases h
    refine ⟨fun h0 => absurd h0 h31, fun h0 => absurd h0.symm h23, fun _ => ?_, fun _ => rfl⟩
    intro c hc
    cases l with
    | nil => exact absurd rfl hl
    | cons x xs =>
      simp only [List.drop_succ_cons, List.drop_zero] at hc
      apply hlast c
      cases xs with
      | nil => cases hc
      | cons y ys => rw [List.getLast?_cons_cons]; exact hc
  · obtain ⟨ht, hmem, hne⟩ := lineResult_element_line n l hl k3 t h
    subst ht
    have hsplit := line_split_at_eq l hmem
    refine ⟨fun _ => ?_, fun h0 => absurd h0.symm h21, fun h0 => absurd h0 h12,
      fun h0 => absurd rfl h0⟩
    cases l with
    | nil => exact absurd rfl hl
    | cons x xs =>
      have hx : x ≠ '=' := fun h0 => hne (by rw [h0]; rfl)
      have hxs : isSpace x = false := hhead x rfl
      have htw : (x :: xs).takeWhile (fun c => decide (c ≠ '=')) =
          x :: xs.takeWhile (fun c => decide (c ≠ '=')) := by
        simp [List.takeWhile_cons, hx]
      have hkey : elemKey (x :: xs) =
          x :: (xs.takeWhile (fun c => decide (c ≠ '='))).rdropWhile isSpace := by
        unfold elemKey trimRightFunc
        rw [htw]
        exact rdropWhile_cons_of_false x _ hxs
      refine ⟨?_, ?_, ?_, ?_, ?_⟩
      · rw [hkey]; simp
      · intro c hc
        rw [hkey] at hc
        simp only [List.head?_cons, Option.some.injEq] at hc
        rw [← hc]; exact hxs
      · intro c hc
        exact getLast?_rdropWhile_false _ c hc
      · intro c hc
        exact head?_dropWhile_false _ c hc
      · intro c hc
        have h1 := getLast?_dropWhile _ c hc
        apply hlast c
        rw [hsplit, getLast?_append_cons]
        cases hb : List.drop 1 (List.dropWhile (fun c => decide (c ≠ '=')) (x :: xs)) with
        | nil => rw [hb] at h1; cases h1
        | cons y ys =>
          rw [hb] at h1
          rw [List.getLast?_cons_cons]
          exact h1

theorem nonBlankLines_trimmed (s : GoString) (p : Nat × GoString) (hp : p ∈ nonBlankLines s) :
    p.2 ≠ [] ∧ NoLeadingSpace p.2 ∧ NoTrailingSpace p.2 := by
  obtain ⟨j, hj⟩ := List.mem_iff_getElem?.mp hp
  rw [nonBlankLines_eq_from] at hj
  obtain ⟨_, l, _, h3, h4, _⟩ := nonBlankFrom_getElem _ 0 j p hj
  rw [← h3]
  exact ⟨by rw [h3]; exact h4, trimSpace_noLeading l, trimSpace_noTrailing l⟩

theorem eofToken_wellFormed : WellFormed eofToken := by
  refine ⟨fun h => ?_, fun h => ?_, fun h => ?_, fun _ => rfl⟩ <;>
    exact absurd h (by decide)

/-! ## Line endings -/

theorem physLines_crlf (s : GoString) :
    List.Forall₂ (fun l1 l => l1 = l ∨ l1 = l ++ ['\r']) (physLines (crlf s)) (physLines s) := by
  induction s with
  | nil => exact List.Forall₂.nil
  | cons c cs ih =>
    unfold crlf at ih ⊢
    by_cases hc : c = '\n'
    · subst hc
      have hr : ('\r' : Char) ≠ '\n' := by decide
      simp only [replaceNewline, if_true, List.cons_append, List.nil_append]
      rw [physLines, if_neg hr, physLines, if_pos rfl, physLines, if_pos rfl]
      exact List.Forall₂.cons (Or.inr rfl) ih
    · simp only [replaceNewline, if_neg hc]
      rw [physLines, if_neg hc, physLines, if_neg hc]
      generalize physLines (replaceNewline cs ['\r', '\n']) = A at ih ⊢
      generalize physLines cs = B at ih ⊢
      cases ih with
      | nil => exact List.Forall₂.cons (Or.inl rfl) List.Forall₂.nil
      | cons h1 h2 =>
        refine List.Forall₂.cons ?_ h2
        rcases h1 with h | h
        · left; rw [h]
        · right; rw [h]; rfl

theorem map_trimSpace_crlf (s : GoString) :
    (physLines (crlf s)).map trimSpace = (physLines s).map trimSpace := by
  have h := physLines_crlf s
  generalize physLines (crlf s) = A at h
  generalize physLines s = B at h
  induction h with
  | nil => rfl
  | cons h1 _ ih =>
    rw [List.map_cons, List.map_cons, ih]
    rcases h1 with h | h
    · rw [h]
    · rw [h, trimSpace_append_all _ _ (fun c hc => by
        rw [List.mem_singleton.mp hc]; decide)]

theorem calls_crlf (s : GoString) (k : Nat) :
    (NewReaderString (crlf s)).calls k = (NewReaderString s).calls k := by
  rw [calls_newReader, calls_newReader]
  have h : nonBlankLines (crlf s) = nonBlankLines s := by
    unfold nonBlankLines numberedLines
    rw [map_trimSpace_crlf]
  rw [h]

/-! ## The whole mapping -/

theorem blockElements_cons_header (l : GoString) (ls : List GoString) (h : isHeader l = true) :
    blockElements (l :: ls) = [] := by
  simp [blockElements, List.takeWhile_cons, h]

theorem blockElements_cons_comment (l : GoString) (ls : List GoString)
    (h1 : isHeader l = false) (h3 : isElementLine l = false) :
    blockElements (l :: ls) = blockElements ls := by
  simp [blockElements, List.takeWhile_cons, h1, List.filter_cons, h3]

theorem blockElements_cons_element (l : GoString) (ls : List GoString)
    (h1 : isHeader l = false) (h3 : isElementLine l = true) :
    blockElements (l :: ls) = l :: blockElements ls := by
  simp [blockElements, List.takeWhile_cons, h1, List.filter_cons, h3]

theorem lastBlock_cons_not_header (n l : GoString) (ls : List GoString)
    (h1 : isHeader l = false) : lastBlock n (l :: ls) = lastBlock n ls := by
  rw [lastBlock]
  cases lastBlock n ls with
  | some b => rfl
  | none => simp [h1]

theorem lastValue_or_none (k : GoString) (b : List GoString) :
    (match lastValue k b with
      | some v => some v
      | none => GoMap.get ([] : GoMap GoString) k) = lastValue k b := by
  cases lastValue k b <;> rfl

theorem foldResults_get (n : GoString) (ps : List (Nat × GoString)) (hne : ∀ p ∈ ps, p.2 ≠ [])
    (m : GoMap (GoMap GoString)) (curr : GoMap GoString) (name : GoString)
    (m1 : GoMap (GoMap GoString))
    (h : foldResults m curr name (ps.map (fun p => lineResult p.1 p.2)) = (some m1, none)) :
    (∀ b, lastBlock n (ps.map Prod.snd) = some b →
      ∃ inner, m1.get n = some inner ∧ ∀ k, inner.get k = lastValue k b) ∧
    (lastBlock n (ps.map Prod.snd) = none →
      (n = name → ∃ inner, m1.get n = some inner ∧ ∀ k, inner.get k =
        match lastValue k (blockElements (ps.map Prod.snd)) with
        | some v => some v
        | none => curr.get k) ∧
      (n ≠ name → m1.get n = m.get n)) := by
  induction ps generalizing m curr name with
  | nil =>
    simp only [List.map_nil, foldResults, Prod.mk.injEq, Option.some.injEq, and_true] at h
    subst h
    refine ⟨fun b hb => (by cases hb), fun _ => ⟨fun hn => ?_, fun hn => ?_⟩⟩
    · subst hn
      exact ⟨curr, GoMap.get_set_self _ _ _, fun k => rfl⟩
    · exact GoMap.get_set_ne _ _ _ _ hn
  | cons p ps ih =>
    have hne1 : ∀ q ∈ ps, q.2 ≠ [] := fun q hq => hne q (List.mem_cons_of_mem _ hq)
    have hp := hne p (List.mem_cons_self _ _)
    rw [List.map_cons] at h
    cases hres : lineResult p.1 p.2 with
    | error e => rw [hres] at h; simp [foldResults] at h
    | ok t =>
      rw [hres] at h
      have h12 : ¬ Element = Comment := by decide
      have h14 : ¬ Element = EOF := by decide
      have h23 : ¬ Section = Comment := by decide
      have h24 : ¬ Section = EOF := by decide
      have h21 : ¬ Section = Element := by decide
      rw [List.map_cons]
      rcases line_kind p.2 with ⟨k1, k2, k3⟩ | ⟨k1, k2, k3⟩ | ⟨k1, k2, k3⟩
      · obtain ⟨ht, hv⟩ := lineResult_header p.1 p.2 k1 t hres
        subst ht
        simp only [foldResults, h23, h24, h21, if_false, if_true] at h
        obtain ⟨ihA, ihB⟩ := ih hne1 _ _ _ h
        rw [lastBlock, blockElements_cons_header _ _ k1]
        cases hlb : lastBlock n (List.map Prod.snd ps) with
        | some b1 =>
          refine ⟨fun b hb => ?_, fun hb => (by cases hb)⟩
          simp only [Option.some.injEq] at hb
          subst hb
          exact ihA b1 hlb
        | none =>
          obtain ⟨ihB1, ihB2⟩ := ihB hlb
          simp only [k1, true_and]
          by_cases hn : headerName p.2 = n
          · refine ⟨fun b hb => ?_, fun hb => ?_⟩
            · rw [if_pos hn] at hb
              simp only [Option.some.injEq] at hb
              subst hb
              obtain ⟨inner, hi1, hi2⟩ := ihB1 hn.symm
              refine ⟨inner, hi1, fun k => ?_⟩
              rw [hi2 k]
              exact lastValue_or_none k _
            · rw [if_pos hn] at hb
              cases hb
          · refine ⟨fun b hb => ?_, fun _ => ⟨fun hnn => ?_, fun hnn => ?_⟩⟩
            · rw [if_neg hn] at hb
              cases hb
            · subst hnn
              rw [ihB2 (fun h0 => hn h0.symm)]
              exact ⟨curr, GoMap.get_set_self _ _ _, fun k => rfl⟩
            · rw [ihB2 (fun h0 => hn h0.symm)]
              exact GoMap.get_set_ne _ _ _ _ hnn
      · rw [lineResult_comment_line p.1 p.2 k2] at hres
        cases hres
        simp only [foldResults, if_true] at h
        rw [lastBlock_cons_not_header n _ _ k1, blockElements_cons_comment _ _ k1 k3]
        exact ih hne1 _ _ _ h
      · obtain ⟨ht, _, _⟩ := lineResult_element_line p.1 p.2 hp k3 t hres
        subst ht
        simp only [foldResults, h12, h14, if_false, if_true] at h
        obtain ⟨ihA, ihB⟩ := ih hne1 _ _ _ h
        rw [lastBlock_cons_not_header n _ _ k1, blockElements_cons_element _ _ k1 k3]
        refine ⟨ihA, fun hb => ?_⟩
        obtain ⟨ihB1, ihB2⟩ := ihB hb
        refine ⟨fun hnn => ?_, ihB2⟩
        obtain ⟨inner, hi1, hi2⟩ := ihB1 hnn
        refine ⟨inner, hi1, fun k => ?_⟩
        rw [hi2 k, lastValue]
        cases hl : lastValue k (blockElements (List.map Prod.snd ps)) with
        | some v => rfl
        | none =>
          simp only
          by_cases hk : elemKey p.2 = k
          · rw [if_pos hk, hk]
            exact GoMap.get_set_self _ _ _
          · rw [if_neg hk]
            exact GoMap.get_set_ne _ _ _ _ (fun h0 => hk h0.symm)

theorem lastBlock_none_iff (n : GoString) (ls : List GoString) :
    lastBlock n ls = none ↔ ∀ h ∈ ls, isHeader h = true → headerName h ≠ n := by
  induction ls with
  | nil => simp [lastBlock]
  | cons l ls ih =>
    rw [lastBlock]
    cases hl : lastBlock n ls with
    | some b =>
      simp only [reduceCtorEq, List.mem_cons, forall_eq_or_imp, false_iff, not_and]
      intro _ hall
      rw [ih.mpr hall] at hl
      cases hl
    | none =>
      have hls := ih.mp hl
      simp only [List.mem_cons, forall_eq_or_imp]
      by_cases hc : isHeader l = true ∧ headerName l = n
      · rw [if_pos hc]
        simp only [reduceCtorEq, false_iff, not_and]
        intro h1
        exact absurd hc.2 (h1 hc.1)
      · rw [if_neg hc]
        simp only [true_iff]
        exact ⟨fun h1 h2 => hc ⟨h1, h2⟩, hls⟩

theorem lastBlock_of_split (n : GoString) (a : List GoString) (h : GoString)
    (rest : List GoString) (hh : isHeader h = true) (hn : headerName h = n)
    (hrest : ∀ h1 ∈ rest, isHeader h1 = true → headerName h1 ≠ n) :
    lastBlock n (a ++ h :: rest) = some (blockElements rest) := by
  induction a with
  | nil =>
    rw [List.nil_append, lastBlock, (lastBlock_none_iff n rest).mpr hrest]
    simp [hh, hn]
  | cons x xs ih =>
    rw [List.cons_append, lastBlock, ih]

theorem GoMap.get_eq_none_iff {V : Type} (m : GoMap V) (n : GoString) :
    m.get n = none ↔ n ∉ m.keys := by
  induction m with
  | nil => simp [GoMap.get, GoMap.keys]
  | cons p ps ih =>
    obtain ⟨a, b⟩ := p
    by_cases hn : n = a
    · subst hn
      have heq : (n == n) = true := by simp
      simp only [GoMap.get, GoMap.keys, List.lookup, heq, List.map_cons, List.mem_cons,
        true_or, not_true_eq_false, reduceCtorEq]
    · have hne : (n == a) = false := by simpa using hn
      simp only [GoMap.get, GoMap.keys, List.lookup, hne, List.map_cons, List.mem_cons, hn,
        false_or]
      exact ih

theorem GoMap.eq_nil_of_get_none {V : Type} (m : GoMap V) (h : ∀ k, m.get k = none) :
    m = [] := by
  cases m with
  | nil => rfl
  | cons p ps =>
    obtain ⟨a, b⟩ := p
    have h1 := h a
    rw [GoMap.get, List.lookup] at h1
    simp at h1

theorem contentLines_ne_nil (data : GoString) :
    ∀ p ∈ nonBlankLines data, p.2 ≠ [] := nonBlankLines_ne_nil data

theorem UnmarshalMap_get (data : GoString) (m : GoMap (GoMap GoString))
    (h : UnmarshalMap data = some (some m, none)) (n : GoString) :
    (∀ b, lastBlock n (contentLines data) = some b →
      ∃ inner, m.get n = some inner ∧ ∀ k, inner.get k = lastValue k b) ∧
    (lastBlock n (contentLines data) = none →
      (n = [] → ∃ inner, m.get n = some inner ∧
        ∀ k, inner.get k = lastValue k (leadingElements data)) ∧
      (n ≠ [] → m.get n = none)) := by
  have hd : data ≠ [] := by
    intro hd
    subst hd
    simp [UnmarshalMap] at h
  rw [UnmarshalMap_spec data hd] at h
  obtain ⟨hA, hB⟩ := foldResults_get n (nonBlankLines data) (nonBlankLines_ne_nil data)
    [] [] [] m (Option.some.inj h)
  refine ⟨hA, fun hb => ?_⟩
  obtain ⟨hB1, hB2⟩ := hB hb
  refine ⟨fun hn => ?_, hB2⟩
  obtain ⟨inner, hi1, hi2⟩ := hB1 hn
  refine ⟨inner, hi1, fun k => ?_⟩
  rw [hi2 k]
  exact lastValue_or_none k _

theorem UnmarshalMap_keys (data : GoString) (m : GoMap (GoMap GoString))
    (h : UnmarshalMap data = some (some m, none)) (n : GoString) :
    n ∈ m.keys ↔ n = [] ∨ ∃ l ∈ contentLines data, isHeader l = true ∧ headerName l = n := by
  obtain ⟨hA, hB⟩ := UnmarshalMap_get data m h n
  have hkey : n ∈ m.keys ↔ m.get n ≠ none := by
    rw [ne_eq, GoMap.get_eq_none_iff, not_not]
  rw [hkey]
  cases hlb : lastBlock n (contentLines data) with
  | some b =>
    obtain ⟨inner, hi, _⟩ := hA b hlb
    have hex : ∃ l ∈ contentLines data, isHeader l = true ∧ headerName l = n := by
      by_contra hcon
      have hnone := (lastBlock_none_iff n (contentLines data)).mpr
        (fun l hl hh hn => hcon ⟨l, hl, hh, hn⟩)
      rw [hnone] at hlb
      cases hlb
    simp [hi, hex]
  | none =>
    obtain ⟨hB1, hB2⟩ := hB hlb
    have hno := (lastBlock_none_iff n (contentLines data)).mp hlb
    by_cases hn : n = []
    · obtain ⟨inner, hi, _⟩ := hB1 hn
      rw [hi]
      simp [hn]
    · rw [hB2 hn]
      simp only [ne_eq, not_true_eq_false, hn, false_or, false_iff, not_exists, not_and]
      intro l hl hh
      exact hno l hl hh

theorem UnmarshalMap_block (data : GoString) (m : GoMap (GoMap GoString))
    (h : UnmarshalMap data = some (some m, none)) (a : List GoString) (hd : GoString)
    (rest : List GoString) (hsplit : contentLines data = a ++ hd :: rest)
    (hh : isHeader hd = true)
    (hlast : ∀ h1 ∈ rest, isHeader h1 = true → headerName h1 ≠ headerName hd) :
    ∃ inner, m.get (headerName hd) = some inner ∧
      ∀ k, inner.get k = lastValue k (blockElements rest) := by
  obtain ⟨hA, _⟩ := UnmarshalMap_get data m h (headerName hd)
  apply hA
  rw [hsplit]
  exact lastBlock_of_split _ a hd rest hh rfl hlast

/-! ## Comments and blank lines under the map projection -/

theorem physLines_ne_nil (c : Char) (cs : GoString) : physLines (c :: cs) ≠ [] := by
  rw [physLines]
  split_ifs
  · simp
  · cases physLines cs <;> simp

theorem physLines_append_newline (q x : GoString) :
    physLines (q ++ '\n' :: x) = physLines (q ++ ['\n']) ++ physLines x := by
  induction q with
  | nil => simp [physLines]
  | cons c cs ih =>
    by_cases hc : c = '\n'
    · subst hc
      rw [List.cons_append, List.cons_append, physLines, if_pos rfl, physLines, if_pos rfl, ih]
      rfl
    · rw [List.cons_append, List.cons_append, physLines, if_neg hc, physLines, if_neg hc, ih]
      cases hq : physLines (cs ++ ['\n']) with
      | nil =>
        cases cs with
        | nil => simp [physLines] at hq
        | cons d ds => exact absurd hq (physLines_ne_nil d _)
      | cons l ls => rfl

theorem contentLines_eq (s : GoString) :
    contentLines s = ((physLines s).map trimSpace).filter (fun l => decide (l ≠ [])) := by
  unfold contentLines nonBlankLines numberedLines
  generalize (physLines s).map trimSpace = L
  generalize 1 = n
  induction L generalizing n with
  | nil => rfl
  | cons l ls ih =>
    by_cases hl : l = []
    · simp only [List.enumFrom_cons, List.filter_cons, hl, ne_eq, not_true_eq_false,
        decide_False, Bool.false_eq_true, if_false]
      exact ih (n + 1)
    · simp only [List.enumFrom_cons, List.filter_cons, hl, ne_eq, not_false_eq_true,
        decide_True, if_true, List.map_cons, List.cons.injEq, true_and]
      exact ih (n + 1)

theorem contentLines_append_newline (q x : GoString) :
    contentLines (q ++ '\n' :: x) = contentLines (q ++ ['\n']) ++ contentLines x := by
  rw [contentLines_eq, contentLines_eq, contentLines_eq, physLines_append_newline,
    List.map_append, List.filter_append]

theorem lineResult_indep (n n1 : Nat) (l : GoString) :
    (∃ t, lineResult n l = .ok t ∧ lineResult n1 l = .ok t) ∨
      (∃ e e1, lineResult n l = .error e ∧ lineResult n1 l = .error e1) := by
  unfold lineResult Reader.parseLine
  cases l.head? with
  | none => exact Or.inl ⟨_, rfl, rfl⟩
  | some c0 =>
    simp only [Reader.newSyntaxError]
    split_ifs
    · exact Or.inr ⟨_, _, rfl, rfl⟩
    · exact Or.inr ⟨_, _, rfl, rfl⟩
    · exact Or.inl ⟨_, rfl, rfl⟩
    · exact Or.inl ⟨_, rfl, rfl⟩
    · exact Or.inr ⟨_, _, rfl, rfl⟩
    · exact Or.inr ⟨_, _, rfl, rfl⟩
    · exact Or.inl ⟨_, rfl, rfl⟩

theorem foldResults_numbering (ps : List (Nat × GoString)) (m : GoMap (GoMap GoString))
    (curr : GoMap GoString) (name : GoString) :
    (foldResults m curr name (ps.map (fun p => lineResult p.1 p.2))).1 =
      (foldResults m curr name ((ps.map Prod.snd).map (lineResult 0))).1 := by
  induction ps generalizing m curr name with
  | nil => rfl
  | cons p ps ih =>
    simp only [List.map_cons]
    rcases lineResult_indep p.1 0 p.2 with ⟨t, h1, h2⟩ | ⟨e, e1, h1, h2⟩
    · rw [h1, h2]
      simp only [foldResults]
      split_ifs
      · exact ih _ _ _
      · rfl
      · exact ih _ _ _
      · exact ih _ _ _
      · rfl
    · rw [h1, h2]
      rfl

theorem foldResults_skip_comments (ls : List GoString) (m : GoMap (GoMap GoString))
    (curr : GoMap GoString) (name : GoString) :
    (foldResults m curr name (ls.map (lineResult 0))).1 =
      (foldResults m curr name
        ((ls.filter (fun l => !isCommentLine l)).map (lineResult 0))).1 := by
  induction ls generalizing m curr name with
  | nil => rfl
  | cons l ls ih =>
    by_cases hc : isCommentLine l = true
    · rw [List.filter_cons, List.map_cons, lineResult_comment_line 0 l hc]
      simp only [hc, Bool.not_true, Bool.false_eq_true, if_false, foldResults, if_true]
      exact ih _ _ _
    · have hc1 : isCommentLine l = false := by simpa using hc
      rw [List.filter_cons]
      simp only [hc1, Bool.not_false, if_true, List.map_cons]
      cases lineResult 0 l with
      | error e => rfl
      | ok t =>
        simp only [foldResults]
        split_ifs
        · exact ih _ _ _
        · rfl
        · exact ih _ _ _
        · exact ih _ _ _
        · rfl

theorem UnmarshalMap_by_lines (data : GoString) (hd : data ≠ []) :
    ∃ err, UnmarshalMap data =
      some ((foldResults [] [] []
        (((contentLines data).filter (fun l => !isCommentLine l)).map (lineResult 0))).1, err) ∧
      (err = none ↔ (foldResults [] [] []
        (((contentLines data).filter (fun l => !isCommentLine l)).map (lineResult 0))).1 ≠
          none) := by
  obtain ⟨h1, h2, h3⟩ := foldResults_error _ (lineResults_good data) [] [] []
  have heq := (foldResults_numbering (nonBlankLines data) [] [] []).trans
    (foldResults_skip_comments (contentLines data) [] [] [])
  refine ⟨(foldResults [] [] []
    ((nonBlankLines data).map (fun (p : Nat × GoString) => lineResult p.1 p.2))).2, ?_, ?_⟩
  · rw [UnmarshalMap_spec data hd, ← heq]
  · rw [← heq]
    constructor
    · exact h3
    · intro hne
      by_contra hcon
      exact hne (h2 hcon)

theorem contentLines_single (body : GoString) (hb : '\n' ∉ body) :
    contentLines (body ++ ['\n']) =
      if trimSpace body = [] then [] else [trimSpace body] := by
  rw [contentLines_eq, physLines_line_cons body [] hb]
  by_cases h : trimSpace body = []
  · simp [physLines, h]
  · simp [physLines, h]

theorem contentLines_insert (pre post body : GoString)
    (hpre : pre = [] ∨ ∃ q, pre = q ++ ['\n']) :
    contentLines (pre ++ (body ++ ['\n']) ++ post) =
      contentLines pre ++ contentLines (body ++ ['\n']) ++ contentLines post ∧
    contentLines (pre ++ post) = contentLines pre ++ contentLines post := by
  have hnil : contentLines [] = [] := by rw [contentLines_eq]; rfl
  rcases hpre with h | ⟨q, h⟩
  · subst h
    simp only [List.nil_append, hnil]
    have := contentLines_append_newline body post
    simp only [List.append_assoc, List.singleton_append]
    exact ⟨this, trivial⟩
  · subst h
    have h1 : q ++ ['\n'] ++ (body ++ ['\n']) ++ post = q ++ '\n' :: (body ++ '\n' :: post) := by
      simp
    have h2 : q ++ ['\n'] ++ post = q ++ '\n' :: post := by simp
    rw [h1, h2, contentLines_append_newline q, contentLines_append_newline body,
      contentLines_append_newline q post]
    simp

theorem insert_line_filtered (pre post body : GoString)
    (hpre : pre = [] ∨ ∃ q, pre = q ++ ['\n']) (hb : '\n' ∉ body)
    (hkind : trimSpace body = [] ∨ isCommentLine (trimSpace body) = true) :
    (contentLines (pre ++ (body ++ ['\n']) ++ post)).filter (fun l => !isCommentLine l) =
      (contentLines (pre ++ post)).filter (fun l => !isCommentLine l) := by
  obtain ⟨h1, h2⟩ := contentLines_insert pre post body hpre
  rw [h1, h2, contentLines_single body hb]
  rcases hkind with h | h
  · simp [h]
  · by_cases h0 : trimSpace body = []
    · simp [h0]
    · simp [h0, List.filter_append, List.filter_cons, h]

theorem insert_line_same_mapping (pre post body : GoString) (hd : pre ++ post ≠ [])
    (hpre : pre = [] ∨ ∃ q, pre = q ++ ['\n']) (hb : '\n' ∉ body)
    (hkind : (∀ c ∈ body, isSpace c = true) ∨
      ∃ m text, (m = '#' ∨ m = ';') ∧ body = m :: text) :
    ∃ (m : Option (GoMap (GoMap GoString))) (e1 e2 : Option GoError),
      UnmarshalMap (pre ++ post) = some (m, e1) ∧
      UnmarshalMap (pre ++ (body ++ ['\n']) ++ post) = some (m, e2) ∧
      (e1 = none ↔ e2 = none) := by
  have hkind2 : trimSpace body = [] ∨ isCommentLine (trimSpace body) = true := by
    rcases hkind with h | ⟨m, text, hm, h⟩
    · left
      unfold trimSpace trimLeftFunc
      rw [dropWhile_eq_nil_of_all body h]
      rfl
    · right
      subst h
      have hsp : isSpace m = false := by rcases hm with rfl | rfl <;> decide
      have ht : trimSpace (m :: text) = m :: text.rdropWhile isSpace := by
        unfold trimSpace trimLeftFunc trimRightFunc
        rw [dropWhile_eq_self_of_head (m :: text) (fun c hc => by
          simp only [List.head?_cons, Option.some.injEq] at hc
          rw [← hc]; exact hsp)]
        exact rdropWhile_cons_of_false m text hsp
      rw [ht]
      rcases hm with rfl | rfl <;> simp [isCommentLine]
  have hd2 : pre ++ (body ++ ['\n']) ++ post ≠ [] := by simp
  obtain ⟨e1, h1, h1b⟩ := UnmarshalMap_by_lines (pre ++ post) hd
  obtain ⟨e2, h2, h2b⟩ := UnmarshalMap_by_lines (pre ++ (body ++ ['\n']) ++ post) hd2
  rw [insert_line_filtered pre post body hpre hb hkind2] at h2 h2b
  exact ⟨_, e1, e2, h1, h2, by rw [h1b, h2b]⟩

/-! ## The claims -/

/-- C1: successive calls of `Reader.Token` report on the non-blank lines of the
input in order, one call per line.  For every input `s` and every number `k` of
calls, the calls all return; call number `j` (counting from 0) returns exactly
what `parseLine` returns for the `j`-th trimmed non-blank line (on a reader whose
line counter is that line's number and whose token was just reset), be it a
token or a syntax error, and once the non-blank lines are used up it returns the
`EOF` token with no error.  Blank lines are not in `nonBlankLines`, so they
produce nothing. -/
theorem Token_reports_nonblank_lines (s : GoString) (k : Nat) :
    ∃ results : List (Except GoError Token),
      (NewReaderString s).calls k = some results ∧ results.length = k ∧
      ∀ j, j < k → ∃ res, results[j]? = some res ∧
        match (nonBlankLines s)[j]? with
        | some p =>
          ∀ r0 : Reader, r0.line = p.1 → r0.token = resetToken →
            ∃ r1, r0.parseLine p.2 = some (res, r1)
        | none => res = .ok eofToken := by
  refine ⟨_, calls_newReader s k, by simp, ?_⟩
  intro j hj
  by_cases hjl : j < (nonBlankLines s).length
  · refine ⟨lineResult (nonBlankLines s)[j].1 (nonBlankLines s)[j].2, ?_, ?_⟩
    · rw [List.getElem?_take, if_pos hj, List.getElem?_append_left (by simpa using hjl)]
      simp [List.getElem?_eq_getElem hjl]
    · rw [List.getElem?_eq_getElem hjl]
      intro r0 h0 ht
      obtain ⟨r1, h1, _⟩ := parseLine_lineResult r0 (nonBlankLines s)[j].2
        (nonBlankLines_ne_nil s _ (List.getElem_mem _)) ht
      exact ⟨r1, by rw [h1, h0]⟩
  · refine ⟨.ok eofToken, ?_, ?_⟩
    · rw [List.getElem?_take, if_pos hj, List.getElem?_append_right (by simpa using hjl)]
      simp only [List.length_map]
      rw [List.getElem?_replicate]
      simp; omega
    · rw [List.getElem?_eq_none (by omega)]

/-- C2 (as stated, refuted): the line `=a=b` is trimmed, non-empty, starts with
none of `[`, `#`, `;` and holds an `=` at position 2, yet `parseLine` returns the
empty-key syntax error and no Element token. -/
theorem parseLine_eq_first_counterexample :
    trimSpace ['=', 'a', '=', 'b'] = ['=', 'a', '=', 'b'] ∧
    (['=', 'a', '=', 'b'] : GoString).head? = some '=' ∧
    (['=', 'a', '=', 'b'] : GoString)[2]? = some '=' ∧
    (Reader.parseLine (NewReaderString []) ['=', 'a', '=', 'b']).map Prod.fst =
      some (.error (.syntaxError { Line := 0, Msg := "parseLine:键名不能为空" })) := by
  decide

/-- C2 (amended): for every line whose first character is none of `[`, `#`, `;`,
`=` and that contains `=`, that is, every line `a ++ "=" ++ b` with `a` non-empty
and free of `=`, `parseLine` returns an Element token split at the first `=`: Key
is `a` with trailing whitespace removed, Value is `b` with leading whitespace
removed (so the value may contain `=` and may be empty). -/
theorem parseLine_element_split (r : Reader) (a b : GoString) (c0 : Char)
    (hhead : a.head? = some c0) (h1 : c0 ≠ '[') (h2 : c0 ≠ '#') (h3 : c0 ≠ ';')
    (hfirst : '=' ∉ a) :
    r.parseLine (a ++ '=' :: b) =
      some (.ok { Typ := Element, Key := trimRightFunc a isSpace, Value := trimLeftFunc b isSpace },
        { r with token :=
            { Typ := Element, Key := trimRightFunc a isSpace, Value := trimLeftFunc b isSpace } }) :=
  parseLine_element r a b c0 hhead h1 h2 h3 hfirst

/-- C2 witness: the tests' line `key = v=al`. -/
theorem parseLine_element_split_witness :
    Reader.parseLine (NewReaderString []) ("key ".toList ++ '=' :: " v=al".toList) =
      some (.ok { Typ := Element, Key := "key".toList, Value := "v=al".toList },
        { NewReaderString [] with token :=
            { Typ := Element, Key := "key".toList, Value := "v=al".toList } }) :=
  parseLine_element_split (NewReaderString []) "key ".toList " v=al".toList 'k' rfl
    (by decide) (by decide) (by decide) (by decide)

/-- C3 (as stated, refuted): each key below is non-empty and newline-free, yet
tokenizing `k=v` does not yield an Element with the trimmed key: for `k = " "` it
is a syntax error, for `k = "a=b"` the key is `a` and the value `b=v`, for
`k = "#a"` it is a Comment, and for `k = "[a"` it is a syntax error. -/
theorem Token_element_counterexample :
    ((NewReaderString (" ".toList ++ '=' :: "v".toList)).Token).map Prod.fst =
      some (.error (.syntaxError { Line := 1, Msg := "parseLine:键名不能为空" })) ∧
    ((NewReaderString ("a=b".toList ++ '=' :: "v".toList)).Token).map Prod.fst =
      some (.ok { Typ := Element, Key := "a".toList, Value := "b=v".toList }) ∧
    ((NewReaderString ("#a".toList ++ '=' :: "v".toList)).Token).map Prod.fst =
      some (.ok { Typ := Comment, Key := [], Value := "a=v".toList }) ∧
    ((NewReaderString ("[a".toList ++ '=' :: "v".toList)).Token).map Prod.fst =
      some (.error (.syntaxError { Line := 1, Msg := "parseLine:section名称没有以]作为结尾" })) := by
  decide

/-- C3 (amended): for every key `k` and value `v` without newline such that `k`
contains no `=`, is non-empty after trimming and does not start, after trimming,
with `[`, `#` or `;` (`v` may be empty), the first call of `Reader.Token` on the
line `k=v` returns, without error, the token with Type Element, Key `k` trimmed
and Value `v` trimmed. -/
theorem Token_element_line (k v : GoString) (c0 : Char) (hk : '\n' ∉ k) (hv : '\n' ∉ v)
    (heq : '=' ∉ k) (hhead : (trimSpace k).head? = some c0)
    (h1 : c0 ≠ '[') (h2 : c0 ≠ '#') (h3 : c0 ≠ ';') :
    ∃ r1 : Reader, (NewReaderString (k ++ '=' :: v)).Token =
      some (.ok { Typ := Element, Key := trimSpace k, Value := trimSpace v }, r1) :=
  Token_element k v c0 hk hv heq hhead h1 h2 h3

/-- C3 witness: the line ` k ey = v al `. -/
theorem Token_element_line_witness :
    ∃ r1 : Reader, (NewReaderString (" k ey ".toList ++ '=' :: " v al ".toList)).Token =
      some (.ok { Typ := Element, Key := trimSpace " k ey ".toList,
                  Value := trimSpace " v al ".toList }, r1) :=
  Token_element_line " k ey ".toList " v al ".toList 'k' (by decide) (by decide) (by decide)
    (by decide) (by decide) (by decide) (by decide)

/-- C4: for every name without newline that is non-empty after trimming and
every two runs `ws1`, `ws2` of whitespace characters other than newline, the
first call of `Reader.Token` on the line `[` `ws1` name `ws2` `]` returns,
without error, the token with Type Section, empty Key and Value the name with
surrounding whitespace trimmed. -/
theorem Token_section_line (ws1 name ws2 : GoString) (hname : '\n' ∉ name)
    (hne : trimSpace name ≠ [])
    (hws1 : ∀ c ∈ ws1, isSpace c = true ∧ c ≠ '\n')
    (hws2 : ∀ c ∈ ws2, isSpace c = true ∧ c ≠ '\n') :
    ∃ r1 : Reader, (NewReaderString ('[' :: (ws1 ++ name ++ ws2 ++ [']']))).Token =
      some (.ok { Typ := Section, Key := [], Value := trimSpace name }, r1) :=
  Token_section ws1 name ws2 hname hne hws1 hws2

/-- C4 witness: the tests' line `[ s ection ]`, whose Value is `s ection`. -/
theorem Token_section_line_witness :
    trimSpace "s ection".toList = "s ection".toList ∧
    ∃ r1 : Reader,
      (NewReaderString ('[' :: (" ".toList ++ "s ection".toList ++ " ".toList ++ [']']))).Token =
        some (.ok { Typ := Section, Key := [], Value := trimSpace "s ection".toList }, r1) :=
  ⟨by decide,
    Token_section_line " ".toList "s ection".toList " ".toList (by decide) (by decide)
      (by decide) (by decide)⟩

/-- C5: for every non-empty line (in particular every whitespace-trimmed one) and
every reader, `parseLine` fails with a SyntaxError if and only if either the line
starts with `[` and (it does not end with `]` or the text between the brackets,
`line[1:len-1]`, is empty after trimming), or the line starts with none of `[`,
`#`, `;` and (it contains no `=` or its first character is `=`).  In particular
`[section`, `[]`, `[   ]`, `=value` and `key value` all fail, and every line
starting with `#` or `;` succeeds. -/
theorem parseLine_fails_iff :
    (∀ (r : Reader) (line : GoString), line ≠ [] →
      ((∃ e r1, r.parseLine line = some (.error (.syntaxError e), r1)) ↔
        (line.head? = some '[' ∧
          (line.getLast? ≠ some ']' ∨ trimSpace (slice line 1 (line.length - 1)) = [])) ∨
        (line.head? ≠ some '[' ∧ line.head? ≠ some '#' ∧ line.head? ≠ some ';' ∧
          ('=' ∉ line ∨ line.head? = some '=')))) ∧
    (∀ (r : Reader), ∀ line ∈ ["[section".toList, "[]".toList, "[   ]".toList,
        "=value".toList, "key value".toList],
      ∃ e r1, r.parseLine line = some (.error (.syntaxError e), r1)) ∧
    (∀ (r : Reader) (c : Char) (rest : GoString), c = '#' ∨ c = ';' →
      ∃ tok r1, r.parseLine (c :: rest) = some (.ok tok, r1)) := by
  refine ⟨parseLine_error_iff, ?_, ?_⟩
  · intro r line hline
    simp only [List.mem_cons, List.mem_singleton, List.not_mem_nil, or_false] at hline
    rcases hline with h | h | h | h | h <;> subst h
    · exact (parseLine_error_iff r _ (by decide)).mpr (by decide)
    · exact (parseLine_error_iff r _ (by decide)).mpr (by decide)
    · exact (parseLine_error_iff r _ (by decide)).mpr (by decide)
    · exact (parseLine_error_iff r _ (by decide)).mpr (by decide)
    · exact (parseLine_error_iff r _ (by decide)).mpr (by decide)
  · intro r c rest hc
    exact ⟨_, _, parseLine_comment r c rest hc⟩

/-- C6: for every input and every run of successive calls of `Reader.Token`, when
call number `j` (counting from 0) returns a SyntaxError `e`, then `e.Line` is the
1-based position, among all physical lines of the input, of the line that call
reported on: the physical line at position `e.Line` exists, is non-blank,
`parseLine` fails on its trimmed text with exactly `e`, and exactly `j` non-blank
lines (those of the earlier calls) stand before it, blank lines being counted in
the position. -/
theorem syntaxError_line_is_physical_line (s : GoString) (k : Nat) :
    ∃ results : List (Except GoError Token),
      (NewReaderString s).calls k = some results ∧
      ∀ (j : Nat) (e : SyntaxError), results[j]? = some (.error (.syntaxError e)) →
        1 ≤ e.Line ∧ ∃ l, (physLines s)[e.Line - 1]? = some l ∧ trimSpace l ≠ [] ∧
          (∀ r0 : Reader, r0.line = e.Line → r0.token = resetToken →
            ∃ r1, r0.parseLine (trimSpace l) = some (.error (.syntaxError e), r1)) ∧
          ((physLines s).take (e.Line - 1)).countP (fun l => decide (trimSpace l ≠ [])) = j := by
  refine ⟨_, calls_newReader s k, ?_⟩
  intro j e hj
  rcases results_getElem s k j _ hj with ⟨p, hp, hres⟩ | ⟨_, hres⟩
  · have hline := lineResult_error_line p.1 p.2 e hres.symm
    rw [nonBlankLines_eq_from] at hp
    obtain ⟨h1, l, h2, h3, h4, h5⟩ := nonBlankFrom_getElem _ 0 j p hp
    rw [hline]
    refine ⟨by omega, l, by simpa using h2, by rw [h3]; exact h4, ?_, by simpa using h5⟩
    intro r0 h0 ht
    obtain ⟨r1, hr1, _⟩ := parseLine_lineResult r0 p.2 h4 ht
    exact ⟨r1, by rw [h3, hr1, h0, ← hres]⟩
  · cases hres

/-- C7: for every input and every run of successive calls of `Reader.Token` on
one reader, once a call has returned a token of Type `EOF`, every later call
returns the token of Type `EOF` with empty Key and Value, and no error.  The
runs shown are inputs whose last line has no trailing newline, or is whitespace
only. -/
theorem Token_EOF_is_terminal :
    (∀ (s : GoString) (k : Nat), ∃ results : List (Except GoError Token),
      (NewReaderString s).calls k = some results ∧
      ∀ (i j : Nat) (tok : Token), i ≤ j → j < k →
        results[i]? = some (.ok tok) → tok.Typ = EOF →
        results[j]? = some (.ok { Typ := EOF, Key := [], Value := [] })) ∧
    (NewReaderString "k=v".toList).calls 3 =
      some [.ok { Typ := Element, Key := "k".toList, Value := "v".toList },
        .ok { Typ := EOF, Key := [], Value := [] }, .ok { Typ := EOF, Key := [], Value := [] }] ∧
    (NewReaderString "k=v\n \t ".toList).calls 3 =
      some [.ok { Typ := Element, Key := "k".toList, Value := "v".toList },
        .ok { Typ := EOF, Key := [], Value := [] }, .ok { Typ := EOF, Key := [], Value := [] }] := by
  refine ⟨?_, by decide, by decide⟩
  intro s k
  refine ⟨_, calls_newReader s k, ?_⟩
  intro i j tok hij hjk hi htyp
  rcases results_getElem s k i _ hi with ⟨p, hp, hres⟩ | ⟨hlen, _⟩
  · have hne : p.2 ≠ [] := nonBlankLines_ne_nil s p (List.getElem?_mem hp)
    rcases lineResult_ok_typ p.1 p.2 hne tok hres.symm with h | h | h <;>
      (rw [htyp] at h; exact absurd h (by decide))
  · exact results_getElem_eof s k j hjk (by omega)

/-- C8: write-then-read round trip.  For either comment marker (a writer that
`NewWriter` accepts, over an empty `bytes.Buffer` as in `TestWrite`) and every
list of round-trippable tokens (see `RoundTrippable`), writing the tokens with
`AddComment` / `AddElement` / `AddSection` returns, and after `Flush` calling
`Reader.Token` on the written text once more than there are tokens returns
exactly the same tokens in the same order, followed by the `EOF` token, all
without error. -/
theorem write_then_read_round_trip (sym : Char) (w : Writer)
    (hw : NewWriter bytesBuffer sym = .ok w)
    (ts : List Token) (h : ∀ t ∈ ts, RoundTrippable t) :
    ∃ w1, writeTokens w ts = some w1 ∧
      (NewReaderString w1.Flush.buf.wr.written).calls (ts.length + 1) =
        some (ts.map Except.ok ++ [.ok { Typ := EOF, Key := [], Value := [] }]) :=
  round_trip sym w hw ts h

/-- C8 witness: Comment `hello`, Element `k1=v1`, Element `k2=v2`, Section `s1`,
Element `k1=v1` with marker `#`; the written text is the one of the
specification. -/
theorem write_then_read_round_trip_witness :
    (writeTokens { buf := NewBufWriter bytesBuffer, symbol := '#' } scenarioTokens).map
        (fun w1 => w1.Flush.buf.wr.written) =
      some "#hello\nk1=v1\nk2=v2\n[s1]\nk1=v1\n".toList ∧
    ∃ w1, writeTokens { buf := NewBufWriter bytesBuffer, symbol := '#' } scenarioTokens =
        some w1 ∧
      (NewReaderString w1.Flush.buf.wr.written).calls (scenarioTokens.length + 1) =
        some (scenarioTokens.map Except.ok ++ [.ok { Typ := EOF, Key := [], Value := [] }]) :=
  ⟨by decide,
    write_then_read_round_trip '#' { buf := NewBufWriter bytesBuffer, symbol := '#' } rfl
      scenarioTokens (by decide)⟩

/-- C9: `UnmarshalMap` always returns, and it returns an error if and only if the
input has zero bytes or some call of `Reader.Token` on the input returns a
syntax error; with every error the returned mapping is nil, and for zero-byte
input the error is a SyntaxError.  So a non-empty input of blank lines only
succeeds, as the run on two blank lines shows. -/
theorem UnmarshalMap_error_iff :
    (∀ data : GoString, ∃ (m : Option (GoMap (GoMap GoString))) (err : Option GoError),
      UnmarshalMap data = some (m, err) ∧
      (err ≠ none ↔
        data = [] ∨ ∃ k results e, (NewReaderString data).calls k = some results ∧
          Except.error (GoError.syntaxError e) ∈ results) ∧
      (err ≠ none → m = none) ∧
      (data = [] → ∃ e, err = some (.syntaxError e))) ∧
    UnmarshalMap "\n  \n".toList = some (some [([], [])], none) := by
  refine ⟨?_, rfl⟩
  intro data
  by_cases hd : data = []
  · subst hd
    exact ⟨_, _, rfl, by simp, fun _ => rfl, fun _ => ⟨_, rfl⟩⟩
  · obtain ⟨h1, h2, _⟩ := foldResults_error _ (lineResults_good data) [] [] []
    refine ⟨_, _, UnmarshalMap_spec data hd, ?_, h2, fun h => absurd h hd⟩
    rw [h1, calls_error_iff]
    simp [hd]

/-- C10: for every input on which `UnmarshalMap` succeeds, the result has an
inner mapping under the outer key `""`, and that mapping consists of exactly the
element lines that precede the first section header (all element lines when
there is no header), each key mapped to the value of its last occurrence among
them: key `k` is mapped to `v` if and only if some leading element line has key
`k` and value `v` and no later leading element line has key `k`.  When the input
has no section header, `""` is the only outer key. -/
theorem UnmarshalMap_root_section (data : GoString) (m : GoMap (GoMap GoString))
    (h : UnmarshalMap data = some (some m, none)) :
    ∃ inner, m.get [] = some inner ∧
      (∀ k v, inner.get k = some v ↔
        ∃ a l b, leadingElements data = a ++ l :: b ∧ elemKey l = k ∧ elemValue l = v ∧
          ∀ l1 ∈ b, elemKey l1 ≠ k) ∧
      ((∀ l ∈ contentLines data, isHeader l = false) → m.keys = [[]]) := by
  obtain ⟨inner, h1, h2, h3⟩ := UnmarshalMap_root data m h
  refine ⟨inner, h1, ?_, h3⟩
  intro k v
  rw [h2 k]
  exact lastValue_iff k v _

/-- C10 witness: the input `a=1`, ` b = 2`, `#c`, `a=3`, `[s]`, `c=4`. -/
theorem UnmarshalMap_root_section_witness :
    UnmarshalMap sampleData = some (some sampleMap, none) ∧
    ∃ inner, sampleMap.get [] = some inner ∧
      (∀ k v, inner.get k = some v ↔
        ∃ a l b, leadingElements sampleData = a ++ l :: b ∧ elemKey l = k ∧ elemValue l = v ∧
          ∀ l1 ∈ b, elemKey l1 ≠ k) ∧
      ((∀ l ∈ contentLines sampleData, isHeader l = false) → sampleMap.keys = [[]]) :=
  ⟨rfl, UnmarshalMap_root_section sampleData sampleMap rfl⟩

/-- C12 (as stated, refuted): over an `io.Writer` whose `Write` fails, a new writer
takes `AddComment longComment` without error (4095 characters are pending), and
then `AddSection` with the valid name `s` fails with the sink's error, after the
`[` was accepted: the buffered text has grown by `[`. -/
theorem AddSection_write_failure_counterexample :
    NewWriter failingSink '#' = .ok { buf := NewBufWriter failingSink, symbol := '#' } ∧
    Writer.AddComment { buf := NewBufWriter failingSink, symbol := '#' } longComment =
      some (nearlyFull, none) ∧
    "s".toList ≠ [] ∧ '\n' ∉ "s".toList ∧
    (nearlyFull.AddSection "s".toList).map (fun r => (r.2, r.1.buf.text)) =
      some (some sinkError, nearlyFull.buf.text ++ ['[']) := by
  decide!

/-- C12 (amended): for every section name and writer: when the name is empty or
contains a newline, `AddSection` fails and the writer, and so the buffered text,
is unchanged.  For any other name (and a buffer of positive size) `AddSection`
returns; it fails only with the error of a failed write to the `bufio.Writer`,
which is then the writer's sticky error, and a prefix of `[` name `]` newline
may already have been accepted; when it returns no error the text handed to the
writer is the previous text followed by exactly `[` name `]` newline; and over
an `io.Writer` that never fails (no error so far) it returns no error.
Duplicate names are written verbatim: adding `s` twice to an empty
`bytes.Buffer` gives `[s]`, `[s]`. -/
theorem AddSection_outcome :
    (∀ (w : Writer) (sec : GoString), sec = [] ∨ '\n' ∈ sec →
      ∃ e, w.AddSection sec = some (w, some e)) ∧
    (∀ (w : Writer) (sec : GoString), 0 < w.buf.size → sec ≠ [] → '\n' ∉ sec →
      ∃ w1 e, w.AddSection sec = some (w1, e) ∧ w1.symbol = w.symbol ∧
        (e = none → w1.buf.err = none ∧
          w1.buf.text = w.buf.text ++ ('[' :: sec ++ [']', '\n'])) ∧
        (e ≠ none → w1.buf.err = e ∧
          ∃ q rest, '[' :: sec ++ [']', '\n'] = q ++ rest ∧ w1.buf.text = w.buf.text ++ q) ∧
        (w.buf.err = none → w.buf.wr.NeverFails → e = none)) ∧
    ((Writer.AddSection { buf := NewBufWriter bytesBuffer, symbol := '#' } "s".toList).bind
        (fun r => r.1.AddSection "s".toList)).map (fun r => (r.2, r.1.buf.text)) =
      some (none, "[s]\n[s]\n".toList) := by
  refine ⟨?_, ?_, by decide⟩
  · intro w sec hbad
    by_cases h0 : sec = []
    · subst h0
      exact ⟨.other "AddSection:section名称不能为空值", by simp [Writer.AddSection]⟩
    · have h1 : '\n' ∈ sec := hbad.resolve_left h0
      have hlen : ¬ sec.length = 0 := fun h => h0 (List.length_eq_zero.mp h)
      have hidx : indexRune sec '\n' > -1 := (indexRune_gt_iff sec '\n').mpr h1
      exact ⟨.other "AddSection:section名称中不能包含换行符",
        by simp only [Writer.AddSection, hlen, hidx, if_false, if_true]⟩
  · intro w sec hsize hne hnl
    obtain ⟨w1, e, h1, h2, _, a2, a3, a4⟩ := AddSection_appended w sec hsize hne hnl
    exact ⟨w1, e, h1, h2, a2, a3, fun g1 g2 => (a4 g1 g2).1⟩

/-- C13 (as stated, refuted): over an `io.Writer` whose `Write` fails, with 4095
characters pending, `AddElement` with the valid key `k` and value `v` fails
with the sink's error, after the key was accepted: the buffered text has grown
by `k`. -/
theorem AddElement_write_failure_counterexample :
    NewWriter failingSink '#' = .ok { buf := NewBufWriter failingSink, symbol := '#' } ∧
    Writer.AddComment { buf := NewBufWriter failingSink, symbol := '#' } longComment =
      some (nearlyFull, none) ∧
    "k".toList ≠ [] ∧ '\n' ∉ "k".toList ∧ '\n' ∉ "v".toList ∧
    (nearlyFull.AddElement "k".toList "v".toList).map (fun r => (r.2, r.1.buf.text)) =
      some (some sinkError, nearlyFull.buf.text ++ ['k']) := by
  decide!

/-- C13 (amended): for every key, value and writer: when the key is empty or the
key or the value contains a newline, `AddElement` fails and the writer, and so
the buffered text, is unchanged.  For any other key and value (and a buffer of
positive size) `AddElement` returns; it fails only with the error of a failed
write to the `bufio.Writer`, which is then the writer's sticky error, and a
prefix of key `=` value newline may already have been accepted; when it returns
no error the text handed to the writer is the previous text followed by exactly
key `=` value newline, an `=` inside the value being written unescaped; and over
an `io.Writer` that never fails (no error so far) it returns no error.  Key
`Key1` with value `=Value1` gives `Key1==Value1`. -/
theorem AddElement_outcome :
    (∀ (w : Writer) (key val : GoString), key = [] ∨ '\n' ∈ key ∨ '\n' ∈ val →
      ∃ e, w.AddElement key val = some (w, some e)) ∧
    (∀ (w : Writer) (key val : GoString), 0 < w.buf.size → key ≠ [] → '\n' ∉ key →
      '\n' ∉ val →
      ∃ w1 e, w.AddElement key val = some (w1, e) ∧ w1.symbol = w.symbol ∧
        (e = none → w1.buf.err = none ∧
          w1.buf.text = w.buf.text ++ (key ++ '=' :: val ++ ['\n'])) ∧
        (e ≠ none → w1.buf.err = e ∧
          ∃ q rest, key ++ '=' :: val ++ ['\n'] = q ++ rest ∧ w1.buf.text = w.buf.text ++ q) ∧
        (w.buf.err = none → w.buf.wr.NeverFails → e = none)) ∧
    (Writer.AddElement { buf := NewBufWriter bytesBuffer, symbol := '#' } "Key1".toList
        "=Value1".toList).map (fun r => (r.2, r.1.buf.text)) =
      some (none, "Key1==Value1\n".toList) := by
  refine ⟨?_, ?_, by decide⟩
  · intro w key val hbad
    by_cases h0 : key = []
    · subst h0
      exact ⟨.other "AddElement:参数key不能为空", by simp [Writer.AddElement]⟩
    · have hlen : ¬ key.length = 0 := fun h => h0 (List.length_eq_zero.mp h)
      have h1 : '\n' ∈ key ∨ '\n' ∈ val := hbad.resolve_left h0
      have hidx : indexRune key '\n' > -1 ∨ indexRune val '\n' > -1 := by
        rcases h1 with h | h
        · exact Or.inl ((indexRune_gt_iff key '\n').mpr h)
        · exact Or.inr ((indexRune_gt_iff val '\n').mpr h)
      exact ⟨.other "AddElement:参数key和val都不能包含换行符",
        by simp only [Writer.AddElement, hlen, hidx, if_false, if_true]⟩
  · intro w key val hsize hne hkn hvn
    obtain ⟨w1, e, h1, h2, _, a2, a3, a4⟩ := AddElement_appended w key val hsize hne hkn hvn
    exact ⟨w1, e, h1, h2, a2, a3, fun g1 g2 => (a4 g1 g2).1⟩

/-- C15: for every marker `b` (and every `io.Writer`), `NewWriter` succeeds if and
only if `b` is `#` or `;`; on success the writer uses `b` as its comment marker,
and for every other marker it returns an error and no writer, as for `*`. -/
theorem NewWriter_ok_iff :
    (∀ (sink : Sink) (b : Char),
      ((∃ w, NewWriter sink b = .ok w) ↔ b = '#' ∨ b = ';') ∧
      (∀ w, NewWriter sink b = .ok w → w.symbol = b) ∧
      (¬ (b = '#' ∨ b = ';') → ∃ e, NewWriter sink b = .error e)) ∧
    (∀ sink : Sink,
      NewWriter sink '*' = .error (.other "NewWriter:注释符号只能是`;`或`#`")) := by
  refine ⟨?_, fun _ => rfl⟩
  intro sink b
  refine ⟨⟨?_, ?_⟩, ?_, ?_⟩
  · rintro ⟨w, hw⟩
    exact (NewWriter_ok sink b w hw).1
  · intro hb
    have hn : ¬ (b ≠ '#' ∧ b ≠ ';') := by
      rintro ⟨h1, h2⟩
      rcases hb with h | h
      · exact h1 h
      · exact h2 h
    exact ⟨{ buf := NewBufWriter sink, symbol := b }, by rw [NewWriter, if_neg hn]⟩
  · intro w hw
    rw [(NewWriter_ok sink b w hw).2]
  · intro hb
    have hn : b ≠ '#' ∧ b ≠ ';' := ⟨fun h => hb (Or.inl h), fun h => hb (Or.inr h)⟩
    exact ⟨_, by rw [NewWriter, if_pos hn]⟩

/-- C14 (as stated, refuted): over an `io.Writer` whose `Write` fails, with 4095
characters pending, `AddComment` with the text `c` and marker `#` returns the
sink's error and has appended only the marker, not the marker, the text and a
newline. -/
theorem AddComment_write_failure_counterexample :
    NewWriter failingSink '#' = .ok { buf := NewBufWriter failingSink, symbol := '#' } ∧
    Writer.AddComment { buf := NewBufWriter failingSink, symbol := '#' } longComment =
      some (nearlyFull, none) ∧
    (nearlyFull.AddComment "c".toList).map (fun r => (r.2, r.1.buf.text)) =
      some (some sinkError, nearlyFull.buf.text ++ ['#']) := by
  decide!

/-- C14 (amended): for every comment text `c` and every writer with marker `m` (and
a buffer of positive size), `AddComment` returns; it fails only with the error of
a failed write to the `bufio.Writer`, which is then the writer's sticky error,
and a prefix of the text below may already have been accepted; when it returns
no error it has appended to the buffered text exactly `m`, then `c` with every
newline replaced by newline plus `m`, then a newline; and over an `io.Writer`
that never fails (no error so far) it returns no error.  When `m` is `#` or `;`
that text consists of the pieces of `c` between its newlines, each prefixed with
`m`: exactly (number of newlines in `c`) + 1 lines, each beginning with `m`.  So
`line1\nline2` with `#` gives `#line1`, `#line2`, and a text that is just a
newline gives two empty comment lines. -/
theorem AddComment_outcome :
    (∀ (w : Writer) (c : GoString), 0 < w.buf.size →
      ∃ w1 e, w.AddComment c = some (w1, e) ∧ w1.symbol = w.symbol ∧
        (e = none → w1.buf.err = none ∧ w1.buf.text =
          w.buf.text ++ (w.symbol :: replaceNewline c ['\n', w.symbol] ++ ['\n'])) ∧
        (e ≠ none → w1.buf.err = e ∧
          ∃ q rest, w.symbol :: replaceNewline c ['\n', w.symbol] ++ ['\n'] = q ++ rest ∧
            w1.buf.text = w.buf.text ++ q) ∧
        (w.buf.err = none → w.buf.wr.NeverFails → e = none)) ∧
    (∀ (m : Char) (c : GoString), m = '#' ∨ m = ';' →
      physLines (m :: replaceNewline c ['\n', m] ++ ['\n']) =
        (splitNewline c).map (fun x => m :: x) ∧
      (physLines (m :: replaceNewline c ['\n', m] ++ ['\n'])).length = c.count '\n' + 1 ∧
      ∀ l ∈ physLines (m :: replaceNewline c ['\n', m] ++ ['\n']), l.head? = some m) ∧
    (Writer.AddComment { buf := NewBufWriter bytesBuffer, symbol := '#' }
        "line1\nline2".toList).map (fun r => (r.2, r.1.buf.text)) =
      some (none, "#line1\n#line2\n".toList) ∧
    (Writer.AddComment { buf := NewBufWriter bytesBuffer, symbol := '#' }
        "\n".toList).map (fun r => (r.2, r.1.buf.text)) =
      some (none, "#\n#\n".toList) := by
  refine ⟨?_, ?_, by decide, by decide⟩
  · intro w c hsize
    obtain ⟨w1, e, h1, h2, _, a2, a3, a4⟩ := AddComment_appended w c hsize
    exact ⟨w1, e, h1, h2, a2, a3, fun g1 g2 => (a4 g1 g2).1⟩
  · intro m c hm
    have hnl : m ≠ '\n' := by rcases hm with rfl | rfl <;> decide
    have h := comment_lines m hnl c
    refine ⟨h, ?_, ?_⟩
    · rw [h, List.length_map, splitNewline_length]
    · intro l hl
      rw [h] at hl
      obtain ⟨x, _, hx⟩ := List.mem_map.mp hl
      rw [← hx]
      rfl

/-- C16: for every reader and every call, a token that `Reader.Token` returns
without an error has Type Element, Section, Comment or EOF, and never Undefined.
Consequently the default branch of `UnmarshalMap` is unreachable: for every
input, `UnmarshalMap` never returns the unknown-element-type error of that
branch, and each error it returns is a SyntaxError. -/
theorem Token_type_never_undefined :
    (∀ (r : Reader) (tok : Token) (r1 : Reader), r.Token = some (.ok tok, r1) →
      (tok.Typ = Element ∨ tok.Typ = Section ∨ tok.Typ = Comment ∨ tok.Typ = EOF) ∧
      tok.Typ ≠ Undefined) ∧
    (∀ (data : GoString) (m : Option (GoMap (GoMap GoString))) (err : GoError),
      UnmarshalMap data = some (m, some err) →
      err ≠ .other "UnmarshalMap:未知的元素类型" ∧ ∃ e, err = .syntaxError e) := by
  constructor
  · intro r tok r1 h
    have h1 := tokenStart_ok_typ _ _ tok r1 h
    refine ⟨h1, ?_⟩
    rcases h1 with h2 | h2 | h2 | h2 <;> (rw [h2]; decide)
  · intro data m err h
    obtain ⟨e, he⟩ := UnmarshalMap_error_syntax data m err h
    refine ⟨?_, e, he⟩
    rw [he]
    intro h0
    cases h0

/-- C17: well-formedness of returned tokens.  For every input and every run of
successive calls of `Reader.Token`, every token returned without an error
satisfies: if its Type is Element then Key is non-empty and neither Key nor
Value starts or ends with whitespace; if its Type is Section then Value is
non-empty and neither starts nor ends with whitespace; if its Type is Comment
then Value does not end with whitespace; and if its Type is not Element then Key
is empty. -/
theorem returned_tokens_well_formed (s : GoString) (k : Nat) :
    ∃ results : List (Except GoError Token),
      (NewReaderString s).calls k = some results ∧
      ∀ tok, Except.ok tok ∈ results →
        (tok.Typ = Element → tok.Key ≠ [] ∧ NoLeadingSpace tok.Key ∧ NoTrailingSpace tok.Key ∧
          NoLeadingSpace tok.Value ∧ NoTrailingSpace tok.Value) ∧
        (tok.Typ = Section → tok.Value ≠ [] ∧ NoLeadingSpace tok.Value ∧
          NoTrailingSpace tok.Value) ∧
        (tok.Typ = Comment → NoTrailingSpace tok.Value) ∧
        (tok.Typ ≠ Element → tok.Key = []) := by
  refine ⟨_, calls_newReader s k, ?_⟩
  intro tok htok
  have h1 := List.mem_of_mem_take htok
  rcases List.mem_append.mp h1 with h2 | h2
  · obtain ⟨p, hp, hres⟩ := List.mem_map.mp h2
    obtain ⟨g1, g2, g3⟩ := nonBlankLines_trimmed s p hp
    exact lineResult_wellFormed p.1 p.2 g1 g2 g3 tok hres
  · have h3 := List.eq_of_mem_replicate h2
    cases h3
    exact eofToken_wellFormed

/-- C20: line endings.  For every input, replacing every `"\n"` by `"\r\n"` does
not change the results of any run of successive calls of `Reader.Token`: the
same tokens, the same syntax errors with the same line numbers, the same EOF.
The run shown has an element line, a blank line and a faulty line. -/
theorem crlf_same_results :
    (∀ (s : GoString) (k : Nat), ∃ results : List (Except GoError Token),
      (NewReaderString s).calls k = some results ∧
      (NewReaderString (crlf s)).calls k = some results) ∧
    crlf "k = v\n\nbad\n".toList = "k = v\r\n\r\nbad\r\n".toList ∧
    (NewReaderString "k = v\r\n\r\nbad\r\n".toList).calls 3 =
      some [.ok { Typ := Element, Key := "k".toList, Value := "v".toList },
        .error (.syntaxError { Line := 3, Msg := "parseLine:表达式中未找到`=`符号" }),
        .ok { Typ := EOF, Key := [], Value := [] }] := by
  refine ⟨?_, by decide, by decide⟩
  intro s k
  exact ⟨_, calls_newReader s k, by rw [calls_crlf, calls_newReader]⟩

/-- C11: for every input on which `UnmarshalMap` succeeds, the outer keys of the
result are exactly `""` and the names of the section headers of the input; the
section `""` maps to an empty inner mapping when no element line precedes the
first header, and a named section maps to an empty inner mapping when no element
line follows its last header (up to the next header or the end).  In particular
the input `[s]` yields an empty inner mapping for both `""` and `s`. -/
theorem UnmarshalMap_outer_keys :
    (∀ (data : GoString) (m : GoMap (GoMap GoString)),
      UnmarshalMap data = some (some m, none) →
      (∀ n, n ∈ m.keys ↔
        n = [] ∨ ∃ l ∈ contentLines data, isHeader l = true ∧ headerName l = n) ∧
      (leadingElements data = [] → m.get [] = some []) ∧
      (∀ (a : List GoString) (hd : GoString) (rest : List GoString),
        contentLines data = a ++ hd :: rest → isHeader hd = true →
        (∀ h1 ∈ rest, isHeader h1 = true → headerName h1 ≠ headerName hd) →
        blockElements rest = [] → m.get (headerName hd) = some [])) ∧
    UnmarshalMap "[s]".toList = some (some [("s".toList, []), ([], [])], none) := by
  refine ⟨?_, rfl⟩
  intro data m h
  refine ⟨UnmarshalMap_keys data m h, ?_, ?_⟩
  · intro hlead
    obtain ⟨inner, h1, h2, _⟩ := UnmarshalMap_root data m h
    have : inner = [] := GoMap.eq_nil_of_get_none inner (fun k => by rw [h2 k, hlead]; rfl)
    rw [h1, this]
  · intro a hd rest hsplit hh hlast hempty
    obtain ⟨inner, h1, h2⟩ := UnmarshalMap_block data m h a hd rest hsplit hh hlast
    have : inner = [] := GoMap.eq_nil_of_get_none inner (fun k => by rw [h2 k, hempty]; rfl)
    rw [h1, this]

/-- C18: when a section name occurs in more than one header of an input on which
`UnmarshalMap` succeeds (or in one only), the inner mapping stored under that
name holds exactly the element lines that follow the last header with that name,
up to the next header or the end of the input, each key mapped to the value of
its last occurrence among them; the elements under earlier headers of the same
name are dropped, not merged.  So `[s]`, `a=1`, `[s]`, `b=2` maps `s` to the
single pair `b`, `2`. -/
theorem UnmarshalMap_last_header_wins :
    (∀ (data : GoString) (m : GoMap (GoMap GoString)),
      UnmarshalMap data = some (some m, none) →
      ∀ (a : List GoString) (hd : GoString) (rest : List GoString),
        contentLines data = a ++ hd :: rest → isHeader hd = true →
        (∀ h1 ∈ rest, isHeader h1 = true → headerName h1 ≠ headerName hd) →
        ∃ inner, m.get (headerName hd) = some inner ∧
          ∀ k v, inner.get k = some v ↔
            ∃ x l y, blockElements rest = x ++ l :: y ∧ elemKey l = k ∧ elemValue l = v ∧
              ∀ l1 ∈ y, elemKey l1 ≠ k) ∧
    UnmarshalMap "[s]\na=1\n[s]\nb=2\n".toList =
      some (some [("s".toList, [("b".toList, "2".toList)]), ([], [])], none) := by
  refine ⟨?_, rfl⟩
  intro data m h a hd rest hsplit hh hlast
  obtain ⟨inner, h1, h2⟩ := UnmarshalMap_block data m h a hd rest hsplit hh hlast
  refine ⟨inner, h1, fun k v => ?_⟩
  rw [h2 k]
  exact lastValue_iff k v _

/-- C19: comments and blank lines do not affect the map projection.  For every
non-empty input `pre ++ post` split at a line boundary (`pre` is empty or ends
with a newline) and every inserted line (`body` plus a newline) that is blank
(`body` is whitespace only, without newline) or a complete comment line (`body`
is `#` or `;` followed by text without newline), `UnmarshalMap` returns the same
mapping on the input with the line inserted as on the input itself, and it
succeeds on the one exactly when it succeeds on the other. -/
theorem comment_and_blank_lines_ignored (pre post body : GoString) (hd : pre ++ post ≠ [])
    (hpre : pre = [] ∨ ∃ q, pre = q ++ ['\n']) (hb : '\n' ∉ body)
    (hkind : (∀ c ∈ body, isSpace c = true) ∨
      ∃ m text, (m = '#' ∨ m = ';') ∧ body = m :: text) :
    ∃ (m : Option (GoMap (GoMap GoString))) (e1 e2 : Option GoError),
      UnmarshalMap (pre ++ post) = some (m, e1) ∧
      UnmarshalMap (pre ++ (body ++ ['\n']) ++ post) = some (m, e2) ∧
      (e1 = none ↔ e2 = none) :=
  insert_line_same_mapping pre post body hd hpre hb hkind

/-- C19 witness: the comment line `;note` inserted after the first line of
`a=1`, `[s]`, `b=2`. -/
theorem comment_and_blank_lines_ignored_witness :
    ∃ (m : Option (GoMap (GoMap GoString))) (e1 e2 : Option GoError),
      UnmarshalMap ("a=1\n".toList ++ "[s]\nb=2\n".toList) = some (m, e1) ∧
      UnmarshalMap ("a=1\n".toList ++ (";note".toList ++ ['\n']) ++ "[s]\nb=2\n".toList) =
        some (m, e2) ∧
      (e1 = none ↔ e2 = none) :=
  comment_and_blank_lines_ignored "a=1\n".toList "[s]\nb=2\n".toList ";note".toList
    (by decide) (Or.inr ⟨"a=1".toList, rfl⟩) (by decide)
    (Or.inr ⟨';', "note".toList, Or.inr rfl, rfl⟩)

end Ini
